import Mathlib

/-!
# go-onvif: the tag-driven XML re-serialisation engine and the device cache

A shallow embedding of `soapHandling`, `mapProcessing`, `xmlProcessing`,
`xmlUnmarshal`, `ident`, `xmlMaker` and `xmlAnalize` (`xml_apis/api.go`), of
`DeviceCache` with `NewDeviceCache`, `GetDevice` and `cleanup`
(`json_apis/utils/device_cache.go`) and of the two handlers `handleDiscovery`
(`xml_apis/api.go`, `json_apis/api.go`), followed by theorems about them.

Modelling conventions.

* A Go `string` stored in a data structure is a Lean `String`; the string
  algorithms (`strings.Index`, `strings.Replace`, the regular expression) work on
  its list of characters.  Every pattern searched for is ASCII, so cutting a
  string before the first occurrence of a pattern gives the same substring
  whether positions count bytes or characters.
* `reflect` is replaced by an explicit type descriptor `GoType`: a struct type is
  the list of its fields (name, raw tag, field type) in declaration order, every
  other kind is `basic`.  The fields are exported and of a concrete type, as in the
  request types of the `onvif` packages: on an unexported field or a nil interface
  `f.Interface()` and `reflect.New` panic.  The walk over an instance, with its field
  values and its fields of interface type, is `soapHandlingValue`.
* The entries of the shape are the single-entry maps that `soapHandling` builds.
* The input document parsed by `etree` is a forest of `Element`s; `text` is what
  `Element.Text()` returns and `child` what `FindElements("./*")` returns.  Parsing
  `acceptedData` and writing the output document to a string are done by `etree`
  and are not part of the model.
* The output document under construction is the list of created elements in
  creation order, each recording the element it was attached to.  Every element
  is attached exactly once, right after its creation, and `AddChild` appends, so
  the children of an element are the entries naming it as parent, in list order.
  The attributes of an output element are the contents of the Go map `attr`; the
  order in which `range` visits them is not specified by Go.
* A Go function that only returns an error returns `Except`; a function that may
  also panic (nil pointer, index or slice bound out of range) returns an
  `Outcome`.  Loops whose termination is not structural take fuel.
* The device cache is a pair of finite maps and a TTL.  Its operations are taken
  one call at a time; `onvif.NewDevice` and the clock are inputs of the model.
-/

namespace GoOnvif

/-! ## Results -/

/-- Result of running a Go function: a value, a returned `error`, a run-time
panic, or exhaustion of the fuel of a loop of the model. -/
inductive Outcome (α : Type) where
  | ok (a : α)
  | error (msg : String)
  | panic
  | outOfFuel
deriving DecidableEq, Repr

/-! ## Strings -/

/-- The characters of a Go string. -/
def chars (s : String) : List Char :=
  s.data

/-- Go `strings.Index(s, sub)` as an option: the position of the first occurrence
of `sub` in `s`. -/
def indexOf? : List Char → List Char → Option Nat
  | [], sub => if sub.isEmpty then some 0 else none
  | c :: cs, sub =>
    if sub.isPrefixOf (c :: cs) then some 0
    else (indexOf? cs sub).map (· + 1)

/-- Go `strings.Index(s, sub)`: `-1` when `sub` does not occur in `s`. -/
def stringsIndex (s sub : List Char) : Int :=
  match indexOf? s sub with
  | none => -1
  | some i => i

/-- Go slice expression `s[0:i]` for an index `i ≥ 0`. -/
def sliceTo (s : List Char) (i : Int) : List Char :=
  s.take i.toNat

/-- The loop of Go `strings.Replace(s, old, new, -1)` for a non-empty `old`: scan
from the left; `skip` counts the characters of a matched occurrence still to be
passed over. -/
def replaceGo (old new : List Char) : List Char → Nat → List Char
  | [], _ => []
  | _ :: cs, skip + 1 => replaceGo old new cs skip
  | c :: cs, 0 =>
    if old.isPrefixOf (c :: cs) then new ++ replaceGo old new cs (old.length - 1)
    else c :: replaceGo old new cs 0

/-- Go `strings.Replace(s, old, new, -1)` for a non-empty `old`. -/
def stringsReplace (s old new : List Char) : List Char :=
  replaceGo old new s 0

/-- Go `unicode.IsSpace`: the characters with the Unicode property White_Space. -/
def isSpace (c : Char) : Bool :=
  c = ' ' || c = '\t' || c = '\n' || c = '\x0b' || c = '\x0c' || c = '\r' ||
    c = '\u0085' || c = '\u00a0' || c = '\u1680' ||
    (0x2000 ≤ c.toNat && c.toNat ≤ 0x200a) || c = '\u2028' || c = '\u2029' ||
    c = '\u202f' || c = '\u205f' || c = '\u3000'

/-- Go `strings.TrimSpace`. -/
def stringsTrimSpace (s : List Char) : List Char :=
  ((s.dropWhile isSpace).reverse.dropWhile isSpace).reverse

/-- Go `strings.Split(s, sep)` for a one-character separator. -/
def stringsSplit (sep : Char) : List Char → List (List Char)
  | [] => [[]]
  | c :: cs =>
    if c = sep then [] :: stringsSplit sep cs
    else
      match stringsSplit sep cs with
      | [] => [[c]]
      | w :: ws => (c :: w) :: ws

/-! ## Data model -/

/-- Descriptor of a Go type as `reflect` sees it: a struct with its fields in
declaration order, each a triple (field name, raw tag, field type), or any other
kind. -/
inductive GoType where
  | basic : GoType
  | struct (fields : List (String × String × GoType)) : GoType

/-- One entry of the shape: the single-entry map `{fieldName: rawTag}`. -/
structure ShapeNode where
  fieldName : String
  rawTag : String
deriving DecidableEq, Repr

/-- Go map lookup `tg[key]` on a single-entry map: the zero value `""` for an
absent key. -/
def ShapeNode.get (tg : ShapeNode) (key : String) : String :=
  if key = tg.fieldName then tg.rawTag else ""

/-- Value of type `etree.Attr`. -/
structure Attr where
  space : String
  key : String
  value : String
deriving DecidableEq, Repr

/-- Element of the parsed input document. -/
inductive Element where
  | mk (space tag : String) (attr : List Attr) (text : String) (child : List Element)

/-- Value stored in a FlatNode (`[]interface{}`): a `string` or a `[]etree.Attr`. -/
inductive Item where
  | str (s : String)
  | attrs (a : List Attr)
deriving DecidableEq, Repr

/-- FlatNode: the slice `[]interface{}{elem.Tag, elem.Attr, elem.Text()}`. -/
abbrev FlatNode := List Item

/-- Go `map[string]string` holding attributes, as an association list with
distinct keys. -/
abbrev AttrMap := List (String × String)

/-- Map assignment `m[k] = v`. -/
def AttrMap.set : AttrMap → String → String → AttrMap
  | [], k, v => [(k, v)]
  | (k', v') :: rest, k, v =>
    if k' = k then (k, v) :: rest else (k', v') :: AttrMap.set rest k v

/-- Pointer `*etree.Element` into the output document: the document's own
element, or the element created `i`-th. -/
inductive Ref where
  | document
  | elem (i : Nat)
deriving DecidableEq, Repr

/-- Element created in the output document, with the element it was attached
to. -/
structure OutElem where
  tag : String
  attr : AttrMap
  text : String
  parent : Ref
deriving DecidableEq, Repr

/-- Output document: the created elements in creation order. -/
abbrev Document := List OutElem

/-! ## `xmlProcessing` -/

/-- Lazy group `(.*?)` followed by the closing quote: the characters up to the
next double quote; `.` does not match a line feed. -/
def lazyGroup : List Char → Option (List Char)
  | [] => none
  | c :: cs =>
    if c = '"' then some []
    else if c = '\n' then none
    else (lazyGroup cs).map (c :: ·)

/-- Group 1 of `regexp.FindStringSubmatch` for the pattern `"(.*?)"`: the
leftmost match starts at the first double quote from which a second double quote
is reached without crossing a line feed. -/
def findStringSubmatch : List Char → Option (List Char)
  | [] => none
  | c :: cs =>
    if c = '"' then
      match lazyGroup cs with
      | some g => some g
      | none => findStringSubmatch cs
    else findStringSubmatch cs

/-- Source function `xmlProcessing`: extracts the XML element name from a struct tag. -/
def xmlProcessing (tg : String) : Except String String :=
  match findStringSubmatch (chars tg) with
  | none => .error "out of range"
  | some str1 =>
    let attr := stringsIndex str1 (chars ",attr")
    let omit_ := stringsIndex str1 (chars ",omitempty")
    let attrOmit := stringsIndex str1 (chars ",attr,omitempty")
    let omitAttr := stringsIndex str1 (chars ",omitempty,attr")
    if attr > -1 ∧ attrOmit = -1 ∧ omitAttr = -1 then
      .ok (String.mk (sliceTo str1 attr))
    else if omit_ > -1 ∧ attrOmit = -1 ∧ omitAttr = -1 then
      .ok (String.mk (sliceTo str1 omit_))
    else if attr = -1 ∧ omit_ = -1 then
      .ok (String.mk str1)
    else if attrOmit > -1 then
      .ok (String.mk (sliceTo str1 attrOmit))
    else
      .ok (String.mk (sliceTo str1 omitAttr))

/-! ## `mapProcessing` -/

/-- Go `append(mapVar[:indx], mapVar[indx+1:]...)`; `none` when a slice bound is
out of range. -/
def deleteAt (mapVar : List ShapeNode) (indx : Int) : Option (List ShapeNode) :=
  if 0 ≤ indx ∧ indx + 1 ≤ mapVar.length then
    some (mapVar.take indx.toNat ++ mapVar.drop (indx.toNat + 1))
  else none

/-- Loop of `mapProcessing`.  Each element is a single-entry map, so the inner
`range` runs its body once, with `value` the raw tag.  An index expression or a
slice expression with a bound out of range panics. -/
def mapProcessingLoop : Nat → List ShapeNode → Int → Outcome (List ShapeNode)
  | 0, mapVar, indx => if indx < mapVar.length then .outOfFuel else .ok mapVar
  | fuel + 1, mapVar, indx =>
    if indx < mapVar.length then
      match (if indx < 0 then none else mapVar[indx.toNat]?) with
      | none => .panic
      | some element =>
        let value := element.rawTag
        let r1 : Option (List ShapeNode × Int) :=
          if value = "" then (deleteAt mapVar indx).map (fun m => (m, indx - 1))
          else some (mapVar, indx)
        match r1 with
        | none => .panic
        | some (mapVar1, indx1) =>
          let r2 : Option (List ShapeNode × Int) :=
            if stringsIndex (chars value) (chars ",attr") ≠ -1 then
              (deleteAt mapVar1 indx1).map (fun m => (m, indx1 - 1))
            else some (mapVar1, indx1)
          match r2 with
          | none => .panic
          | some (mapVar2, indx2) => mapProcessingLoop fuel mapVar2 (indx2 + 1)
    else .ok mapVar

/-- Source function `mapProcessing`: filters the shape list. -/
def mapProcessing (mapVar : List ShapeNode) : Outcome (List ShapeNode) :=
  mapProcessingLoop mapVar.length mapVar 0

/-! ## `soapHandling` -/

/-- Go `reflect.Type.FieldByName` on a struct type: the first field with the
given name. -/
def fieldByName (fields : List (String × String × GoType)) (name : String) :
    Option (String × String × GoType) :=
  fields.find? (fun f => f.1 = name)

mutual
/-- Source function `soapHandling`: appends to `tags` the entries of the type
`tp`; returns at once when `tp` is not a struct. -/
def soapHandling : GoType → List ShapeNode → List ShapeNode
  | .basic, tags => tags
  | .struct fields, tags => soapHandlingFields fields fields tags
/-- Field loop of `soapHandling` over the fields from index `i` on; `typeOfT` is
the whole field list of the struct. -/
def soapHandlingFields (typeOfT : List (String × String × GoType)) :
    List (String × String × GoType) → List ShapeNode → List ShapeNode
  | [], tags => tags
  | (name, _, ftype) :: rest, tags =>
    match fieldByName typeOfT name with
    | none => soapHandlingFields typeOfT rest tags
    | some tmp =>
      soapHandlingFields typeOfT rest (soapHandling ftype (tags ++ [⟨name, tmp.2.1⟩]))
end

/-! ## `xmlUnmarshal` and `ident` -/

mutual
/-- Source function `xmlUnmarshal`: appends the FlatNodes and markers of the
elements `elems` to `data` and `mas`. -/
def xmlUnmarshal : List Element → List FlatNode × List String → List FlatNode × List String
  | [], st => st
  | elem :: rest, st => xmlUnmarshal rest (xmlUnmarshalElem elem st)
/-- Body of the loop of `xmlUnmarshal` for one element. -/
def xmlUnmarshalElem : Element → List FlatNode × List String → List FlatNode × List String
  | .mk _ tag attr text child, (data, mas) =>
    let st := xmlUnmarshal child (data ++ [[.str tag, .attrs attr, .str text]], mas ++ ["Push"])
    (st.1, st.2 ++ ["Pop"])
end

/-- Source function `ident`: joins the markers, rewrites `Push Pop ` to `PushPop `, trims
and splits again. -/
def ident (mas : List String) : List String :=
  let buffer := mas.foldl (fun buffer j => buffer ++ (chars j ++ [' '])) []
  let buffer := stringsReplace buffer (chars "Push Pop ") (chars "PushPop ")
  let buffer := stringsTrimSpace buffer
  (stringsSplit ' ' buffer).map String.mk

/-! ## `xmlMaker` -/

/-- Inner loop of `xmlMaker` over the values of the FlatNode `lst`, for the shape
entry `tg` at position `lstIndex`; the accumulator is
`(elemName, attr, value)`. -/
def xmlMakerItems (tg : ShapeNode) (lstIndex : Nat) :
    List Item → Nat → String × AttrMap × String → Except String (String × AttrMap × String)
  | [], _, acc => .ok acc
  | .attrs conversion :: rest, index, (elemName, attr, value) =>
    xmlMakerItems tg lstIndex rest (index + 1)
      (elemName, conversion.foldl (fun m i => AttrMap.set m i.key i.value) attr, value)
  | .str conversion :: rest, index, (elemName, attr, value) =>
    if index = 0 ∧ lstIndex = 0 then
      match xmlProcessing (tg.get "XMLName") with
      | .error e => .error ("xmlProcessing: " ++ e)
      | .ok res => xmlMakerItems tg lstIndex rest (index + 1) (res, attr, value)
    else if index = 0 then
      match xmlProcessing (tg.get conversion) with
      | .error e => .error ("xmlProcessing: " ++ e)
      | .ok res => xmlMakerItems tg lstIndex rest (index + 1) (res, attr, value)
    else xmlMakerItems tg lstIndex rest (index + 1) (elemName, attr, conversion)

/-- Outer loop of `xmlMaker` over the shape entries, from index `tgIndx` on. -/
def xmlMakerTags (lst : FlatNode) (lstIndex : Nat) :
    List ShapeNode → Nat → String × AttrMap × String → Except String (String × AttrMap × String)
  | [], _, acc => .ok acc
  | tg :: rest, tgIndx, acc =>
    if tgIndx = lstIndex then
      match xmlMakerItems tg lstIndex lst 0 acc with
      | .error e => .error e
      | .ok acc1 => xmlMakerTags lst lstIndex rest (tgIndx + 1) acc1
    else xmlMakerTags lst lstIndex rest (tgIndx + 1) acc

/-- Source function `xmlMaker`: element name, attributes and text of the output
element for the FlatNode `lst` at position `lstIndex`. -/
def xmlMaker (lst : FlatNode) (tags : List ShapeNode) (lstIndex : Nat) :
    Except String (String × AttrMap × String) :=
  xmlMakerTags lst lstIndex tags 0 ("", [], "")

/-! ## `xmlAnalize` -/

/-- Go `el.Parent()`: the document's own element has no parent. -/
def parentOf (document : Document) : Ref → Option Ref
  | .document => none
  | .elem i => document[i]?.map (·.parent)

/-- State of the loop of `xmlAnalize`. -/
structure LoopState where
  lstIndex : Nat
  idntIndex : Nat
  el : Option Ref
  document : Document
deriving DecidableEq, Repr

/-- Loop of `xmlAnalize`.  In the `Pop` branch `lstIndex -= 1` is undone by the
`lstIndex += 1` ending the iteration, so the index is left as it is. -/
def xmlAnalizeLoop (test : List ShapeNode) (testunMarshal : List FlatNode) (mas : List String) :
    Nat → LoopState → Outcome Document
  | 0, st => if st.lstIndex < testunMarshal.length then .outOfFuel else .ok st.document
  | fuel + 1, st =>
    match testunMarshal[st.lstIndex]? with
    | none => .ok st.document
    | some lst =>
      match xmlMaker lst test st.lstIndex with
      | .error e => .error ("xmlMarker: " ++ e)
      | .ok (elemName, attr, value) =>
        match mas[st.lstIndex]? with
        | none => .panic
        | some m0 =>
          if m0 = "Push" ∧ st.lstIndex = 0 then
            xmlAnalizeLoop test testunMarshal mas fuel
              ⟨st.lstIndex + 1, st.idntIndex + 1, some (.elem st.document.length),
                st.document ++ [⟨elemName, attr, value, .document⟩]⟩
          else
            match mas[st.idntIndex]? with
            | none => .panic
            | some m =>
              if m = "Push" then
                match st.el with
                | none => .panic
                | some el =>
                  xmlAnalizeLoop test testunMarshal mas fuel
                    ⟨st.lstIndex + 1, st.idntIndex + 1, some (.elem st.document.length),
                      st.document ++ [⟨elemName, attr, value, el⟩]⟩
              else if m = "PushPop" then
                match st.el with
                | none =>
                  xmlAnalizeLoop test testunMarshal mas fuel
                    ⟨st.lstIndex + 1, st.idntIndex + 1, none,
                      st.document ++ [⟨elemName, attr, value, .document⟩]⟩
                | some el =>
                  xmlAnalizeLoop test testunMarshal mas fuel
                    ⟨st.lstIndex + 1, st.idntIndex + 1, some el,
                      st.document ++ [⟨elemName, attr, value, el⟩]⟩
              else if m = "Pop" then
                match st.el with
                | none => .panic
                | some el =>
                  xmlAnalizeLoop test testunMarshal mas fuel
                    ⟨st.lstIndex, st.idntIndex + 1, parentOf st.document el, st.document⟩
              else
                xmlAnalizeLoop test testunMarshal mas fuel
                  ⟨st.lstIndex + 1, st.idntIndex + 1, st.el, st.document⟩

/-- Source function `xmlAnalize` on the type descriptor of `methodStruct` and the element
forest `etr` parsed from `acceptedData`; the result is the output document that
the source then serialises.  Every iteration but the first reads
`mas[idntIndex]`, so `len(mas) + 1` iterations are never exceeded. -/
def xmlAnalize (methodStruct : GoType) (etr : List Element) : Outcome Document :=
  match mapProcessing (soapHandling methodStruct []) with
  | .ok test =>
    let st := xmlUnmarshal etr ([], [])
    let testunMarshal := st.1
    let mas := ident st.2
    xmlAnalizeLoop test testunMarshal mas (mas.length + 1) ⟨0, 0, none, []⟩
  | .error e => .error e
  | .panic => .panic
  | .outOfFuel => .outOfFuel

/-! ## Reference definitions used in the statements -/

/-- Entries that `mapProcessing` keeps: the raw tag is not empty and does not
contain `,attr`. -/
def keeps (n : ShapeNode) : Bool :=
  n.rawTag ≠ "" && stringsIndex (chars n.rawTag) (chars ",attr") = -1

mutual
/-- Pre-order listing of the fields of a type, following the specification: the
entry of a field, then the entries of the fields of its struct type, then its
next sibling. -/
def preorderShape : GoType → List ShapeNode
  | .basic => []
  | .struct fields => preorderFields fields
/-- Pre-order listing of a field list. -/
def preorderFields : List (String × String × GoType) → List ShapeNode
  | [] => []
  | (name, tag, ftype) :: rest => ⟨name, tag⟩ :: (preorderShape ftype ++ preorderFields rest)
end

mutual
/-- Number of fields reachable from a type through struct-typed fields. -/
def fieldCount : GoType → Nat
  | .basic => 0
  | .struct fields => fieldCountFields fields
/-- Number of fields reachable from a field list. -/
def fieldCountFields : List (String × String × GoType) → Nat
  | [] => 0
  | (_, _, ftype) :: rest => 1 + fieldCount ftype + fieldCountFields rest
end

mutual
/-- Go rule for the struct types handled here: within every struct the field
names are pairwise distinct. -/
def distinctNames : GoType → Bool
  | .basic => true
  | .struct fields => decide ((fields.map (·.1)).Nodup) && distinctNamesFields fields
/-- The rule `distinctNames` for the types of a field list. -/
def distinctNamesFields : List (String × String × GoType) → Bool
  | [] => true
  | (_, _, ftype) :: rest => distinctNames ftype && distinctNamesFields rest
end

/-- The three markers. -/
inductive Marker where
  | push
  | pushPop
  | pop
deriving DecidableEq, Repr

/-- The string standing for a marker in `mas`. -/
def Marker.str : Marker → String
  | .push => "Push"
  | .pushPop => "PushPop"
  | .pop => "Pop"

mutual
/-- Pre-order listing of the FlatNodes of a forest. -/
def flatNodes : List Element → List FlatNode
  | [] => []
  | e :: rest => flatNodesElem e ++ flatNodes rest
/-- FlatNode of an element followed by those of its descendants. -/
def flatNodesElem : Element → List FlatNode
  | .mk _ tag attr text child => [.str tag, .attrs attr, .str text] :: flatNodes child
end

mutual
/-- Markers written by `xmlUnmarshal` for a forest: `Push`, the markers of the
children, `Pop`. -/
def rawMarks : List Element → List Marker
  | [] => []
  | e :: rest => rawMarksElem e ++ rawMarks rest
/-- Markers written by `xmlUnmarshal` for one element. -/
def rawMarksElem : Element → List Marker
  | .mk _ _ _ _ child => .push :: (rawMarks child ++ [.pop])
end

mutual
/-- Markers of a forest after leaf collapsing: `PushPop` for an element without
child elements, else `Push`, the markers of the children, `Pop`. -/
def marks : List Element → List Marker
  | [] => []
  | e :: rest => marksElem e ++ marks rest
/-- Collapsed markers of one element. -/
def marksElem : Element → List Marker
  | .mk _ _ _ _ [] => [.pushPop]
  | .mk _ _ _ _ (c :: cs) => .push :: (marksElem c ++ marks cs ++ [.pop])
end

/-- The buffer built by the first loop of `ident`: every marker followed by a
blank. -/
def joinMarkers : List String → List Char
  | [] => []
  | j :: rest => chars j ++ ' ' :: joinMarkers rest

/-- Markers separated by single blanks. -/
def joinBlank : List String → List Char
  | [] => []
  | [j] => chars j
  | j :: k :: rest => chars j ++ ' ' :: joinBlank (k :: rest)

/-- Name, attributes and text that `xmlMaker` yields for a FlatNode; the values
of a failed call are not used. -/
def made (test : List ShapeNode) (lst : FlatNode) (lstIndex : Nat) : String × AttrMap × String :=
  match xmlMaker lst test lstIndex with
  | .ok r => r
  | .error _ => ("", [], "")

mutual
/-- Output elements expected for a forest whose roots are attached to `parent`
and whose first element is created at position `pos`. -/
def built (test : List ShapeNode) : List Element → Ref → Nat → Document
  | [], _, _ => []
  | e :: rest, parent, pos =>
    builtElem test e parent pos ++ built test rest parent (pos + (flatNodesElem e).length)
/-- Output elements expected for an element and its descendants. -/
def builtElem (test : List ShapeNode) : Element → Ref → Nat → Document
  | .mk _ tag attr text child, parent, pos =>
    ⟨(made test [.str tag, .attrs attr, .str text] pos).1,
      (made test [.str tag, .attrs attr, .str text] pos).2.1,
      (made test [.str tag, .attrs attr, .str text] pos).2.2, parent⟩ ::
      built test child (.elem pos) (pos + 1)
end

/-- Leaf: an element without child elements. -/
def isLeaf : Element → Bool
  | .mk _ _ _ _ [] => true
  | .mk _ _ _ _ (_ :: _) => false

/-- Input forests on which the loop of `xmlAnalize` never lacks a scope to attach to:
the first top-level element has child elements, or no top-level element has
any.  A single-rooted document is of this kind. -/
def wellScoped : List Element → Bool
  | [] => true
  | e :: rest => !isLeaf e || rest.all isLeaf

/-- The attribute map that `xmlMaker` fills from the attributes of an input element: keyed by
the local key, a later value replacing an earlier one. -/
def attrMap (attr : List Attr) : AttrMap :=
  attr.foldl (fun m i => AttrMap.set m i.key i.value) []

mutual
/-- Pre-order list of the parents of the elements of a forest: `parent` for the
roots, and for the children of the element at position `pos` the pointer
`elem pos`. -/
def parents : List Element → Ref → Nat → List Ref
  | [], _, _ => []
  | e :: rest, parent, pos =>
    parentsElem e parent pos ++ parents rest parent (pos + (flatNodesElem e).length)
/-- Parents of an element and its descendants, in pre-order. -/
def parentsElem : Element → Ref → Nat → List Ref
  | .mk _ _ _ _ child, parent, pos => parent :: parents child (.elem pos) (pos + 1)
end

deriving instance DecidableEq for Except

/-! ## Examples -/

/-- Field list of `setHostname`. -/
def setHostnameFields : List (String × String × GoType) :=
  [("XMLName", "xml:\"tds:SetHostname\"", .basic), ("Name", "xml:\"tds:Name\"", .basic)]

/-- Input document `<SetHostname><Name>camera-1</Name><Port>80</Port></SetHostname>`, with one
element more than `setHostname` has fields. -/
def longDoc : Element :=
  .mk "" "SetHostname" [] "" [.mk "" "Name" [] "camera-1" [], .mk "" "Port" [] "80" []]

/-- Input document `<SetHostname><Name>camera-1<Port>80</Port></Name></SetHostname>`: the
elements of `longDoc`, nested differently. -/
def nestedDoc : Element :=
  .mk "" "SetHostname" [] "" [.mk "" "Name" [] "camera-1" [.mk "" "Port" [] "80" []]]

/-- Request type `SetHostname` as declared for the device service: the root name in
`XMLName`, then the field `Name`. -/
def setHostname : GoType :=
  .struct setHostnameFields

/-- Input document `<SetHostname><Name>camera-1</Name></SetHostname>`. -/
def setHostnameDoc : Element :=
  .mk "" "SetHostname" [] "" [.mk "" "Name" [] "camera-1" []]

/-! ## Reference definitions for the flattener -/

mutual
/-- Pre-order listing of the elements of a forest: an element, then its
descendants, then its next sibling. -/
def elements : List Element → List Element
  | [] => []
  | e :: rest => elementsElem e ++ elements rest
/-- An element followed by its descendants in pre-order. -/
def elementsElem : Element → List Element
  | .mk space tag attr text child => .mk space tag attr text child :: elements child
end

/-- The FlatNode of an element: tag, attributes, text. -/
def Element.node : Element → FlatNode
  | .mk _ tag attr text _ => [.str tag, .attrs attr, .str text]

mutual
/-- Number of elements of a forest. -/
def elemCount : List Element → Nat
  | [] => 0
  | e :: rest => elemCountElem e + elemCount rest
/-- Number of elements of a tree. -/
def elemCountElem : Element → Nat
  | .mk _ _ _ _ child => 1 + elemCount child
end

mutual
/-- Number of elements of a forest that have no child element. -/
def leafCount : List Element → Nat
  | [] => 0
  | e :: rest => leafCountElem e + leafCount rest
/-- Number of elements of a tree that have no child element. -/
def leafCountElem : Element → Nat
  | .mk _ _ _ _ [] => 1
  | .mk _ _ _ _ (c :: cs) => leafCountElem c + leafCount cs
end

mutual
/-- Number of elements of a forest that have a child element. -/
def innerCount : List Element → Nat
  | [] => 0
  | e :: rest => innerCountElem e + innerCount rest
/-- Number of elements of a tree that have a child element. -/
def innerCountElem : Element → Nat
  | .mk _ _ _ _ [] => 0
  | .mk _ _ _ _ (c :: cs) => 1 + (innerCountElem c + innerCount cs)
end

/-- Leaf collapsing as the specification words it: every adjacent pair `Push`,
`Pop` becomes one `PushPop`, every other marker stays in place. -/
def collapse : List Marker → List Marker
  | [] => []
  | .push :: .pop :: rest => .pushPop :: collapse rest
  | m :: rest => m :: collapse rest

/-- Search for the `Pop` that closes the scope opened just before `mas`:
`depth` counts the scopes opened since and still open, `pos` is the position of
the head of `mas`. -/
def scanPop : List String → Nat → Nat → Option Nat
  | [], _, _ => none
  | m :: rest, depth, pos =>
    if m = "Push" then scanPop rest (depth + 1) (pos + 1)
    else if m = "Pop" then
      match depth with
      | 0 => some pos
      | d + 1 => scanPop rest d (pos + 1)
    else scanPop rest depth (pos + 1)

/-- Position of the `Pop` matching the `Push` at position `i` of `mas`. -/
def matchingPop (mas : List String) (i : Nat) : Option Nat :=
  scanPop (mas.drop (i + 1)) 0 (i + 1)

/-! ## `soapHandling` on instances

`soapHandling` receives a pointer to an instance and walks it with `reflect`.  The
descriptor `GoType` above is what this walk sees when every field has a concrete
type.  The definitions below keep the instance: the field values, and the
fields of interface type, whose value is nil or holds a value of some dynamic
type.  The fields are exported, as above. -/

/-- Static type of a Go value as `reflect` reports it: a struct with its fields
in declaration order (field name, raw tag, field type), an interface type, or
any other kind. -/
inductive RType where
  | basic : RType
  | iface : RType
  | struct (fields : List (String × String × RType)) : RType

/-- Go value as `reflect` reports it: a struct value with, for every field, its name,
its raw tag and its value; the value of a field of interface type, nil or
holding a value; a value of any other kind, with its contents. -/
inductive RValue where
  | basic (payload : String) : RValue
  | nilIface : RValue
  | iface (held : RValue) : RValue
  | struct (fields : List (String × String × RValue)) : RValue

mutual
/-- Go `Value.Type()`: the static type of a value. -/
def staticType : RValue → RType
  | .basic _ => .basic
  | .nilIface => .iface
  | .iface _ => .iface
  | .struct fields => .struct (staticTypeFields fields)
/-- The field types of a struct value. -/
def staticTypeFields : List (String × String × RValue) → List (String × String × RType)
  | [] => []
  | (name, tag, f) :: rest => (name, tag, staticType f) :: staticTypeFields rest
end

/-- Go `reflect.TypeOf(f.Interface())`: the dynamic type of the value; `none` is the nil
`Type` returned for a nil interface. -/
def dynType : RValue → Option RType
  | .basic _ => some .basic
  | .nilIface => none
  | .iface held => dynType held
  | .struct fields => some (.struct (staticTypeFields fields))

mutual
/-- The zero value of a type, to which the pointer made by `reflect.New` points. -/
def zero : RType → RValue
  | .basic => .basic ""
  | .iface => .nilIface
  | .struct fields => .struct (zeroFields fields)
/-- The zero values of the fields of a struct type. -/
def zeroFields : List (String × String × RType) → List (String × String × RValue)
  | [] => []
  | (name, tag, t) :: rest => (name, tag, zero t) :: zeroFields rest
end

/-- Field loop of `soapHandling` on an instance, over the fields from index `i` on;
`typeOfT` is the whole field list of the struct, `recurse` the recursive call.  `reflect.New`
panics on the nil type. -/
def soapHandlingValueFields (recurse : RValue → List ShapeNode → Outcome (List ShapeNode))
    (typeOfT : List (String × String × RValue)) :
    List (String × String × RValue) → List ShapeNode → Outcome (List ShapeNode)
  | [], tags => .ok tags
  | (name, _, f) :: rest, tags =>
    match typeOfT.find? (fun g => g.1 = name) with
    | none => soapHandlingValueFields recurse typeOfT rest tags
    | some tmp =>
      match dynType f with
      | none => .panic
      | some t =>
        match recurse (zero t) (tags ++ [⟨name, tmp.2.1⟩]) with
        | .ok tags1 => soapHandlingValueFields recurse typeOfT rest tags1
        | .error e => .error e
        | .panic => .panic
        | .outOfFuel => .outOfFuel

/-- Source function `soapHandling` on the instance `s` that `tp` points to; `fuel` bounds
the depth of the recursion. -/
def soapHandlingValue : Nat → RValue → List ShapeNode → Outcome (List ShapeNode)
  | 0, _, _ => .outOfFuel
  | fuel + 1, .struct fields, tags =>
    soapHandlingValueFields (soapHandlingValue fuel) fields fields tags
  | _ + 1, _, tags => .ok tags

mutual
/-- Nesting depth of the struct values of an instance, the held values of its
interfaces included. -/
def RValue.depth : RValue → Nat
  | .basic _ => 0
  | .nilIface => 0
  | .iface held => RValue.depth held
  | .struct fields => RValue.depthFields fields + 1
/-- Largest depth among the fields of a struct value. -/
def RValue.depthFields : List (String × String × RValue) → Nat
  | [] => 0
  | (_, _, f) :: rest => max (RValue.depth f) (RValue.depthFields rest)
end

/-- The first two steps of `xmlAnalize` on an instance: `soapHandling`, then
`mapProcessing`. -/
def shapeOf (methodStruct : RValue) : Outcome (List ShapeNode) :=
  match soapHandlingValue (methodStruct.depth + 1) methodStruct [] with
  | .ok test => mapProcessing test
  | .error e => .error e
  | .panic => .panic
  | .outOfFuel => .outOfFuel

mutual
/-- Types none of whose fields, at any depth, has an interface type. -/
def ifaceFree : RType → Bool
  | .basic => true
  | .iface => false
  | .struct fields => ifaceFreeFields fields
/-- The condition `ifaceFree` for the types of a field list. -/
def ifaceFreeFields : List (String × String × RType) → Bool
  | [] => true
  | (_, _, t) :: rest => ifaceFree t && ifaceFreeFields rest
end

mutual
/-- The descriptor `GoType` of a type without fields of interface type. -/
def RType.toGoType : RType → GoType
  | .basic => .basic
  | .iface => .basic
  | .struct fields => .struct (RType.toGoTypeFields fields)
/-- The descriptors of a field list. -/
def RType.toGoTypeFields : List (String × String × RType) → List (String × String × GoType)
  | [] => []
  | (name, tag, t) :: rest => (name, tag, RType.toGoType t) :: RType.toGoTypeFields rest
end

/-- Go `map[string]V`: a finite map with distinct keys.  A nil map behaves as
the empty map under the operations used here (lookup, `range`, `delete`). -/
abbrev GoMap (V : Type) := AList (fun _ : String => V)

/-- Handle `*onvif.Device`; two handles are the same when they are the same
pointer. -/
abbrev Device := Nat

/-- Go `time.Time`: an instant, in nanoseconds on the clock that `Sub` compares. -/
abbrev Time := Int

/-- Go `time.Duration`: a number of nanoseconds held in an `int64`. -/
abbrev Duration := Int

/-- Largest `time.Duration`. -/
def maxDuration : Duration := 2 ^ 63 - 1

/-- Smallest `time.Duration`. -/
def minDuration : Duration := -(2 ^ 63)

/-- Go `t.Sub(u)`: the duration `t - u`, replaced by the largest or smallest duration
when it does not fit. -/
def timeSub (t u : Time) : Duration :=
  if t - u > maxDuration then maxDuration
  else if t - u < minDuration then minDuration
  else t - u

/-- Argument `onvif.DeviceParams` of `onvif.NewDevice`, with the fields that `GetDevice` sets. -/
structure DeviceParams where
  Xaddr : String
  Username : String
  Password : String
deriving DecidableEq, Repr

/-- Source type `DeviceCache`. -/
structure DeviceCache where
  devices : GoMap Device
  lastAccessed : GoMap Time
  ttl : Duration

/-- Body of the loop of `cleanup` for the entry `key`, `lastAccess` of `lastAccessed`. -/
def cleanupStep (now : Time) (c : DeviceCache) (key : String) (lastAccess : Time) :
    DeviceCache :=
  if timeSub now lastAccess > c.ttl then
    { c with devices := c.devices.erase key, lastAccessed := c.lastAccessed.erase key }
  else c

/-- Source function `cleanup`, with `now` the value of `time.Now()`.  The loop
ranges over the entries of `lastAccessed`; it deletes no key other than the one
it is visiting, so it visits every entry present at the start once. -/
def DeviceCache.cleanup (c : DeviceCache) (now : Time) : DeviceCache :=
  c.lastAccessed.entries.foldl (fun c e => cleanupStep now c e.1 e.2) c

/-- Outcome of a call of `GetDevice`: the returned handle or error, the cache and
the connection attempts made so far. -/
structure GetResult where
  result : Except String Device
  cache : DeviceCache
  calls : List DeviceParams

/-- Source function `GetDevice`.  `newDevice` stands for `onvif.NewDevice`, which is not
part of these sources: its answer may depend on the attempts made before;
`calls` lists the connection attempts made so far. -/
def DeviceCache.GetDevice (newDevice : List DeviceParams → DeviceParams → Except String Device)
    (c : DeviceCache) (calls : List DeviceParams) (xaddr username password : String) :
    GetResult :=
  let cacheKey := xaddr ++ "|" ++ username
  match c.devices.lookup cacheKey with
  | some dev => ⟨.ok dev, c, calls⟩
  | none =>
    match newDevice calls ⟨xaddr, username, password⟩ with
    | .error err => ⟨.error err, c, calls ++ [⟨xaddr, username, password⟩]⟩
    | .ok dev =>
      ⟨.ok dev, { c with devices := c.devices.insert cacheKey dev },
        calls ++ [⟨xaddr, username, password⟩]⟩

/-- Source function `NewDeviceCache`: `devices` is made empty, `lastAccessed` is left nil. -/
def NewDeviceCache (ttl : Duration) : DeviceCache :=
  ⟨∅, ∅, ttl⟩

/-- Whether the entry recorded for `key` in `lastAccessed` is older than the TTL at `now`. -/
def expired (c : DeviceCache) (now : Time) (key : String) : Bool :=
  match c.lastAccessed.lookup key with
  | some lastAccess => decide (timeSub now lastAccess > c.ttl)
  | none => false

/-- Environment in which the `n`-th connection attempt succeeds with the handle `n`. -/
def freshDevice (calls : List DeviceParams) (_ : DeviceParams) : Except String Device :=
  .ok calls.length

/-- Environment in which every connection attempt fails. -/
def unreachable (_ : List DeviceParams) (_ : DeviceParams) : Except String Device :=
  .error "connection refused"

/-! ## Further examples -/

/-- Parameters of the connection attempt for the camera of the examples. -/
def camParams : DeviceParams :=
  ⟨"192.168.1.10:80", "admin", "pw"⟩

/-- Cache made by `NewDeviceCache` with a TTL of ten minutes, after one successful `GetDevice` for
the camera of the examples. -/
def camCache : DeviceCache :=
  ((NewDeviceCache 600000000000).GetDevice freshDevice [] "192.168.1.10:80" "admin" "pw").cache


/-- Cache made by `NewDeviceCache` after one successful `GetDevice` for the address `cam` and the
user name `admin|x`. -/
def pipeCache : DeviceCache :=
  ((NewDeviceCache 600000000000).GetDevice freshDevice [] "cam" "admin|x" "pw").cache

/-- Value of the last attribute of `attr` whose local key is `k`. -/
def lastValue : List Attr → String → Option String
  | [], _ => none
  | a :: rest, k =>
    match lastValue rest k with
    | some v => some v
    | none => if a.key = k then some a.value else none

/-- Request type with the fields `XMLName`, `B` and `C`, tagged with the element names `A`, `B`
and `C`. -/
def abcType : GoType :=
  .struct [("XMLName", "xml:\"A\"", .basic), ("B", "xml:\"B\"", .basic),
    ("C", "xml:\"C\"", .basic)]

/-- Input document `<A/><B><C/></B>`: a top-level element without child elements followed by
a top-level element with one. -/
def leafThenParent : List Element :=
  [.mk "" "A" [] "" [], .mk "" "B" [] "" [.mk "" "C" [] "" []]]

/-- Input document `<SetHostname><Name a:id="1" b:id="2">camera-1</Name></SetHostname>`, whose
second element has two attributes with the local key `id`. -/
def twoIds : List Element :=
  [.mk "" "SetHostname" [] ""
    [.mk "" "Name" [⟨"a", "id", "1"⟩, ⟨"b", "id", "2"⟩] "camera-1" []]]

/-- Input document `<A/><B><X/></B>`: as `leafThenParent`, with the third element named `X`. -/
def leafThenMismatch : List Element :=
  [.mk "" "A" [] "" [], .mk "" "B" [] "" [.mk "" "X" [] "" []]]


/-! ## The iterations of the loop of `xmlAnalize` -/

/-- What one iteration of the loop of `xmlAnalize` does: the loop condition is false and the
loop ends; the iteration returns an error or panics; or it leads to the state of the next
iteration. -/
inductive Iteration where
  | exit : Iteration
  | stop (o : Outcome Document) : Iteration
  | next (st : LoopState) : Iteration

/-- One iteration of the loop of `xmlAnalize`, started in the state `st`. -/
def xmlAnalizeIteration (test : List ShapeNode) (testunMarshal : List FlatNode)
    (mas : List String) (st : LoopState) : Iteration :=
  match testunMarshal[st.lstIndex]? with
  | none => .exit
  | some lst =>
    match xmlMaker lst test st.lstIndex with
    | .error e => .stop (.error ("xmlMarker: " ++ e))
    | .ok (elemName, attr, value) =>
      match mas[st.lstIndex]? with
      | none => .stop .panic
      | some m0 =>
        if m0 = "Push" ∧ st.lstIndex = 0 then
          .next ⟨st.lstIndex + 1, st.idntIndex + 1, some (.elem st.document.length),
            st.document ++ [⟨elemName, attr, value, .document⟩]⟩
        else
          match mas[st.idntIndex]? with
          | none => .stop .panic
          | some m =>
            if m = "Push" then
              match st.el with
              | none => .stop .panic
              | some el =>
                .next ⟨st.lstIndex + 1, st.idntIndex + 1, some (.elem st.document.length),
                  st.document ++ [⟨elemName, attr, value, el⟩]⟩
            else if m = "PushPop" then
              match st.el with
              | none =>
                .next ⟨st.lstIndex + 1, st.idntIndex + 1, none,
                  st.document ++ [⟨elemName, attr, value, .document⟩]⟩
              | some el =>
                .next ⟨st.lstIndex + 1, st.idntIndex + 1, some el,
                  st.document ++ [⟨elemName, attr, value, el⟩]⟩
            else if m = "Pop" then
              match st.el with
              | none => .stop .panic
              | some el =>
                .next ⟨st.lstIndex, st.idntIndex + 1, parentOf st.document el, st.document⟩
            else
              .next ⟨st.lstIndex + 1, st.idntIndex + 1, st.el, st.document⟩

/-- The states in which the iterations of the loop of `xmlAnalize` start, in order; the last
one is the state of the iteration that returns an error or panics, if there is one. -/
def xmlAnalizeRun (test : List ShapeNode) (testunMarshal : List FlatNode) (mas : List String) :
    Nat → LoopState → List LoopState
  | 0, _ => []
  | fuel + 1, st =>
    match xmlAnalizeIteration test testunMarshal mas st with
    | .exit => []
    | .stop _ => [st]
    | .next st1 => st :: xmlAnalizeRun test testunMarshal mas fuel st1

/-- Whether the iteration started in `st` takes the `Pop` branch. -/
def popIteration (mas : List String) (st : LoopState) : Bool :=
  !(decide (mas[st.lstIndex]? = some "Push") && decide (st.lstIndex = 0)) &&
    decide (mas[st.idntIndex]? = some "Pop")

/-- The node positions of the iterations of a run that do not take the `Pop` branch. -/
def visited (mas : List String) (run : List LoopState) : List Nat :=
  (run.filter (fun st => !popIteration mas st)).map (·.lstIndex)

/-- Input document `<SetHostname><Hostname>x</Hostname><Port>80</Port></SetHostname>`, whose
second element is not named after the field `Name` of `SetHostname`. -/
def renamedDoc : List Element :=
  [.mk "" "SetHostname" [] "" [.mk "" "Hostname" [] "x" [], .mk "" "Port" [] "80" []]]


/-! ## Device discovery (`handleDiscovery` of `xml_apis` and of `json_apis`)

`wsdiscovery.SendProbe` and the parsing of a reply by `etree` are not part of the model: a
reply is given by what the handlers read of it. -/

/-- Probe reply as the handlers see it: `ReadFromString` fails; or the reply parses and has
no root element, so that `doc.Root()` is nil; or it parses, and `FindElements` returns the
`XAddrs` elements and the `Scopes` elements under `Body/ProbeMatches/ProbeMatch`, given by their
texts. -/
inductive ProbeReply where
  | malformed : ProbeReply
  | noRoot : ProbeReply
  | parsed (endpoints scopes : List String) : ProbeReply

/-- Go `strings.Split(strings.Split(text, " ")[0], "/")[2]`: the host of the first address of
an `XAddrs` text; `none` when the index 2 is out of range. -/
def endpointHost (text : String) : Option String :=
  match stringsSplit ' ' (chars text) with
  | [] => none
  | first :: _ => (stringsSplit '/' first)[2]?.map String.mk

/-- Character class `[A-Za-z0-9-]`. -/
def nameChar (c : Char) : Bool :=
  ('A' ≤ c && c ≤ 'Z') || ('a' ≤ c && c ≤ 'z') || ('0' ≤ c && c ≤ '9') || c = '-'

/-- The literal part of the pattern of the device name. -/
def namePrefix : List Char :=
  chars "onvif://www.onvif.org/name/"

/-- Leftmost match of the pattern `onvif:\/\/www\.onvif\.org\/name\/([A-Za-z0-9-]+)`: the
characters matched by the greedy class, which are group 1 of the match; the whole match
is `namePrefix` followed by them. -/
def findName : List Char → Option (List Char)
  | [] => none
  | c :: cs =>
    if namePrefix.isPrefixOf (c :: cs) ∧
        (((c :: cs).drop namePrefix.length).takeWhile nameChar) ≠ [] then
      some (((c :: cs).drop namePrefix.length).takeWhile nameChar)
    else findName cs

/-- Go `path.Base`. -/
def pathBase (path : List Char) : List Char :=
  if path = [] then ['.']
  else
    let stripped := (path.reverse.dropWhile (· = '/')).reverse
    let last := (stripped.reverse.takeWhile (· ≠ '/')).reverse
    if last = [] then ['/'] else last

/-- Go `strings.Contains`. -/
def stringsContains (s sub : List Char) : Bool :=
  (indexOf? s sub).isSome

/-- Go `strings.TrimRight(s, ",")`. -/
def trimRightCommas (s : List Char) : List Char :=
  (s.reverse.dropWhile (· = ',')).reverse

/-- Loop of the `xml_apis` handler over the `XAddrs` elements of a reply: the response and the
flag `flag`; an index out of range panics. -/
def XmlApis.endpointsLoop : List Char → List String → Outcome (List Char × Bool)
  | response, [] => .ok (response, false)
  | response, text :: rest =>
    match endpointHost text with
    | none => .panic
    | some xaddr =>
      if stringsContains response (chars xaddr) then .ok (response, true)
      else
        XmlApis.endpointsLoop
          (response ++ chars "\x7b" ++ (chars "\"url\":\"" ++ chars xaddr ++ chars "\",")) rest

/-- Loop of the `xml_apis` handler over the `Scopes` elements of a reply. -/
def XmlApis.scopesLoop : List Char → List String → List Char
  | response, [] => response
  | response, text :: rest =>
    match findName (chars text) with
    | some name =>
      XmlApis.scopesLoop
        (response ++ (chars "\"name\":\"" ++ pathBase (namePrefix ++ name) ++ chars "\"")) rest
    | none => XmlApis.scopesLoop response rest

/-- Loop of the `xml_apis` handler over the replies. -/
def XmlApis.repliesLoop : List Char → List ProbeReply → Outcome (List Char)
  | response, [] => .ok response
  | response, .malformed :: rest => XmlApis.repliesLoop response rest
  | _, .noRoot :: _ => .panic
  | response, .parsed endpoints scopes :: rest =>
    match XmlApis.endpointsLoop response endpoints with
    | .ok (response1, true) => XmlApis.repliesLoop response1 rest
    | .ok (response1, false) =>
      XmlApis.repliesLoop (XmlApis.scopesLoop response1 scopes ++ chars "\x7d,") rest
    | .error e => .error e
    | .panic => .panic
    | .outOfFuel => .outOfFuel

/-- Source function `handleDiscovery` of `xml_apis`, after a successful `SendProbe` with the
replies `devices`: the body of the response. -/
def XmlApis.handleDiscovery (devices : List ProbeReply) : Outcome String :=
  match XmlApis.repliesLoop (chars "[") devices with
  | .ok response => .ok (String.mk (trimRightCommas response ++ chars "]"))
  | .error e => .error e
  | .panic => .panic
  | .outOfFuel => .outOfFuel

/-- Loop of the `json_apis` handler over the replies; `discoveredDevices` holds the pairs
(`url`, `name`) of the maps collected so far. -/
def JsonApis.repliesLoop :
    List (String × String) → List ProbeReply → Outcome (List (String × String))
  | discoveredDevices, [] => .ok discoveredDevices
  | discoveredDevices, .malformed :: rest => JsonApis.repliesLoop discoveredDevices rest
  | _, .noRoot :: _ => .panic
  | discoveredDevices, .parsed endpoints scopes :: rest =>
    match endpoints with
    | [] => JsonApis.repliesLoop discoveredDevices rest
    | text :: _ =>
      match endpointHost text with
      | none => .panic
      | some xaddr =>
        if discoveredDevices.any (fun device => device.1 = xaddr) then
          JsonApis.repliesLoop discoveredDevices rest
        else
          let deviceName :=
            match scopes with
            | [] => "Unknown"
            | scope :: _ =>
              match findName (chars scope) with
              | some name => String.mk name
              | none => "Unknown"
          JsonApis.repliesLoop (discoveredDevices ++ [(xaddr, deviceName)]) rest

/-- Source function `handleDiscovery` of `json_apis`, after a successful `SendProbe` with the
replies `devices`: the list of the maps with the keys `url` and `name` of the response. -/
def JsonApis.handleDiscovery (devices : List ProbeReply) : Outcome (List (String × String)) :=
  JsonApis.repliesLoop [] devices

/-- The hosts of the replies that parse and have an `XAddrs` element, in the order of the
replies. -/
def replyHosts : List ProbeReply → List String
  | [] => []
  | .parsed (text :: _) _ :: rest =>
    match endpointHost text with
    | some xaddr => xaddr :: replyHosts rest
    | none => replyHosts rest
  | _ :: rest => replyHosts rest

/-- The distinct entries of a list, each at the place of its first occurrence. -/
def firstOccurrences : List String → List String
  | [] => []
  | h :: rest => h :: (firstOccurrences rest).filter (fun x => x ≠ h)

/-- Two probe replies, of the cameras at `192.168.1.10` and at `192.168.1.1`. -/
def twoCameras : List ProbeReply :=
  [.parsed ["http://192.168.1.10/onvif/device_service"]
      ["onvif://www.onvif.org/type/video_encoder onvif://www.onvif.org/name/Cam10"],
    .parsed ["http://192.168.1.1/onvif/device_service"]
      ["onvif://www.onvif.org/type/video_encoder onvif://www.onvif.org/name/Cam1"]]

/-! ## Facts about `strings.Index` -/

theorem indexOf?_le_length (sub : List Char) : ∀ (s : List Char) (i : Nat),
    indexOf? s sub = some i → i ≤ s.length := by
  intro s
  induction s with
  | nil =>
    intro i h
    simp only [indexOf?] at h
    split at h <;> simp_all
  | cons c cs ih =>
    intro i h
    simp only [indexOf?] at h
    split at h
    · simp at h; omega
    · cases hcs : indexOf? cs sub with
      | none => simp [hcs] at h
      | some j =>
        simp [hcs] at h
        have := ih j hcs
        simp; omega

/-- At the position found by `strings.Index` the pattern does occur. -/
theorem indexOf?_isPrefix (sub : List Char) : ∀ (s : List Char) (i : Nat),
    indexOf? s sub = some i → sub <+: s.drop i := by
  intro s
  induction s with
  | nil =>
    intro i h
    simp only [indexOf?] at h
    split at h
    · rename_i he
      simp at h
      subst h
      simp [List.isEmpty_iff] at he
      simp [he]
    · simp at h
  | cons c cs ih =>
    intro i h
    simp only [indexOf?] at h
    split at h
    · rename_i hp
      simp at h
      subst h
      simpa using (List.isPrefixOf_iff_prefix.mp hp)
    · cases hcs : indexOf? cs sub with
      | none => simp [hcs] at h
      | some j =>
        simp [hcs] at h
        subst h
        simpa using ih j hcs

/-- When the pattern occurs somewhere, `strings.Index` finds an occurrence at or
before that position. -/
theorem indexOf?_of_isPrefix (sub : List Char) : ∀ (s : List Char) (i : Nat),
    i ≤ s.length → sub <+: s.drop i → ∃ j, indexOf? s sub = some j ∧ j ≤ i := by
  intro s
  induction s with
  | nil =>
    intro i hi h
    simp at hi
    subst hi
    simp at h
    subst h
    exact ⟨0, by simp [indexOf?], le_refl _⟩
  | cons c cs ih =>
    intro i hi h
    by_cases hp : sub.isPrefixOf (c :: cs) = true
    · exact ⟨0, by simp [indexOf?, hp], Nat.zero_le _⟩
    · cases i with
      | zero =>
        exact absurd (by simpa using h) hp
      | succ k =>
        simp at hi
        obtain ⟨j, hj, hjk⟩ := ih k hi (by simpa using h)
        exact ⟨j + 1, by simp [indexOf?, hp, hj], by omega⟩

/-- A longer pattern occurs only where its beginning occurs. -/
theorem indexOf?_append_isSome (p q : List Char) (s : List Char) (i : Nat)
    (h : indexOf? s (p ++ q) = some i) : ∃ j, indexOf? s p = some j ∧ j ≤ i := by
  have h1 := indexOf?_isPrefix (p ++ q) s i h
  have h2 := indexOf?_le_length (p ++ q) s i h
  exact indexOf?_of_isPrefix p s i h2 ((List.prefix_append p q).trans h1)

theorem stringsIndex_eq_neg_one (s sub : List Char) :
    stringsIndex s sub = -1 ↔ indexOf? s sub = none := by
  unfold stringsIndex
  cases h : indexOf? s sub with
  | none => simp
  | some i => simp

/-- In front of a comma-free name a pattern starting with a comma is found where
it is found in the rest. -/
theorem indexOf?_commaFree (sub rest : List Char) : ∀ (name : List Char), ',' ∉ name →
    indexOf? (name ++ rest) (',' :: sub) = (indexOf? rest (',' :: sub)).map (· + name.length) := by
  intro name
  induction name with
  | nil => intro _; simp
  | cons c cs ih =>
    intro h
    simp at h
    have hc : (',' == c) = false := by
      simp; exact h.1
    have hp : (',' :: sub).isPrefixOf (c :: (cs ++ rest)) = false := by
      simp [List.isPrefixOf, hc]
    rw [List.cons_append, indexOf?, if_neg (by simp [hp]), ih h.2]
    cases indexOf? rest (',' :: sub) <;> simp
    omega

theorem stringsIndex_commaFree (sub rest name : List Char) (h : ',' ∉ name) :
    stringsIndex (name ++ rest) (',' :: sub) =
      if stringsIndex rest (',' :: sub) = -1 then -1
      else stringsIndex rest (',' :: sub) + name.length := by
  unfold stringsIndex
  rw [indexOf?_commaFree sub rest name h]
  cases indexOf? rest (',' :: sub) with
  | none => simp
  | some i =>
    simp

/-- A longer pattern occurs only where its end occurs. -/
theorem indexOf?_append_right_isSome (p q : List Char) (s : List Char) (i : Nat)
    (h : indexOf? s (p ++ q) = some i) : ∃ j, indexOf? s q = some j := by
  have h1 := indexOf?_isPrefix (p ++ q) s i h
  have h2 := indexOf?_le_length (p ++ q) s i h
  obtain ⟨t, ht⟩ := h1
  have hq : q <+: s.drop (i + p.length) := by
    have : s.drop (i + p.length) = (s.drop i).drop p.length := by
      rw [List.drop_drop]
    rw [this, ← ht]
    simp
  by_cases hl : i + p.length ≤ s.length
  · obtain ⟨j, hj, _⟩ := indexOf?_of_isPrefix q s (i + p.length) hl hq
    exact ⟨j, hj⟩
  · rw [List.drop_eq_nil_of_le (by omega)] at hq
    have : q = [] := by simpa using hq
    subst this
    obtain ⟨j, hj, _⟩ := indexOf?_of_isPrefix [] s 0 (Nat.zero_le _) (by simp)
    exact ⟨j, hj⟩

/-- The cut made by `xmlProcessing` in the quoted segment, by priority. -/
theorem xmlProcessing_priority (tg : String) (seg : List Char)
    (h : findStringSubmatch (chars tg) = some seg) :
    (stringsIndex seg (chars ",attr,omitempty") ≠ -1 →
      xmlProcessing tg = .ok (String.mk (sliceTo seg (stringsIndex seg (chars ",attr,omitempty"))))) ∧
    (stringsIndex seg (chars ",attr,omitempty") = -1 →
      stringsIndex seg (chars ",omitempty,attr") ≠ -1 →
      xmlProcessing tg = .ok (String.mk (sliceTo seg (stringsIndex seg (chars ",omitempty,attr"))))) ∧
    (stringsIndex seg (chars ",attr,omitempty") = -1 →
      stringsIndex seg (chars ",omitempty,attr") = -1 →
      stringsIndex seg (chars ",attr") ≠ -1 →
      xmlProcessing tg = .ok (String.mk (sliceTo seg (stringsIndex seg (chars ",attr"))))) ∧
    (stringsIndex seg (chars ",attr") = -1 →
      stringsIndex seg (chars ",omitempty") ≠ -1 →
      xmlProcessing tg = .ok (String.mk (sliceTo seg (stringsIndex seg (chars ",omitempty"))))) ∧
    (stringsIndex seg (chars ",attr") = -1 →
      stringsIndex seg (chars ",omitempty") = -1 →
      xmlProcessing tg = .ok (String.mk seg)) := by
  have hao : stringsIndex seg (chars ",attr,omitempty") ≠ -1 →
      stringsIndex seg (chars ",attr") ≠ -1 := by
    intro h1 h2
    rw [stringsIndex_eq_neg_one] at h2
    rw [Ne, stringsIndex_eq_neg_one] at h1
    cases h3 : indexOf? seg (chars ",attr,omitempty") with
    | none => exact h1 h3
    | some i =>
      obtain ⟨j, hj, _⟩ := indexOf?_append_isSome (chars ",attr") (chars ",omitempty") seg i h3
      rw [h2] at hj
      cases hj
  have hoa : stringsIndex seg (chars ",omitempty,attr") ≠ -1 →
      stringsIndex seg (chars ",omitempty") ≠ -1 := by
    intro h1 h2
    rw [stringsIndex_eq_neg_one] at h2
    rw [Ne, stringsIndex_eq_neg_one] at h1
    cases h3 : indexOf? seg (chars ",omitempty,attr") with
    | none => exact h1 h3
    | some i =>
      obtain ⟨j, hj, _⟩ := indexOf?_append_isSome (chars ",omitempty") (chars ",attr") seg i h3
      rw [h2] at hj
      cases hj
  have hge : ∀ sub, stringsIndex seg sub ≥ -1 := by
    intro sub
    unfold stringsIndex
    cases indexOf? seg sub <;> simp
    omega
  have g1 := hge (chars ",attr")
  have g2 := hge (chars ",omitempty")
  have g3 := hge (chars ",attr,omitempty")
  have g4 := hge (chars ",omitempty,attr")
  simp only [xmlProcessing, h]
  refine ⟨?_, ?_, ?_, ?_, ?_⟩
  · intro h1
    have := hao h1
    rw [if_neg (by omega), if_neg (by omega), if_neg (by omega), if_pos (by omega)]
  · intro h1 h2
    have := hoa h2
    rw [if_neg (by omega), if_neg (by omega), if_neg (by omega), if_neg (by omega)]
  · intro h1 h2 h3
    rw [if_pos (by omega)]
  · intro h1 h2
    have h3 : stringsIndex seg (chars ",attr,omitempty") = -1 := by
      by_contra h3
      exact hao h3 h1
    have h4 : stringsIndex seg (chars ",omitempty,attr") = -1 := by
      by_contra h4
      rw [stringsIndex_eq_neg_one] at h4 h1
      cases h5 : indexOf? seg (chars ",omitempty,attr") with
      | none => exact h4 h5
      | some i =>
        obtain ⟨j, hj⟩ := indexOf?_append_right_isSome (chars ",omitempty") (chars ",attr") seg i h5
        rw [h1] at hj
        cases hj
    rw [if_neg (by omega), if_pos (by omega)]
  · intro h1 h2
    rw [if_neg (by omega), if_neg (by omega), if_pos (by omega)]

theorem stringsIndex_canonical_absent (name mods sub : List Char) (hname : ',' ∉ name)
    (hv : stringsIndex mods (',' :: sub) = -1) :
    stringsIndex (name ++ mods) (',' :: sub) = -1 := by
  rw [stringsIndex_commaFree _ _ _ hname, hv]
  simp

theorem stringsIndex_canonical_first (name mods sub : List Char) (hname : ',' ∉ name)
    (hv : stringsIndex mods (',' :: sub) = 0) :
    stringsIndex (name ++ mods) (',' :: sub) = name.length := by
  rw [stringsIndex_commaFree _ _ _ hname, hv]
  simp

theorem sliceTo_append_length (name rest : List Char) :
    sliceTo (name ++ rest) (name.length : Int) = name := by
  simp [sliceTo]

/-- On a comma-free name followed by one of the usual modifier suffixes
`xmlProcessing` returns the name. -/
theorem xmlProcessing_canonical (tg : String) (name mods : List Char)
    (hseg : findStringSubmatch (chars tg) = some (name ++ mods)) (hname : ',' ∉ name)
    (hmods : mods ∈ [[], (chars ",attr"), (chars ",omitempty"), (chars ",attr,omitempty"),
      (chars ",omitempty,attr")]) :
    xmlProcessing tg = .ok (String.mk name) := by
  obtain ⟨p1, p2, p3, p4, p5⟩ := xmlProcessing_priority tg (name ++ mods) hseg
  have k := fun sub hv => stringsIndex_canonical_absent name mods sub hname hv
  have k0 := fun sub hv => stringsIndex_canonical_first name mods sub hname hv
  simp only [List.mem_cons, List.mem_singleton, List.not_mem_nil, or_false] at hmods
  rcases hmods with h | h | h | h | h
  · subst h
    have a1 : stringsIndex (name ++ []) (chars ",attr") = -1 :=
      k (chars "attr") (by decide)
    have a2 : stringsIndex (name ++ []) (chars ",omitempty") = -1 :=
      k (chars "omitempty") (by decide)
    rw [p5 a1 a2]
    simp
  · subst h
    have a1 : stringsIndex (name ++ (chars ",attr")) (chars ",attr") = (name.length : Int) :=
      k0 (chars "attr") (by decide)
    have a3 : stringsIndex (name ++ (chars ",attr")) (chars ",attr,omitempty") = -1 :=
      k (chars "attr,omitempty") (by decide)
    have a4 : stringsIndex (name ++ (chars ",attr")) (chars ",omitempty,attr") = -1 :=
      k (chars "omitempty,attr") (by decide)
    rw [p3 a3 a4 (by rw [a1]; omega), a1, sliceTo_append_length]
  · subst h
    have a1 : stringsIndex (name ++ (chars ",omitempty")) (chars ",attr") = -1 :=
      k (chars "attr") (by decide)
    have a2 : stringsIndex (name ++ (chars ",omitempty")) (chars ",omitempty")
        = (name.length : Int) :=
      k0 (chars "omitempty") (by decide)
    rw [p4 a1 (by rw [a2]; omega), a2, sliceTo_append_length]
  · subst h
    have a3 : stringsIndex (name ++ (chars ",attr,omitempty")) (chars ",attr,omitempty")
        = (name.length : Int) :=
      k0 (chars "attr,omitempty") (by decide)
    rw [p1 (by rw [a3]; omega), a3, sliceTo_append_length]
  · subst h
    have a3 : stringsIndex (name ++ (chars ",omitempty,attr")) (chars ",attr,omitempty") = -1 :=
      k (chars "attr,omitempty") (by decide)
    have a4 : stringsIndex (name ++ (chars ",omitempty,attr")) (chars ",omitempty,attr")
        = (name.length : Int) :=
      k0 (chars "omitempty,attr") (by decide)
    rw [p2 a3 (by rw [a4]; omega), a4, sliceTo_append_length]

/-- A segment without one of the two modifiers holds neither of the two-modifier patterns. -/
theorem stringsIndex_pair_absent (seg : List Char) :
    (stringsIndex seg (chars ",attr") = -1 →
      stringsIndex seg (chars ",attr,omitempty") = -1 ∧
        stringsIndex seg (chars ",omitempty,attr") = -1) ∧
    (stringsIndex seg (chars ",omitempty") = -1 →
      stringsIndex seg (chars ",attr,omitempty") = -1 ∧
        stringsIndex seg (chars ",omitempty,attr") = -1) := by
  have left : ∀ (p q : List Char), stringsIndex seg p = -1 → stringsIndex seg (p ++ q) = -1 := by
    intro p q h
    rw [stringsIndex_eq_neg_one] at h ⊢
    cases h3 : indexOf? seg (p ++ q) with
    | none => rfl
    | some i =>
      obtain ⟨j, hj, _⟩ := indexOf?_append_isSome p q seg i h3
      rw [h] at hj
      cases hj
  have right : ∀ (p q : List Char), stringsIndex seg q = -1 → stringsIndex seg (p ++ q) = -1 := by
    intro p q h
    rw [stringsIndex_eq_neg_one] at h ⊢
    cases h3 : indexOf? seg (p ++ q) with
    | none => rfl
    | some i =>
      obtain ⟨j, hj⟩ := indexOf?_append_right_isSome p q seg i h3
      rw [h] at hj
      cases hj
  exact ⟨fun h => ⟨left (chars ",attr") (chars ",omitempty") h,
      right (chars ",omitempty") (chars ",attr") h⟩,
    fun h => ⟨right (chars ",attr") (chars ",omitempty") h,
      left (chars ",omitempty") (chars ",attr") h⟩⟩

/-! ## The quoted segment -/

theorem lazyGroup_some : ∀ (s g : List Char), lazyGroup s = some g →
    ∃ rest, s = g ++ '"' :: rest ∧ '\n' ∉ g ∧ '"' ∉ g := by
  intro s
  induction s with
  | nil => intro g h; simp [lazyGroup] at h
  | cons c cs ih =>
    intro g h
    simp only [lazyGroup] at h
    split at h
    · rename_i hc
      simp at h
      subst h
      exact ⟨cs, by simp [hc], by simp, by simp⟩
    · rename_i hc
      split at h
      · simp at h
      · rename_i hn
        cases hcs : lazyGroup cs with
        | none => simp [hcs] at h
        | some g' =>
          simp [hcs] at h
          subst h
          obtain ⟨rest, h1, h2, h3⟩ := ih g' hcs
          refine ⟨rest, by simp [h1], ?_, ?_⟩
          · simp; exact ⟨fun e => hn e.symm, h2⟩
          · simp; exact ⟨fun e => hc e.symm, h3⟩

theorem lazyGroup_isSome (rest : List Char) : ∀ (b : List Char), '\n' ∉ b →
    (lazyGroup (b ++ '"' :: rest)).isSome := by
  intro b
  induction b with
  | nil => intro _; simp [lazyGroup]
  | cons c cs ih =>
    intro h
    simp at h
    simp only [List.cons_append, lazyGroup]
    split
    · simp
    · rw [if_neg (fun e => h.1 e.symm)]
      have := ih h.2
      cases hl : lazyGroup (cs ++ '"' :: rest) with
      | none => simp [hl] at this
      | some g => simp

theorem findStringSubmatch_some : ∀ (s g : List Char), findStringSubmatch s = some g →
    ∃ a c, s = a ++ '"' :: (g ++ '"' :: c) ∧ '\n' ∉ g ∧ '"' ∉ g := by
  intro s
  induction s with
  | nil => intro g h; simp [findStringSubmatch] at h
  | cons c cs ih =>
    intro g h
    simp only [findStringSubmatch] at h
    split at h
    · rename_i hc
      split at h
      · rename_i g' hg
        simp at h
        subst h
        obtain ⟨rest, h1, h2, h3⟩ := lazyGroup_some cs g' hg
        exact ⟨[], rest, by simp [hc, h1], h2, h3⟩
      · obtain ⟨a, c', h1, h2⟩ := ih g h
        exact ⟨c :: a, c', by simp [h1], h2⟩
    · obtain ⟨a, c', h1, h2⟩ := ih g h
      exact ⟨c :: a, c', by simp [h1], h2⟩

theorem findStringSubmatch_isSome (b c : List Char) (hb : '\n' ∉ b) : ∀ (a : List Char),
    (findStringSubmatch (a ++ '"' :: (b ++ '"' :: c))).isSome := by
  intro a
  induction a with
  | nil =>
    have := lazyGroup_isSome c b hb
    simp only [List.nil_append, findStringSubmatch]
    cases hl : lazyGroup (b ++ '"' :: c) with
    | none => simp [hl] at this
    | some g => simp
  | cons x xs ih =>
    simp only [List.cons_append, findStringSubmatch]
    split
    · split
      · simp
      · exact ih
    · exact ih

/-- Outcome of the regular expression: `xmlProcessing` fails exactly when the raw tag holds
no two double quotes on one line. -/
theorem xmlProcessing_error_iff (tg : String) :
    (∃ e, xmlProcessing tg = .error e) ↔
      ¬ ∃ a b c, (chars tg) = a ++ '"' :: (b ++ '"' :: c) ∧ '\n' ∉ b := by
  constructor
  · rintro ⟨e, he⟩ ⟨a, b, c, h1, h2⟩
    have := findStringSubmatch_isSome b c h2 a
    rw [← h1] at this
    cases hf : findStringSubmatch (chars tg) with
    | none => rw [hf] at this; cases this
    | some g =>
      simp only [xmlProcessing, hf] at he
      repeat' split at he
      all_goals cases he
  · intro h
    cases hf : findStringSubmatch (chars tg) with
    | none => exact ⟨"out of range", by simp only [xmlProcessing, hf]⟩
    | some g =>
      exfalso
      obtain ⟨a, c, h1, h2, _⟩ := findStringSubmatch_some _ g hf
      exact h ⟨a, g, c, h1, h2⟩

/-! ## `mapProcessing` is a filter -/

theorem keeps_iff (n : ShapeNode) :
    keeps n = true ↔ n.rawTag ≠ "" ∧ stringsIndex (chars n.rawTag) (chars ",attr") = -1 := by
  unfold keeps
  rw [Bool.and_eq_true, decide_eq_true_eq, decide_eq_true_eq]

theorem keeps_eq_false_iff (n : ShapeNode) :
    keeps n = false ↔ n.rawTag = "" ∨ stringsIndex (chars n.rawTag) (chars ",attr") ≠ -1 := by
  rw [← Bool.not_eq_true, keeps_iff]
  tauto

theorem deleteAt_natCast (mapVar : List ShapeNode) (i : Nat) (h : i < mapVar.length) :
    deleteAt mapVar (i : Int) = some (mapVar.take i ++ mapVar.drop (i + 1)) := by
  unfold deleteAt
  rw [if_pos ⟨by omega, by omega⟩]
  simp

theorem mapProcessingLoop_eq : ∀ (fuel : Nat) (mapVar : List ShapeNode) (i : Nat),
    i ≤ mapVar.length → mapVar.length - i ≤ fuel →
    mapProcessingLoop fuel mapVar (i : Int) =
      .ok (mapVar.take i ++ (mapVar.drop i).filter keeps) := by
  intro fuel
  induction fuel with
  | zero =>
    intro mapVar i h1 h2
    have hi : i = mapVar.length := by omega
    subst hi
    simp [mapProcessingLoop]
  | succ fuel ih =>
    intro mapVar i h1 h2
    by_cases hlt : i < mapVar.length
    · have hget : (if (i : Int) < 0 then none else mapVar[(i : Int).toNat]?) =
          some mapVar[i] := by
        rw [if_neg (by omega)]
        simp [List.getElem?_eq_getElem hlt]
      have hdrop : mapVar.drop i = mapVar[i] :: mapVar.drop (i + 1) :=
        List.drop_eq_getElem_cons hlt
      have hdel := deleteAt_natCast mapVar i hlt
      have hlen : (mapVar.take i ++ mapVar.drop (i + 1)).length = mapVar.length - 1 := by
        simp; omega
      have hli : (mapVar.take i).length = i := by simp; omega
      have htake : (mapVar.take i ++ mapVar.drop (i + 1)).take i = mapVar.take i := by
        rw [List.take_append_of_le_length (by omega)]
        simp [List.take_take]
      have hdrop2 : (mapVar.take i ++ mapVar.drop (i + 1)).drop i = mapVar.drop (i + 1) := by
        rw [List.drop_append_of_le_length (by omega)]
        rw [List.drop_eq_nil_of_le (by omega)]
        simp
      have hstep := ih (mapVar.take i ++ mapVar.drop (i + 1)) i (by rw [hlen]; omega)
        (by rw [hlen]; omega)
      rw [htake, hdrop2] at hstep
      have hnext := ih mapVar (i + 1) (by omega) (by omega)
      rw [mapProcessingLoop, if_pos (by omega), hget]
      simp only []
      by_cases he : mapVar[i].rawTag = ""
      · have hidx : stringsIndex (chars mapVar[i].rawTag) (chars ",attr") = -1 := by
          rw [he]; decide
        have hk : keeps mapVar[i] = false := (keeps_eq_false_iff _).mpr (Or.inl he)
        rw [if_pos he, hdel]
        simp only [Option.map_some']
        rw [if_neg (by rw [hidx]; simp)]
        simp only []
        rw [Int.sub_add_cancel, hstep, hdrop, List.filter_cons_of_neg (by simp [hk])]
      · rw [if_neg he]
        simp only []
        by_cases hidx : stringsIndex (chars mapVar[i].rawTag) (chars ",attr") = -1
        · have hk : keeps mapVar[i] = true := (keeps_iff _).mpr ⟨he, hidx⟩
          rw [if_neg (by rw [hidx]; simp)]
          simp only []
          have : ((i : Int) + 1) = ((i + 1 : Nat) : Int) := by simp
          have ht : mapVar.take (i + 1) = mapVar.take i ++ [mapVar[i]] := by
            rw [List.take_succ, List.getElem?_eq_getElem hlt]
            rfl
          rw [this, hnext, hdrop, List.filter_cons_of_pos hk, ht, List.append_assoc]
          rfl
        · have hk : keeps mapVar[i] = false := (keeps_eq_false_iff _).mpr (Or.inr hidx)
          rw [if_pos hidx, hdel]
          simp only [Option.map_some']
          rw [Int.sub_add_cancel, hstep, hdrop, List.filter_cons_of_neg (by simp [hk])]
    · have hi : i = mapVar.length := by omega
      subst hi
      simp [mapProcessingLoop]

/-- What `mapProcessing` computes: it never fails and returns the entries it keeps, in order. -/
theorem mapProcessing_eq_filter (mapVar : List ShapeNode) :
    mapProcessing mapVar = .ok (mapVar.filter keeps) := by
  have := mapProcessingLoop_eq mapVar.length mapVar 0 (Nat.zero_le _) (by omega)
  simpa [mapProcessing] using this

/-! ## `soapHandling` is a pre-order walk -/

theorem fieldByName_self : ∀ (fields : List (String × String × GoType)),
    (fields.map (·.1)).Nodup → ∀ f ∈ fields, fieldByName fields f.1 = some f := by
  intro fields
  induction fields with
  | nil => intro _ f hf; simp at hf
  | cons g gs ih =>
    intro hnd f hf
    simp only [List.map_cons, List.nodup_cons] at hnd
    simp only [fieldByName, List.find?_cons]
    rcases List.mem_cons.mp hf with h | h
    · subst h
      simp
    · have hne : g.1 ≠ f.1 := by
        intro e
        apply hnd.1
        rw [e]
        exact List.mem_map_of_mem _ h
      simp only [hne, decide_False]
      exact ih hnd.2 f h

mutual
theorem soapHandling_append : ∀ (tp : GoType) (tags : List ShapeNode),
    distinctNames tp = true → soapHandling tp tags = tags ++ preorderShape tp
  | .basic, tags, _ => by simp [soapHandling, preorderShape]
  | .struct fields, tags, h => by
    simp only [distinctNames, Bool.and_eq_true, decide_eq_true_eq] at h
    simp only [soapHandling, preorderShape]
    exact soapHandlingFields_append fields fields tags
      (fun f hf => fieldByName_self fields h.1 f hf) h.2
theorem soapHandlingFields_append (typeOfT : List (String × String × GoType)) :
    ∀ (fields : List (String × String × GoType)) (tags : List ShapeNode),
    (∀ f ∈ fields, fieldByName typeOfT f.1 = some f) → distinctNamesFields fields = true →
    soapHandlingFields typeOfT fields tags = tags ++ preorderFields fields
  | [], tags, _, _ => by simp [soapHandlingFields, preorderFields]
  | (name, tag, ftype) :: rest, tags, hby, h => by
    simp only [distinctNamesFields, Bool.and_eq_true] at h
    have h1 := hby (name, tag, ftype) (List.mem_cons_self _ _)
    simp only at h1
    simp only [soapHandlingFields, h1, preorderFields]
    rw [soapHandlingFields_append typeOfT rest _
      (fun f hf => hby f (List.mem_cons_of_mem _ hf)) h.2,
      soapHandling_append ftype _ h.1]
    simp
end

mutual
theorem preorderShape_length : ∀ (tp : GoType), (preorderShape tp).length = fieldCount tp
  | .basic => by simp [preorderShape, fieldCount]
  | .struct fields => by
    simp only [preorderShape, fieldCount]
    exact preorderFields_length fields
theorem preorderFields_length : ∀ (fields : List (String × String × GoType)),
    (preorderFields fields).length = fieldCountFields fields
  | [] => by simp [preorderFields, fieldCountFields]
  | (_, _, ftype) :: rest => by
    simp only [preorderFields, fieldCountFields, List.length_cons, List.length_append]
    rw [preorderShape_length ftype, preorderFields_length rest]
    omega
end

/-! ## Flattening -/

mutual
theorem xmlUnmarshal_eq : ∀ (elems : List Element) (data : List FlatNode) (mas : List String),
    xmlUnmarshal elems (data, mas) =
      (data ++ flatNodes elems, mas ++ (rawMarks elems).map Marker.str)
  | [], data, mas => by simp [xmlUnmarshal, flatNodes, rawMarks]
  | e :: rest, data, mas => by
    rw [xmlUnmarshal, xmlUnmarshalElem_eq e data mas, xmlUnmarshal_eq rest]
    simp [flatNodes, rawMarks]
theorem xmlUnmarshalElem_eq : ∀ (e : Element) (data : List FlatNode) (mas : List String),
    xmlUnmarshalElem e (data, mas) =
      (data ++ flatNodesElem e, mas ++ (rawMarksElem e).map Marker.str)
  | .mk _ tag attr text child, data, mas => by
    rw [xmlUnmarshalElem, xmlUnmarshal_eq child]
    simp [flatNodesElem, rawMarksElem, Marker.str]
end

/-! ## `ident` collapses leaves -/

theorem foldl_joinMarkers : ∀ (mas : List String) (acc : List Char),
    mas.foldl (fun buffer j => buffer ++ (chars j ++ [' '])) acc = acc ++ joinMarkers mas := by
  intro mas
  induction mas with
  | nil => intro acc; simp [joinMarkers]
  | cons j rest ih =>
    intro acc
    simp [ih, joinMarkers]

theorem joinMarkers_append (a b : List String) :
    joinMarkers (a ++ b) = joinMarkers a ++ joinMarkers b := by
  induction a with
  | nil => simp [joinMarkers]
  | cons j rest ih => simp [joinMarkers, ih]

theorem replaceGo_pop (tail : List Char) :
    replaceGo (chars "Push Pop ") (chars "PushPop ") (chars "Pop" ++ ' ' :: tail) 0 =
      chars "Pop" ++ ' ' :: replaceGo (chars "Push Pop ") (chars "PushPop ") tail 0 := by
  rfl

theorem replaceGo_push_pop (tail : List Char) :
    replaceGo (chars "Push Pop ") (chars "PushPop ")
        (chars "Push" ++ ' ' :: (chars "Pop" ++ ' ' :: tail)) 0 =
      chars "PushPop" ++ ' ' :: replaceGo (chars "Push Pop ") (chars "PushPop ") tail 0 := by
  simp [replaceGo, chars, List.isPrefixOf]

theorem replaceGo_push_push (tail : List Char) :
    replaceGo (chars "Push Pop ") (chars "PushPop ")
        (chars "Push" ++ ' ' :: (chars "Push" ++ ' ' :: tail)) 0 =
      chars "Push" ++ ' ' ::
        replaceGo (chars "Push Pop ") (chars "PushPop ") (chars "Push" ++ ' ' :: tail) 0 := by
  rfl

mutual
theorem replaceGo_rawMarks : ∀ (f : List Element) (tail : List Char),
    replaceGo (chars "Push Pop ") (chars "PushPop ")
        (joinMarkers ((rawMarks f).map Marker.str) ++ tail) 0 =
      joinMarkers ((marks f).map Marker.str) ++
        replaceGo (chars "Push Pop ") (chars "PushPop ") tail 0
  | [], tail => by simp [rawMarks, marks, joinMarkers]
  | e :: rest, tail => by
    simp only [rawMarks, marks, List.map_append, joinMarkers_append, List.append_assoc,
      List.append_eq]
    rw [replaceGo_rawMarksElem e, replaceGo_rawMarks rest]
theorem replaceGo_rawMarksElem : ∀ (e : Element) (tail : List Char),
    replaceGo (chars "Push Pop ") (chars "PushPop ")
        (joinMarkers ((rawMarksElem e).map Marker.str) ++ tail) 0 =
      joinMarkers ((marksElem e).map Marker.str) ++
        replaceGo (chars "Push Pop ") (chars "PushPop ") tail 0
  | .mk _ _ _ _ child, tail => by
    have ih := replaceGo_rawMarks child
    cases child with
    | nil =>
      simp only [rawMarksElem, rawMarks, marksElem, List.map_cons, List.map_nil, List.nil_append,
        joinMarkers, Marker.str, List.append_assoc, List.cons_append]
      exact replaceGo_push_pop tail
    | cons c cs =>
      obtain ⟨s1, t1, a1, x1, ch1⟩ := c
      have ih2 := ih (chars "Pop" ++ ' ' :: tail)
      simp only [rawMarksElem, rawMarks, marksElem, marks, List.map_cons, List.map_append,
        List.map_nil, joinMarkers, joinMarkers_append, Marker.str, List.append_assoc,
        List.cons_append, List.nil_append, List.append_eq] at ih2 ⊢
      rw [replaceGo_push_push, ih2, replaceGo_pop]
end

/-! ### Trimming and splitting -/

theorem joinMarkers_eq_joinBlank : ∀ (ms : List String), ms ≠ [] →
    joinMarkers ms = joinBlank ms ++ [' ']
  | [], h => absurd rfl h
  | [j], _ => by simp [joinMarkers, joinBlank]
  | j :: k :: rest, _ => by
    rw [joinMarkers, joinMarkers_eq_joinBlank (k :: rest) (by simp), joinBlank]
    simp

theorem stringsSplit_word (sep : Char) : ∀ (w : List Char), sep ∉ w →
    stringsSplit sep w = [w] := by
  intro w
  induction w with
  | nil => intro _; simp [stringsSplit]
  | cons c cs ih =>
    intro h
    simp only [List.mem_cons, not_or] at h
    simp only [stringsSplit, if_neg (fun e : c = sep => h.1 e.symm), ih h.2]

theorem stringsSplit_word_append (sep : Char) (rest : List Char) : ∀ (w : List Char), sep ∉ w →
    stringsSplit sep (w ++ sep :: rest) = w :: stringsSplit sep rest := by
  intro w
  induction w with
  | nil => intro _; simp [stringsSplit]
  | cons c cs ih =>
    intro h
    simp only [List.mem_cons, not_or] at h
    simp only [List.cons_append, stringsSplit, if_neg (fun e : c = sep => h.1 e.symm),
      List.append_eq, ih h.2]

theorem Marker.blank_not_mem (m : Marker) : ' ' ∉ chars m.str := by
  cases m <;> decide

theorem stringsSplit_joinBlank : ∀ (ms : List Marker), ms ≠ [] →
    stringsSplit ' ' (joinBlank (ms.map Marker.str)) = ms.map (fun m => chars m.str)
  | [], h => absurd rfl h
  | [m], _ => by
    simp only [List.map_cons, List.map_nil, joinBlank]
    exact stringsSplit_word ' ' _ m.blank_not_mem
  | m :: k :: rest, _ => by
    simp only [List.map_cons, joinBlank]
    rw [stringsSplit_word_append ' ' _ _ m.blank_not_mem]
    have := stringsSplit_joinBlank (k :: rest) (by simp)
    simp only [List.map_cons] at this
    rw [this]

theorem Marker.head_chars (m : Marker) : ∃ rest, chars m.str = 'P' :: rest := by
  cases m <;> exact ⟨_, rfl⟩

theorem Marker.last_chars (m : Marker) :
    ∃ init d, chars m.str = init ++ [d] ∧ isSpace d = false := by
  cases m
  · exact ⟨chars "Pus", 'h', rfl, by decide⟩
  · exact ⟨chars "PushPo", 'p', rfl, by decide⟩
  · exact ⟨chars "Po", 'p', rfl, by decide⟩

theorem joinBlank_head : ∀ (ms : List Marker), ms ≠ [] →
    ∃ rest, joinBlank (ms.map Marker.str) = 'P' :: rest
  | [], h => absurd rfl h
  | [m], _ => by
    obtain ⟨r, hr⟩ := m.head_chars
    exact ⟨r, by simp [joinBlank, hr]⟩
  | m :: k :: rest, _ => by
    obtain ⟨r, hr⟩ := m.head_chars
    exact ⟨r ++ ' ' :: joinBlank (k.str :: List.map Marker.str rest),
      by simp only [List.map_cons, joinBlank, hr, List.cons_append]⟩

theorem joinBlank_last : ∀ (ms : List Marker), ms ≠ [] →
    ∃ init d, joinBlank (ms.map Marker.str) = init ++ [d] ∧ isSpace d = false
  | [], h => absurd rfl h
  | [m], _ => by
    obtain ⟨i, d, h1, h2⟩ := m.last_chars
    exact ⟨i, d, by simp [joinBlank, h1], h2⟩
  | m :: k :: rest, _ => by
    obtain ⟨i, d, h1, h2⟩ := joinBlank_last (k :: rest) (by simp)
    simp only [List.map_cons] at h1
    refine ⟨chars m.str ++ ' ' :: i, d, ?_, h2⟩
    simp only [List.map_cons, joinBlank, h1]
    simp

theorem stringsTrimSpace_joinMarkers (ms : List Marker) (h : ms ≠ []) :
    stringsTrimSpace (joinMarkers (ms.map Marker.str)) = joinBlank (ms.map Marker.str) := by
  rw [joinMarkers_eq_joinBlank _ (by simpa using h)]
  obtain ⟨r, hr⟩ := joinBlank_head ms h
  obtain ⟨i, d, hi, hd⟩ := joinBlank_last ms h
  unfold stringsTrimSpace
  have h1 : (joinBlank (ms.map Marker.str) ++ [' ']).dropWhile isSpace =
      joinBlank (ms.map Marker.str) ++ [' '] := by
    have hP : isSpace 'P' = false := by decide
    rw [hr, List.cons_append, List.dropWhile_cons, hP]
    rfl
  rw [h1, List.reverse_append]
  have h2 : ([' '].reverse ++ (joinBlank (ms.map Marker.str)).reverse).dropWhile isSpace =
      (joinBlank (ms.map Marker.str)).reverse := by
    have hb : isSpace ' ' = true := by decide
    rw [hi, List.reverse_append]
    simp only [List.reverse_cons, List.reverse_nil, List.nil_append, List.singleton_append,
      List.cons_append, List.dropWhile_cons, hb, hd]
    rfl
  rw [h2, List.reverse_reverse]

/-- Effect of `ident` on the markers written by `xmlUnmarshal` for a non-empty forest: the
collapsed markers. -/
theorem ident_rawMarks (f : List Element) (h : f ≠ []) :
    ident ((rawMarks f).map Marker.str) = (marks f).map Marker.str := by
  have hm : marks f ≠ [] := by
    cases f with
    | nil => exact absurd rfl h
    | cons e rest =>
      obtain ⟨s, t, a, x, child⟩ := e
      cases child <;> simp [marks, marksElem]
  have hr := replaceGo_rawMarks f []
  simp only [List.append_nil, replaceGo] at hr
  unfold ident
  simp only [foldl_joinMarkers, List.nil_append, stringsReplace]
  rw [hr, stringsTrimSpace_joinMarkers _ hm, stringsSplit_joinBlank _ hm]
  simp only [List.map_map]
  apply List.map_congr_left
  intro m _
  rfl

theorem ident_nil : ident [] = [""] := by
  decide

/-! ## The loop of `xmlAnalize` -/

mutual
theorem built_length (test : List ShapeNode) : ∀ (f : List Element) (parent : Ref) (pos : Nat),
    (built test f parent pos).length = (flatNodes f).length
  | [], _, _ => by simp [built, flatNodes]
  | e :: rest, parent, pos => by
    simp only [built, flatNodes, List.length_append]
    rw [builtElem_length test e, built_length test rest]
theorem builtElem_length (test : List ShapeNode) : ∀ (e : Element) (parent : Ref) (pos : Nat),
    (builtElem test e parent pos).length = (flatNodesElem e).length
  | .mk _ _ _ _ child, parent, pos => by
    simp only [builtElem, flatNodesElem, List.length_cons]
    rw [built_length test child]
end

theorem drop_cons_facts {α : Type} (l : List α) (j : Nat) (x : α) (rest : List α)
    (h : l.drop j = x :: rest) : l[j]? = some x ∧ l.drop (j + 1) = rest ∧ j < l.length := by
  have hlt : j < l.length := by
    by_contra hc
    rw [List.drop_eq_nil_of_le (by omega)] at h
    cases h
  rw [List.drop_eq_getElem_cons hlt] at h
  simp only [List.cons.injEq] at h
  exact ⟨by rw [List.getElem?_eq_getElem hlt, h.1], h.2, hlt⟩

theorem drop_append_facts {α : Type} (l : List α) (j : Nat) (a b : List α)
    (h : l.drop j = a ++ b) : l.drop (j + a.length) = b := by
  have : l.drop (j + a.length) = (l.drop j).drop a.length := by
    rw [List.drop_drop, Nat.add_comm]
  rw [this, h]
  simp

mutual
theorem marks_length_ge : ∀ (f : List Element), (flatNodes f).length ≤ (marks f).length
  | [] => by simp [marks, flatNodes]
  | e :: rest => by
    simp only [marks, flatNodes, List.length_append]
    have := marksElem_length_ge e
    have := marks_length_ge rest
    omega
theorem marksElem_length_ge : ∀ (e : Element), (flatNodesElem e).length ≤ (marksElem e).length
  | .mk _ _ _ _ [] => by simp [marksElem, flatNodesElem, flatNodes]
  | .mk _ _ _ _ (c :: cs) => by
    simp only [marksElem, flatNodesElem, flatNodes, List.length_cons, List.length_append,
      List.length_nil]
    have := marksElem_length_ge c
    have := marks_length_ge cs
    omega
end

section Loop

variable (test : List ShapeNode) (data : List FlatNode) (mas : List String)

theorem loop_done (fuel : Nat) (st : LoopState) (h : data.length ≤ st.lstIndex) :
    xmlAnalizeLoop test data mas fuel st = .ok st.document := by
  cases fuel with
  | zero => simp [xmlAnalizeLoop]; omega
  | succ n =>
    rw [xmlAnalizeLoop, List.getElem?_eq_none h]

theorem step_pushPop (fuel k j : Nat) (r : Ref) (D : Document) (lst : FlatNode)
    (res : String × AttrMap × String) (m0 : String)
    (h1 : data[k]? = some lst) (h2 : xmlMaker lst test k = .ok res) (h3 : k ≠ 0)
    (h4 : mas[k]? = some m0) (h5 : mas[j]? = some "PushPop") :
    xmlAnalizeLoop test data mas (fuel + 1) ⟨k, j, some r, D⟩ =
      xmlAnalizeLoop test data mas fuel
        ⟨k + 1, j + 1, some r, D ++ [⟨res.1, res.2.1, res.2.2, r⟩]⟩ := by
  obtain ⟨n, a, v⟩ := res
  rw [xmlAnalizeLoop]
  simp only [h1, h2, h4, h5, h3, and_false, if_false, if_true]
  rfl

theorem step_push (fuel k j : Nat) (r : Ref) (D : Document) (lst : FlatNode)
    (res : String × AttrMap × String) (m0 : String)
    (h1 : data[k]? = some lst) (h2 : xmlMaker lst test k = .ok res) (h3 : k ≠ 0)
    (h4 : mas[k]? = some m0) (h5 : mas[j]? = some "Push") :
    xmlAnalizeLoop test data mas (fuel + 1) ⟨k, j, some r, D⟩ =
      xmlAnalizeLoop test data mas fuel
        ⟨k + 1, j + 1, some (.elem D.length), D ++ [⟨res.1, res.2.1, res.2.2, r⟩]⟩ := by
  obtain ⟨n, a, v⟩ := res
  rw [xmlAnalizeLoop]
  simp only [h1, h2, h4, h5, h3, and_false, if_false, if_true]

theorem step_pop (fuel k j : Nat) (r : Ref) (D : Document) (lst : FlatNode)
    (res : String × AttrMap × String) (m0 : String)
    (h1 : data[k]? = some lst) (h2 : xmlMaker lst test k = .ok res) (h3 : k ≠ 0)
    (h4 : mas[k]? = some m0) (h5 : mas[j]? = some "Pop") :
    xmlAnalizeLoop test data mas (fuel + 1) ⟨k, j, some r, D⟩ =
      xmlAnalizeLoop test data mas fuel ⟨k, j + 1, parentOf D r, D⟩ := by
  obtain ⟨n, a, v⟩ := res
  rw [xmlAnalizeLoop]
  simp only [h1, h2, h4, h5, h3, and_false, if_false, if_true]
  rfl

theorem step_fail (fuel k j : Nat) (el : Option Ref) (D : Document) (lst : FlatNode)
    (e : String) (h1 : data[k]? = some lst) (h2 : xmlMaker lst test k = .error e) :
    xmlAnalizeLoop test data mas (fuel + 1) ⟨k, j, el, D⟩ = .error ("xmlMarker: " ++ e) := by
  rw [xmlAnalizeLoop]
  simp only [h1, h2]

theorem step_first_push (fuel : Nat) (lst : FlatNode) (res : String × AttrMap × String)
    (h1 : data[0]? = some lst) (h2 : xmlMaker lst test 0 = .ok res)
    (h4 : mas[0]? = some "Push") :
    xmlAnalizeLoop test data mas (fuel + 1) ⟨0, 0, none, []⟩ =
      xmlAnalizeLoop test data mas fuel
        ⟨1, 1, some (.elem 0), [⟨res.1, res.2.1, res.2.2, .document⟩]⟩ := by
  obtain ⟨n, a, v⟩ := res
  rw [xmlAnalizeLoop]
  simp only [h1, h2, h4, and_self, if_true]
  rfl

theorem step_first_leaf (fuel : Nat) (lst : FlatNode) (res : String × AttrMap × String)
    (h1 : data[0]? = some lst) (h2 : xmlMaker lst test 0 = .ok res)
    (h4 : mas[0]? = some "PushPop") :
    xmlAnalizeLoop test data mas (fuel + 1) ⟨0, 0, none, []⟩ =
      xmlAnalizeLoop test data mas fuel
        ⟨1, 1, none, [⟨res.1, res.2.1, res.2.2, .document⟩]⟩ := by
  obtain ⟨n, a, v⟩ := res
  rw [xmlAnalizeLoop]
  simp only [h1, h2, h4]
  rfl

theorem getElem?_isSome_of_le {α : Type} (l : List α) (k j : Nat) (x : α) (h : l[j]? = some x)
    (hk : k ≤ j) : ∃ y, l[k]? = some y := by
  have hj : j < l.length := by
    by_contra hc
    rw [List.getElem?_eq_none (by omega)] at h
    cases h
  exact ⟨l[k], List.getElem?_eq_getElem (by omega)⟩

variable (p : Nat) (err : String)

mutual
theorem loop_forest
    (hok : ∀ i lst, i < p → data[i]? = some lst → ∃ res, xmlMaker lst test i = .ok res)
    (hfail : ∀ lst, data[p]? = some lst → xmlMaker lst test p = .error err) :
    ∀ (f : List Element) (fuel k j : Nat) (r : Ref) (D : Document)
      (restD : List FlatNode) (restM : List String),
    data.drop k = flatNodes f ++ restD →
    mas.drop j = (marks f).map Marker.str ++ restM →
    D.length = k → 1 ≤ k → k ≤ j → k ≤ p → 1 ≤ fuel →
    (k + (flatNodes f).length ≤ p →
      xmlAnalizeLoop test data mas ((marks f).length + fuel) ⟨k, j, some r, D⟩ =
        xmlAnalizeLoop test data mas fuel
          ⟨k + (flatNodes f).length, j + (marks f).length, some r, D ++ built test f r k⟩) ∧
    (p < k + (flatNodes f).length →
      xmlAnalizeLoop test data mas ((marks f).length + fuel) ⟨k, j, some r, D⟩ =
        .error ("xmlMarker: " ++ err))
  | [], fuel, k, j, r, D, restD, restM, _, _, _, _, _, _, _ => by
    simp only [marks, flatNodes, built, List.length_nil, Nat.add_zero, Nat.zero_add,
      List.append_nil, implies_true, true_and]
    intro h
    omega
  | e :: rest, fuel, k, j, r, D, restD, restM, hd, hm, hD, hk, hkj, hkp, hf => by
    simp only [flatNodes, List.append_assoc] at hd
    simp only [marks, List.map_append, List.append_assoc] at hm
    have he := loop_elem hok hfail e ((marks rest).length + fuel) k j r D _ _ hd hm hD hk hkj hkp
      (by omega)
    have hd2 := drop_append_facts _ _ _ _ hd
    have hm2 := drop_append_facts _ _ _ _ hm
    rw [List.length_map] at hm2
    simp only [marks, flatNodes, built, List.length_append]
    rw [Nat.add_assoc]
    by_cases hcase : k + (flatNodesElem e).length ≤ p
    · have hr := loop_forest hok hfail rest fuel (k + (flatNodesElem e).length)
        (j + (marksElem e).length) r (D ++ builtElem test e r k) restD restM hd2 hm2
        (by rw [List.length_append, builtElem_length, hD]) (by omega)
        (by
          have := marksElem_length_ge e
          omega) hcase hf
      rw [he.1 hcase]
      constructor
      · intro h
        rw [hr.1 (by omega)]
        simp only [Nat.add_assoc, List.append_assoc]
      · intro h
        rw [hr.2 (by omega)]
    · constructor
      · intro h
        omega
      · intro _
        exact he.2 (by omega)
theorem loop_elem
    (hok : ∀ i lst, i < p → data[i]? = some lst → ∃ res, xmlMaker lst test i = .ok res)
    (hfail : ∀ lst, data[p]? = some lst → xmlMaker lst test p = .error err) :
    ∀ (e : Element) (fuel k j : Nat) (r : Ref) (D : Document)
      (restD : List FlatNode) (restM : List String),
    data.drop k = flatNodesElem e ++ restD →
    mas.drop j = (marksElem e).map Marker.str ++ restM →
    D.length = k → 1 ≤ k → k ≤ j → k ≤ p → 1 ≤ fuel →
    (k + (flatNodesElem e).length ≤ p →
      xmlAnalizeLoop test data mas ((marksElem e).length + fuel) ⟨k, j, some r, D⟩ =
        xmlAnalizeLoop test data mas fuel
          ⟨k + (flatNodesElem e).length, j + (marksElem e).length, some r,
            D ++ builtElem test e r k⟩) ∧
    (p < k + (flatNodesElem e).length →
      xmlAnalizeLoop test data mas ((marksElem e).length + fuel) ⟨k, j, some r, D⟩ =
        .error ("xmlMarker: " ++ err))
  | .mk s t a x child, fuel, k, j, r, D, restD, restM, hd, hm, hD, hk, hkj, hkp, hf => by
    have ihc := loop_forest hok hfail child
    simp only [flatNodesElem, List.cons_append] at hd
    obtain ⟨hd1, hd2, _⟩ := drop_cons_facts _ _ _ _ hd
    by_cases hpk : p = k
    · subst hpk
      have hm' : ∃ n, (marksElem (.mk s t a x child)).length = n + 1 := by
        cases child <;> simp [marksElem]
      obtain ⟨n, hn⟩ := hm'
      constructor
      · intro h
        simp only [flatNodesElem, List.length_cons] at h
        omega
      · intro _
        rw [hn, Nat.add_right_comm]
        exact step_fail test data mas _ p j _ D _ err hd1 (hfail _ hd1)
    have hkp' : k < p := by omega
    obtain ⟨res, hres⟩ := hok k _ hkp' hd1
    have hmade : made test [.str t, .attrs a, .str x] k = res := by
      simp only [made, hres]
    cases child with
    | nil =>
      simp only [marksElem, List.map_cons, List.map_nil, List.cons_append, List.nil_append,
        Marker.str] at hm
      obtain ⟨hm1, _, _⟩ := drop_cons_facts _ _ _ _ hm
      obtain ⟨m0, hm0⟩ := getElem?_isSome_of_le mas k j _ hm1 hkj
      simp only [marksElem, flatNodesElem, flatNodes, builtElem, built, List.length_cons,
        List.length_nil, hmade]
      rw [Nat.add_comm (0 + 1) fuel]
      constructor
      · intro _
        exact step_pushPop test data mas fuel k j r D _ res m0 hd1 hres (by omega) hm0 hm1
      · intro h
        omega
    | cons c cs =>
      have hme : marksElem (.mk s t a x (c :: cs)) =
          .push :: (marks (c :: cs) ++ [.pop]) := by
        simp only [marksElem, marks]
      rw [hme] at hm ⊢
      simp only [List.map_cons, List.map_append, List.map_nil, List.cons_append,
        List.append_assoc, List.nil_append, Marker.str] at hm
      obtain ⟨hm1, hm2, _⟩ := drop_cons_facts _ _ _ _ hm
      obtain ⟨m0, hm0⟩ := getElem?_isSome_of_le mas k j _ hm1 hkj
      have hstep1 := step_push test data mas ((marks (c :: cs)).length + (1 + fuel)) k j r D _
        res m0 hd1 hres (by omega) hm0 hm1
      have hstep2 := ihc (1 + fuel) (k + 1) (j + 1) (.elem k)
        (D ++ [⟨res.1, res.2.1, res.2.2, r⟩]) restD ("Pop" :: restM) hd2 hm2
        (by simp [hD]) (by omega) (by omega) (by omega) (by omega)
      have hfuel : (Marker.push :: (marks (c :: cs) ++ [Marker.pop])).length + fuel =
          ((marks (c :: cs)).length + (1 + fuel)) + 1 := by
        simp only [List.length_cons, List.length_append, List.length_nil]
        omega
      rw [hfuel, hstep1, hD]
      simp only [flatNodesElem, builtElem, hmade, List.length_cons, List.length_append,
        List.length_nil]
      have hm3 := drop_append_facts _ _ _ _ hm2
      rw [List.length_map] at hm3
      have hd3 := drop_append_facts _ _ _ _ hd2
      constructor
      · intro hle
        rw [hstep2.1 (by omega)]
        by_cases hrest : restD = []
        · subst hrest
          have hlen : data.length = k + 1 + (flatNodes (c :: cs)).length := by
            have h1 := congrArg List.length hd3
            simp only [List.length_drop, List.length_nil] at h1
            have h2 := congrArg List.length hd2
            simp only [List.length_drop, List.append_nil] at h2
            omega
          rw [loop_done, loop_done]
          · simp only [List.append_assoc, List.singleton_append]
          · simp only []
            omega
          · simp only []
            omega
        · obtain ⟨nd, restD2, hnd⟩ := List.exists_cons_of_ne_nil hrest
          rw [hnd] at hd3
          obtain ⟨hd4, _, _⟩ := drop_cons_facts _ _ _ _ hd3
          obtain ⟨hm4, _, _⟩ := drop_cons_facts _ _ _ _ hm3
          by_cases hpe : p = k + 1 + (flatNodes (c :: cs)).length
          · have hfl := hfail nd (by rw [hpe]; exact hd4)
            rw [hpe] at hfl
            obtain ⟨fuel', hfuel'⟩ : ∃ n, fuel = n + 1 := ⟨fuel - 1, by omega⟩
            rw [Nat.add_comm 1 fuel,
              step_fail test data mas fuel _ _ _ _ nd err hd4 hfl, hfuel']
            have hd5 : data[k + ((flatNodes (c :: cs)).length + 1)]? = some nd := by
              rw [← hd4]
              congr 1
              omega
            have hfl5 : xmlMaker nd test (k + ((flatNodes (c :: cs)).length + 1)) =
                .error err := by
              rw [← hfl]
              congr 1
              omega
            rw [step_fail test data mas fuel' _ _ _ _ nd err hd5 hfl5]
          · obtain ⟨res2, hres2⟩ := hok _ _ (by omega) hd4
            have hle2 : k + 1 + (flatNodes (c :: cs)).length ≤
                j + 1 + (marks (c :: cs)).length := by
              have := marks_length_ge (c :: cs)
              omega
            obtain ⟨m1, hm1'⟩ := getElem?_isSome_of_le mas _ _ _ hm4 hle2
            have hstep3 := step_pop test data mas fuel (k + 1 + (flatNodes (c :: cs)).length)
              (j + 1 + (marks (c :: cs)).length) (.elem k)
              (D ++ [⟨res.1, res.2.1, res.2.2, r⟩] ++ built test (c :: cs) (.elem k) (k + 1))
              nd res2 m1 hd4 hres2 (by omega) hm1' hm4
            rw [Nat.add_comm 1 fuel, hstep3]
            have hpar : parentOf
                (D ++ [⟨res.1, res.2.1, res.2.2, r⟩] ++
                  built test (c :: cs) (.elem k) (k + 1))
                (.elem k) = some r := by
              simp only [parentOf, List.append_assoc]
              rw [List.getElem?_append_right (by omega)]
              simp [hD]
            rw [hpar]
            simp only [List.append_assoc, List.singleton_append, Nat.add_assoc]
            rw [Nat.add_comm 1 (flatNodes (c :: cs)).length,
              Nat.add_comm 1 ((marks (c :: cs)).length + 1)]
      · intro hlt
        exact hstep2.2 (by omega)
end

end Loop

section Roots

variable (test : List ShapeNode) (data : List FlatNode) (mas : List String)

theorem step_pushPop_nil (fuel k : Nat) (D : Document) (lst : FlatNode)
    (res : String × AttrMap × String)
    (h1 : data[k]? = some lst) (h2 : xmlMaker lst test k = .ok res)
    (h4 : mas[k]? = some "PushPop") :
    xmlAnalizeLoop test data mas (fuel + 1) ⟨k, k, none, D⟩ =
      xmlAnalizeLoop test data mas fuel
        ⟨k + 1, k + 1, none, D ++ [⟨res.1, res.2.1, res.2.2, .document⟩]⟩ := by
  obtain ⟨n, a, v⟩ := res
  rw [xmlAnalizeLoop]
  simp only [h1, h2, h4]
  rfl

variable (p : Nat) (err : String)

/-- Run of the loop over top-level leaves while no scope is open. -/
theorem loop_leaves
    (hok : ∀ i lst, i < p → data[i]? = some lst → ∃ res, xmlMaker lst test i = .ok res)
    (hfail : ∀ lst, data[p]? = some lst → xmlMaker lst test p = .error err) :
    ∀ (f : List Element), f.all isLeaf = true → ∀ (fuel k : Nat) (D : Document),
    data.drop k = flatNodes f → mas.drop k = (marks f).map Marker.str → D.length = k →
    k ≤ p → 1 ≤ fuel →
    (k + (flatNodes f).length ≤ p →
      xmlAnalizeLoop test data mas ((marks f).length + fuel) ⟨k, k, none, D⟩ =
        .ok (D ++ built test f .document k)) ∧
    (p < k + (flatNodes f).length →
      xmlAnalizeLoop test data mas ((marks f).length + fuel) ⟨k, k, none, D⟩ =
        .error ("xmlMarker: " ++ err)) := by
  intro f
  induction f with
  | nil =>
    intro _ fuel k D hd _ hD hkp _
    have hlen : data.length ≤ k := by
      have := congrArg List.length hd
      simp only [flatNodes, List.length_drop, List.length_nil] at this
      omega
    constructor
    · intro _
      rw [loop_done test data mas _ _ (by simpa using hlen)]
      simp [built]
    · intro h
      simp [flatNodes] at h
      omega
  | cons e rest ih =>
    intro hall fuel k D hd hm hD hkp hf
    simp only [List.all_cons, Bool.and_eq_true] at hall
    obtain ⟨s, tg, a, x, child⟩ := e
    cases child with
    | cons c cs => simp [isLeaf] at hall
    | nil =>
      simp only [flatNodes, flatNodesElem, List.cons_append, List.nil_append] at hd
      simp only [marks, marksElem, List.cons_append, List.nil_append, List.map_cons,
        Marker.str] at hm
      obtain ⟨hd1, hd2, _⟩ := drop_cons_facts _ _ _ _ hd
      obtain ⟨hm1, hm2, _⟩ := drop_cons_facts _ _ _ _ hm
      have hfuel : (marks (Element.mk s tg a x [] :: rest)).length + fuel =
          ((marks rest).length + fuel) + 1 := by
        simp only [marks, marksElem, List.cons_append, List.nil_append, List.length_cons]
        omega
      have hsize : (flatNodes (Element.mk s tg a x [] :: rest)).length =
          (flatNodes rest).length + 1 := by
        simp only [flatNodes, flatNodesElem, List.cons_append, List.nil_append,
          List.length_cons]
      rw [hfuel, hsize]
      by_cases hpk : p = k
      · subst hpk
        constructor
        · intro h
          omega
        · intro _
          exact step_fail test data mas _ p p none D _ err hd1 (hfail _ hd1)
      · obtain ⟨res, hres⟩ := hok k _ (by omega) hd1
        have hmade : made test [.str tg, .attrs a, .str x] k = res := by
          simp only [made, hres]
        rw [step_pushPop_nil test data mas _ k D _ res hd1 hres hm1]
        have := ih hall.2 fuel (k + 1) (D ++ [⟨res.1, res.2.1, res.2.2, .document⟩]) hd2 hm2
          (by simp [hD]) (by omega) hf
        constructor
        · intro h
          rw [this.1 (by omega)]
          simp only [built, builtElem, hmade, List.append_assoc, List.singleton_append,
            flatNodesElem, flatNodes, List.length_cons, List.length_nil, List.cons_append,
            List.nil_append]
        · intro h
          exact this.2 (by omega)

end Roots

theorem wellScoped_leaf (s tg : String) (a : List Attr) (x : String) (rest : List Element)
    (h : wellScoped (.mk s tg a x [] :: rest) = true) :
    (Element.mk s tg a x [] :: rest).all isLeaf = true := by
  simpa [wellScoped, isLeaf] using h

/-- Run of the loop of `xmlAnalize` on the flattened form of a non-empty forest `etr` that is
`wellScoped`, when `p` is the first position at which `xmlMaker` fails (`p` is the number of
nodes when it never fails). -/
theorem loop_roots (test : List ShapeNode) (etr : List Element) (hne : etr ≠ [])
    (hs : wellScoped etr = true) (p : Nat) (err : String)
    (hok : ∀ i lst, i < p → (flatNodes etr)[i]? = some lst →
      ∃ res, xmlMaker lst test i = .ok res)
    (hfail : ∀ lst, (flatNodes etr)[p]? = some lst → xmlMaker lst test p = .error err) :
    ((flatNodes etr).length ≤ p →
      xmlAnalizeLoop test (flatNodes etr) ((marks etr).map Marker.str)
          (((marks etr).map Marker.str).length + 1) ⟨0, 0, none, []⟩ =
        .ok (built test etr .document 0)) ∧
    (p < (flatNodes etr).length →
      xmlAnalizeLoop test (flatNodes etr) ((marks etr).map Marker.str)
          (((marks etr).map Marker.str).length + 1) ⟨0, 0, none, []⟩ =
        .error ("xmlMarker: " ++ err)) := by
  cases etr with
  | nil => exact absurd rfl hne
  | cons t rest =>
    obtain ⟨s, tg, a, x, child⟩ := t
    cases child with
    | nil =>
      have hall := wellScoped_leaf s tg a x rest hs
      have := loop_leaves test (flatNodes (.mk s tg a x [] :: rest))
        ((marks (.mk s tg a x [] :: rest)).map Marker.str) p err hok hfail _ hall 1 0 [] rfl rfl
        rfl (Nat.zero_le _) (le_refl _)
      simp only [Nat.zero_add, List.nil_append, List.length_map] at this ⊢
      exact this
    | cons c cs =>
      have hd0 : (flatNodes (.mk s tg a x (c :: cs) :: rest))[0]? =
          some [.str tg, .attrs a, .str x] := by
        simp [flatNodes, flatNodesElem]
      have hsize : (flatNodes (.mk s tg a x (c :: cs) :: rest)).length =
          1 + (flatNodes (c :: cs)).length + (flatNodes rest).length := by
        simp only [flatNodes, flatNodesElem, List.length_append, List.length_cons]
        omega
      have hmarks : marks (.mk s tg a x (c :: cs) :: rest) =
          .push :: (marks (c :: cs) ++ (.pop :: marks rest)) := by
        simp only [marks, marksElem, List.cons_append, List.append_assoc, List.nil_append]
      have hm0 : ((marks (.mk s tg a x (c :: cs) :: rest)).map Marker.str)[0]? =
          some "Push" := by
        simp [hmarks, Marker.str]
      have hlen : ((marks (.mk s tg a x (c :: cs) :: rest)).map Marker.str).length + 1 =
          ((marks (c :: cs)).length + (2 + (marks rest).length)) + 1 := by
        simp only [List.length_map, hmarks, List.length_cons, List.length_append]
        omega
      rw [hlen, hsize]
      by_cases hp0 : p = 0
      · subst hp0
        constructor
        · intro h
          omega
        · intro _
          exact step_fail test _ _ _ 0 0 none [] _ err hd0 (hfail _ hd0)
      obtain ⟨res, hres⟩ := hok 0 _ (by omega) hd0
      have hmade : made test [.str tg, .attrs a, .str x] 0 = res := by
        simp only [made, hres]
      rw [step_first_push test _ _ _ _ res hd0 hres hm0]
      have hdrop1 : (flatNodes (.mk s tg a x (c :: cs) :: rest)).drop 1 =
          flatNodes (c :: cs) ++ flatNodes rest := by
        simp [flatNodes, flatNodesElem]
      have hmdrop1 : ((marks (.mk s tg a x (c :: cs) :: rest)).map Marker.str).drop 1 =
          (marks (c :: cs)).map Marker.str ++ ("Pop" :: (marks rest).map Marker.str) := by
        simp [hmarks, Marker.str]
      have hf := loop_forest test (flatNodes (.mk s tg a x (c :: cs) :: rest))
        ((marks (.mk s tg a x (c :: cs) :: rest)).map Marker.str) p err hok hfail (c :: cs)
        (2 + (marks rest).length) 1 1 (.elem 0) [⟨res.1, res.2.1, res.2.2, .document⟩]
        (flatNodes rest) ("Pop" :: (marks rest).map Marker.str) hdrop1 hmdrop1 rfl
        (le_refl _) (le_refl _) (by omega) (by omega)
      have hbuilt : built test (.mk s tg a x (c :: cs) :: rest) .document 0 =
          [⟨res.1, res.2.1, res.2.2, .document⟩] ++ built test (c :: cs) (.elem 0) 1 ++
            built test rest .document (1 + (flatNodes (c :: cs)).length) := by
        rw [← hmade]
        generalize (c :: cs) = child
        simp only [built, builtElem, flatNodesElem, List.length_cons, Nat.zero_add,
          List.singleton_append, List.cons_append, List.append_assoc, List.nil_append,
          Nat.add_comm]
      by_cases hin : p < 1 + (flatNodes (c :: cs)).length
      · constructor
        · intro h
          omega
        · intro _
          exact hf.2 hin
      rw [hf.1 (by omega)]
      have hd2 := drop_append_facts _ _ _ _ hdrop1
      have hm2 := drop_append_facts _ _ _ _ hmdrop1
      rw [List.length_map] at hm2
      by_cases hrest : flatNodes rest = []
      · rw [hrest] at hd2 ⊢
        have hb : built test rest .document (1 + (flatNodes (c :: cs)).length) = [] := by
          have := built_length test rest .document (1 + (flatNodes (c :: cs)).length)
          rw [hrest] at this
          exact List.eq_nil_of_length_eq_zero this
        rw [loop_done]
        · constructor
          · intro _
            rw [hbuilt, hb, List.append_nil]
          · intro h
            simp only [List.length_nil] at h
            omega
        · have := congrArg List.length hd2
          simp only [List.length_drop, List.length_nil] at this
          simp only []
          omega
      · obtain ⟨nd, restD2, hnd⟩ := List.exists_cons_of_ne_nil hrest
        have hd3 := hd2
        rw [hnd] at hd3
        obtain ⟨hd4, _, _⟩ := drop_cons_facts _ _ _ _ hd3
        obtain ⟨hm4, hm5, _⟩ := drop_cons_facts _ _ _ _ hm2
        have hfuel2 : 2 + (marks rest).length = ((marks rest).length + 1) + 1 := by omega
        rw [hfuel2]
        by_cases hpe : p = 1 + (flatNodes (c :: cs)).length
        · constructor
          · intro h
            rw [hnd] at h
            simp only [List.length_cons] at h
            omega
          · intro _
            have hfl := hfail nd (by rw [hpe]; exact hd4)
            rw [hpe] at hfl
            exact step_fail test _ _ _ _ _ _ _ nd err hd4 hfl
        · obtain ⟨res2, hres2⟩ := hok _ _ (by omega) hd4
          have hle2 : 1 + (flatNodes (c :: cs)).length ≤ 1 + (marks (c :: cs)).length := by
            have := marks_length_ge (c :: cs)
            omega
          obtain ⟨m1, hm1⟩ := getElem?_isSome_of_le _ _ _ _ hm4 hle2
          rw [step_pop test _ _ _ _ _ _ _ nd res2 m1 hd4 hres2 (by omega) hm1 hm4]
          have hpar : parentOf
              ([⟨res.1, res.2.1, res.2.2, .document⟩] ++ built test (c :: cs) (.elem 0) 1)
              (.elem 0) = some .document := by
            simp [parentOf]
          rw [hpar]
          have hr := loop_forest test (flatNodes (.mk s tg a x (c :: cs) :: rest))
            ((marks (.mk s tg a x (c :: cs) :: rest)).map Marker.str) p err hok hfail rest
            1 (1 + (flatNodes (c :: cs)).length) (1 + (marks (c :: cs)).length + 1) .document
            ([⟨res.1, res.2.1, res.2.2, .document⟩] ++ built test (c :: cs) (.elem 0) 1)
            [] [] (by rw [List.append_nil]; exact hd2) (by rw [List.append_nil]; exact hm5)
            (by
              rw [List.length_append, built_length]
              simp)
            (by omega) (by omega) (by omega) (le_refl _)
          constructor
          · intro h
            rw [hr.1 (by omega), loop_done]
            · rw [hbuilt]
            · simp only []
              omega
          · intro h
            exact hr.2 (by omega)

/-! ## `xmlAnalize` on a well-scoped document -/

theorem xmlAnalize_nil (methodStruct : GoType) : xmlAnalize methodStruct [] = .ok [] := by
  simp only [xmlAnalize, mapProcessing_eq_filter, xmlUnmarshal, ident_nil]
  rfl

theorem xmlAnalize_unfold (methodStruct : GoType) (etr : List Element) (hne : etr ≠ []) :
    xmlAnalize methodStruct etr =
      xmlAnalizeLoop ((soapHandling methodStruct []).filter keeps) (flatNodes etr)
        ((marks etr).map Marker.str) (((marks etr).map Marker.str).length + 1)
        ⟨0, 0, none, []⟩ := by
  have h1 : xmlUnmarshal etr ([], []) = (flatNodes etr, (rawMarks etr).map Marker.str) := by
    rw [xmlUnmarshal_eq]
    simp
  simp only [xmlAnalize, mapProcessing_eq_filter, h1, ident_rawMarks etr hne]

/-- Success of `xmlAnalize` on a well-scoped document: when `xmlMaker` succeeds on every node,
the output document is the expected one. -/
theorem xmlAnalize_forest_ok (methodStruct : GoType) (etr : List Element)
    (hs : wellScoped etr = true)
    (hok : ∀ i lst, (flatNodes etr)[i]? = some lst →
      ∃ res, xmlMaker lst ((soapHandling methodStruct []).filter keeps) i = .ok res) :
    xmlAnalize methodStruct etr =
      .ok (built ((soapHandling methodStruct []).filter keeps) etr .document 0) := by
  by_cases hne : etr = []
  · subst hne
    rw [xmlAnalize_nil]
    simp [built]
  rw [xmlAnalize_unfold _ _ hne]
  refine (loop_roots _ etr hne hs (flatNodes etr).length "" (fun i lst _ h => hok i lst h) ?_).1
    (le_refl _)
  intro lst h
  rw [List.getElem?_eq_none (le_refl _)] at h
  cases h

/-- Failure of `xmlAnalize` on a well-scoped document: the error of the first node on which
`xmlMaker` fails is returned. -/
theorem xmlAnalize_forest_error (methodStruct : GoType) (etr : List Element)
    (hs : wellScoped etr = true) (p : Nat) (lst : FlatNode) (err : String)
    (hok : ∀ i l, i < p → (flatNodes etr)[i]? = some l →
      ∃ res, xmlMaker l ((soapHandling methodStruct []).filter keeps) i = .ok res)
    (hp : (flatNodes etr)[p]? = some lst)
    (hfail : xmlMaker lst ((soapHandling methodStruct []).filter keeps) p = .error err) :
    xmlAnalize methodStruct etr = .error ("xmlMarker: " ++ err) := by
  have hne : etr ≠ [] := by
    intro h
    subst h
    simp [flatNodes] at hp
  rw [xmlAnalize_unfold _ _ hne]
  refine (loop_roots _ etr hne hs p err hok ?_).2 ?_
  · intro l h
    rw [hp] at h
    cases h
    exact hfail
  · by_contra hc
    rw [List.getElem?_eq_none (by omega)] at hp
    cases hp

/-! ## What `xmlMaker` returns -/

theorem xmlMakerTags_eq (lst : FlatNode) (lstIndex : Nat) :
    ∀ (tags : List ShapeNode) (tgIndx : Nat) (acc : String × AttrMap × String),
    xmlMakerTags lst lstIndex tags tgIndx acc =
      if tgIndx ≤ lstIndex then
        match tags[lstIndex - tgIndx]? with
        | none => .ok acc
        | some tg => xmlMakerItems tg lstIndex lst 0 acc
      else .ok acc := by
  intro tags
  induction tags with
  | nil =>
    intro tgIndx acc
    simp [xmlMakerTags]
  | cons tg rest ih =>
    intro tgIndx acc
    rw [xmlMakerTags]
    by_cases h : tgIndx = lstIndex
    · subst h
      simp only [if_true, le_refl, Nat.sub_self, List.getElem?_cons_zero]
      cases hi : xmlMakerItems tg tgIndx lst 0 acc with
      | error e => rfl
      | ok acc1 =>
        simp only []
        rw [ih, if_neg (by omega)]
    · rw [if_neg h, ih]
      by_cases hle : tgIndx ≤ lstIndex
      · rw [if_pos (by omega), if_pos hle]
        have : lstIndex - tgIndx = (lstIndex - (tgIndx + 1)) + 1 := by omega
        rw [this, List.getElem?_cons_succ]
      · rw [if_neg (by omega), if_neg hle]

/-- Result of `xmlMaker` on the FlatNode of an element: nothing for a position beyond the
shape, else the name resolved from the shape entry at that position, looked up
under `XMLName` at position 0 and under the input tag elsewhere. -/
theorem xmlMaker_node (tags : List ShapeNode) (i : Nat) (tag : String) (attr : List Attr)
    (text : String) :
    xmlMaker [.str tag, .attrs attr, .str text] tags i =
      match tags[i]? with
      | none => .ok ("", [], "")
      | some tg =>
        match xmlProcessing (tg.get (if i = 0 then "XMLName" else tag)) with
        | .error e => .error ("xmlProcessing: " ++ e)
        | .ok res => .ok (res, attrMap attr, text) := by
  rw [xmlMaker, xmlMakerTags_eq, if_pos (Nat.zero_le _), Nat.sub_zero]
  cases tags[i]? with
  | none => rfl
  | some tg =>
    simp only [xmlMakerItems]
    by_cases h : i = 0
    · simp only [h, and_self, if_true]
      cases xmlProcessing (tg.get "XMLName") with
      | error e => rfl
      | ok res => rfl
    · simp only [h, and_false, if_false, true_and]
      cases xmlProcessing (tg.get tag) with
      | error e => rfl
      | ok res => rfl

mutual
theorem flatNodes_form : ∀ (f : List Element) (lst : FlatNode), lst ∈ flatNodes f →
    ∃ tag attr text, lst = [.str tag, .attrs attr, .str text]
  | [], lst, h => by simp [flatNodes] at h
  | e :: rest, lst, h => by
    simp only [flatNodes, List.mem_append] at h
    rcases h with h | h
    · exact flatNodesElem_form e lst h
    · exact flatNodes_form rest lst h
theorem flatNodesElem_form : ∀ (e : Element) (lst : FlatNode), lst ∈ flatNodesElem e →
    ∃ tag attr text, lst = [.str tag, .attrs attr, .str text]
  | .mk _ tag attr text child, lst, h => by
    simp only [flatNodesElem, List.mem_cons] at h
    rcases h with h | h
    · exact ⟨tag, attr, text, h⟩
    · exact flatNodes_form child lst h
end

/-! ## The expected output document -/

mutual
theorem built_parents (test : List ShapeNode) : ∀ (f : List Element) (parent : Ref) (pos : Nat),
    (built test f parent pos).map (·.parent) = parents f parent pos
  | [], _, _ => by simp [built, parents]
  | e :: rest, parent, pos => by
    simp only [built, parents, List.map_append]
    rw [builtElem_parents test e, built_parents test rest]
theorem builtElem_parents (test : List ShapeNode) : ∀ (e : Element) (parent : Ref) (pos : Nat),
    (builtElem test e parent pos).map (·.parent) = parentsElem e parent pos
  | .mk _ _ _ _ child, parent, pos => by
    simp only [builtElem, parentsElem, List.map_cons]
    rw [built_parents test child]
end

mutual
theorem built_content (test : List ShapeNode) : ∀ (f : List Element) (parent : Ref) (pos : Nat),
    (built test f parent pos).map (fun o => (o.tag, o.attr, o.text)) =
      ((flatNodes f).enumFrom pos).map (fun il => made test il.2 il.1)
  | [], _, _ => by simp [built, flatNodes]
  | e :: rest, parent, pos => by
    simp only [built, flatNodes, List.map_append, List.enumFrom_append]
    rw [builtElem_content test e, built_content test rest]
theorem builtElem_content (test : List ShapeNode) : ∀ (e : Element) (parent : Ref) (pos : Nat),
    (builtElem test e parent pos).map (fun o => (o.tag, o.attr, o.text)) =
      ((flatNodesElem e).enumFrom pos).map (fun il => made test il.2 il.1)
  | .mk _ _ _ _ child, parent, pos => by
    simp only [builtElem, flatNodesElem, List.map_cons, List.enumFrom_cons]
    rw [built_content test child]
end

/-- Entry `i` of the expected output document: the values that `xmlMaker` yields for node `i`
of the input. -/
theorem built_getElem? (test : List ShapeNode) (etr : List Element) (i : Nat) (lst : FlatNode)
    (h : (flatNodes etr)[i]? = some lst) :
    ∃ o, (built test etr .document 0)[i]? = some o ∧
      (o.tag, o.attr, o.text) = made test lst i := by
  have hc := congrArg (fun l => l[i]?) (built_content test etr .document 0)
  simp only [List.getElem?_map, List.getElem?_enumFrom, h, Option.map_some', Nat.zero_add] at hc
  cases ho : (built test etr .document 0)[i]? with
  | none => rw [ho] at hc; cases hc
  | some o =>
    rw [ho] at hc
    simp only [Option.map_some', Option.some.injEq] at hc
    exact ⟨o, rfl, hc⟩

/-! ## Acceptance and rejection by `xmlAnalize` -/

theorem xmlProcessing_error_msg (tg e : String) (h : xmlProcessing tg = .error e) :
    e = "out of range" := by
  unfold xmlProcessing at h
  cases hf : findStringSubmatch (chars tg) with
  | none =>
    rw [hf] at h
    simp only [Except.error.injEq] at h
    exact h.symm
  | some g =>
    rw [hf] at h
    simp only at h
    repeat' split at h
    all_goals cases h

theorem xmlMaker_error_msg (tags : List ShapeNode) (i : Nat) (tag : String) (attr : List Attr)
    (text e : String) (h : xmlMaker [.str tag, .attrs attr, .str text] tags i = .error e) :
    e = "xmlProcessing: out of range" := by
  rw [xmlMaker_node] at h
  cases ht : tags[i]? with
  | none => rw [ht] at h; cases h
  | some tg =>
    rw [ht] at h
    simp only at h
    cases hx : xmlProcessing (tg.get (if i = 0 then "XMLName" else tag)) with
    | ok res => rw [hx] at h; cases h
    | error e' =>
      rw [hx] at h
      simp only [Except.error.injEq] at h
      rw [← h, xmlProcessing_error_msg _ _ hx]
      rfl

theorem getElem?_mem_flat (etr : List Element) (i : Nat) (lst : FlatNode)
    (h : (flatNodes etr)[i]? = some lst) :
    ∃ tag attr text, lst = [.str tag, .attrs attr, .str text] :=
  flatNodes_form etr lst (List.getElem?_mem h)

/-- Among the positions up to `n`, a predicate that fails somewhere fails at a first position. -/
theorem exists_first (P : Nat → Prop) : ∀ (n : Nat), ¬ P n →
    ∃ p, p ≤ n ∧ ¬ P p ∧ ∀ i, i < p → P i := by
  intro n
  induction n using Nat.strong_induction_on with
  | _ n ih =>
    intro hn
    by_cases h : ∀ i, i < n → P i
    · exact ⟨n, le_refl _, hn, h⟩
    · push_neg at h
      obtain ⟨i, hi, hPi⟩ := h
      obtain ⟨p, hp, h1, h2⟩ := ih i hi hPi
      exact ⟨p, by omega, h1, h2⟩

/-- Rejection of a well-scoped document: one node on which `xmlMaker` fails makes `xmlAnalize`
return the error of `xmlProcessing`. -/
theorem xmlAnalize_forest_reject (methodStruct : GoType) (etr : List Element)
    (hs : wellScoped etr = true) (i : Nat) (lst : FlatNode)
    (e : String) (hi : (flatNodes etr)[i]? = some lst)
    (hfail : xmlMaker lst ((soapHandling methodStruct []).filter keeps) i = .error e) :
    xmlAnalize methodStruct etr = .error "xmlMarker: xmlProcessing: out of range" := by
  have hex := exists_first
    (fun k => ∀ l, (flatNodes etr)[k]? = some l →
      ∃ res, xmlMaker l ((soapHandling methodStruct []).filter keeps) k = .ok res) i
    (by
      intro h
      obtain ⟨res, hres⟩ := h lst hi
      rw [hfail] at hres
      cases hres)
  obtain ⟨p, _, hp1, hp2⟩ := hex
  simp only [not_forall] at hp1
  obtain ⟨l, hl, hnot⟩ := hp1
  obtain ⟨tag, attr, text, hform⟩ := getElem?_mem_flat etr p l hl
  cases hm : xmlMaker l ((soapHandling methodStruct []).filter keeps) p with
  | ok res => exact absurd ⟨res, hm⟩ hnot
  | error e' =>
    have he' : e' = "xmlProcessing: out of range" := by
      rw [hform] at hm
      exact xmlMaker_error_msg _ _ _ _ _ _ hm
    have := xmlAnalize_forest_error methodStruct etr hs p l e'
      (fun k l' hk hl' => hp2 k hk l' hl') hl hm
    rw [this, he']
    rfl

/-- Acceptance of a well-scoped document by `xmlAnalize` means that `xmlMaker` succeeds on
every node. -/
theorem xmlAnalize_forest_ok_iff (methodStruct : GoType) (etr : List Element)
    (hs : wellScoped etr = true) :
    (∃ doc, xmlAnalize methodStruct etr = .ok doc) ↔
      ∀ i lst, (flatNodes etr)[i]? = some lst →
        ∃ res, xmlMaker lst ((soapHandling methodStruct []).filter keeps) i = .ok res := by
  constructor
  · rintro ⟨doc, hdoc⟩ i lst hi
    cases hm : xmlMaker lst ((soapHandling methodStruct []).filter keeps) i with
    | ok res => exact ⟨res, rfl⟩
    | error e =>
      rw [xmlAnalize_forest_reject methodStruct etr hs i lst e hi hm] at hdoc
      cases hdoc
  · intro h
    exact ⟨_, xmlAnalize_forest_ok methodStruct etr hs h⟩

/-! ## Further facts about `xmlMaker` and `xmlAnalize` -/

theorem xmlMaker_beyond (lst : FlatNode) (tags : List ShapeNode) (i : Nat)
    (h : tags.length ≤ i) : xmlMaker lst tags i = .ok ("", [], "") := by
  rw [xmlMaker, xmlMakerTags_eq, if_pos (Nat.zero_le _), Nat.sub_zero,
    List.getElem?_eq_none h]

theorem mapProcessing_ok (mapVar test : List ShapeNode) (h : mapProcessing mapVar = .ok test) :
    test = mapVar.filter keeps := by
  rw [mapProcessing_eq_filter] at h
  cases h
  rfl

/-- A later position whose input tag is not the field name of its shape entry makes
`xmlMaker` fail. -/
theorem xmlMaker_tag_mismatch (tags : List ShapeNode) (i : Nat) (tg : ShapeNode)
    (tag : String) (attr : List Attr) (text : String) (hi : 0 < i)
    (ht : tags[i]? = some tg) (hne : tag ≠ tg.fieldName) :
    xmlMaker [.str tag, .attrs attr, .str text] tags i = .error "xmlProcessing: out of range" := by
  rw [xmlMaker_node, ht]
  simp only [if_neg (Nat.pos_iff_ne_zero.mp hi), ShapeNode.get, if_neg hne]
  rfl

/-- A position whose lookup key is the field name of its shape entry gets the name that
`xmlProcessing` resolves from the raw tag, with the attributes and the text of the input. -/
theorem xmlMaker_tag_match (tags : List ShapeNode) (i : Nat) (tg : ShapeNode)
    (tag : String) (attr : List Attr) (text name : String)
    (ht : tags[i]? = some tg) (hkey : tg.fieldName = if i = 0 then "XMLName" else tag)
    (hname : xmlProcessing tg.rawTag = .ok name) :
    xmlMaker [.str tag, .attrs attr, .str text] tags i = .ok (name, attrMap attr, text) := by
  rw [xmlMaker_node, ht]
  simp only [ShapeNode.get, ← hkey, if_true, hname]

theorem made_of_ok (test : List ShapeNode) (lst : FlatNode) (i : Nat)
    (res : String × AttrMap × String) (h : xmlMaker lst test i = .ok res) :
    made test lst i = res := by
  simp only [made, h]

mutual
theorem parents_length : ∀ (f : List Element) (parent : Ref) (pos : Nat),
    (parents f parent pos).length = (flatNodes f).length
  | [], _, _ => by simp [parents, flatNodes]
  | e :: rest, parent, pos => by
    simp only [parents, flatNodes, List.length_append]
    rw [parentsElem_length e, parents_length rest]
theorem parentsElem_length : ∀ (e : Element) (parent : Ref) (pos : Nat),
    (parentsElem e parent pos).length = (flatNodesElem e).length
  | .mk _ _ _ _ child, parent, pos => by
    simp only [parentsElem, flatNodesElem, List.length_cons]
    rw [parents_length child]
end

/-- Shape of a struct type whose fields all have a basic type. -/
theorem soapHandling_flat (fs : List (String × String × GoType))
    (hbasic : ∀ f ∈ fs, f.2.2 = .basic) (hnd : (fs.map (·.1)).Nodup) :
    soapHandling (.struct fs) [] = fs.map (fun f => ⟨f.1, f.2.1⟩) := by
  have hflat : ∀ (l : List (String × String × GoType)), (∀ f ∈ l, f.2.2 = .basic) →
      distinctNamesFields l = true ∧ preorderFields l = l.map (fun f => ⟨f.1, f.2.1⟩) := by
    intro l
    induction l with
    | nil => intro _; simp [distinctNamesFields, preorderFields]
    | cons f rest ih =>
      intro h
      obtain ⟨n, tg, ty⟩ := f
      have hty : ty = .basic := h (n, tg, ty) (List.mem_cons_self _ _)
      subst hty
      obtain ⟨h1, h2⟩ := ih (fun g hg => h g (List.mem_cons_of_mem _ hg))
      simp [distinctNamesFields, preorderFields, distinctNames, preorderShape, h1, h2]
  obtain ⟨h1, h2⟩ := hflat fs hbasic
  rw [soapHandling_append (.struct fs) [] (by simp [distinctNames, hnd, h1])]
  simp [preorderShape, h2]

/-- Tag mismatch at a later position inside the shape: `xmlAnalize` rejects the document. -/
theorem xmlAnalize_tag_mismatch (methodStruct : GoType) (test : List ShapeNode)
    (etr : List Element) (hs : wellScoped etr = true)
    (htest : mapProcessing (soapHandling methodStruct []) = .ok test)
    (i : Nat) (tag : String) (attr : List Attr) (text : String) (tg : ShapeNode) (hi : 0 < i)
    (hnode : (flatNodes etr)[i]? = some [.str tag, .attrs attr, .str text])
    (ht : test[i]? = some tg) (hne : tag ≠ tg.fieldName) :
    xmlAnalize methodStruct etr = .error "xmlMarker: xmlProcessing: out of range" := by
  have hte := mapProcessing_ok _ _ htest
  subst hte
  exact xmlAnalize_forest_reject methodStruct etr hs i _ _ hnode
    (xmlMaker_tag_mismatch _ i tg tag attr text hi ht hne)

/-- Accepted well-scoped document: the output has one element per input node, attached as in
the input, holding what `xmlMaker` returned for the node. -/
theorem xmlAnalize_forest_output (methodStruct : GoType) (test : List ShapeNode)
    (etr : List Element) (hs : wellScoped etr = true)
    (htest : mapProcessing (soapHandling methodStruct []) = .ok test)
    (hok : ∀ i lst, (flatNodes etr)[i]? = some lst → ∃ res, xmlMaker lst test i = .ok res) :
    ∃ doc, xmlAnalize methodStruct etr = .ok doc ∧
      doc.length = (flatNodes etr).length ∧
      doc.map (·.parent) = parents etr .document 0 ∧
      ∀ i lst res, (flatNodes etr)[i]? = some lst → xmlMaker lst test i = .ok res →
        ∃ o, doc[i]? = some o ∧ (o.tag, o.attr, o.text) = res := by
  have hte := mapProcessing_ok _ _ htest
  subst hte
  refine ⟨_, xmlAnalize_forest_ok methodStruct etr hs hok, built_length _ etr _ _,
    built_parents _ etr _ _, ?_⟩
  intro i lst res hi hres
  obtain ⟨o, ho, hc⟩ := built_getElem? ((soapHandling methodStruct []).filter keeps) etr i lst hi
  exact ⟨o, ho, by rw [hc, made_of_ok _ _ _ _ hres]⟩

theorem flatNodes_singleton (t : Element) : flatNodes [t] = flatNodesElem t := by
  simp [flatNodes]

theorem parents_singleton (t : Element) (parent : Ref) (pos : Nat) :
    parents [t] parent pos = parentsElem t parent pos := by
  simp [parents]

theorem wellScoped_singleton (t : Element) : wellScoped [t] = true := by
  simp [wellScoped]

/-- Accepted single-rooted document: the output has one element per input node, attached as in
the input, holding what `xmlMaker` returned for the node. -/
theorem xmlAnalize_tree_output (methodStruct : GoType) (test : List ShapeNode) (t : Element)
    (htest : mapProcessing (soapHandling methodStruct []) = .ok test)
    (hok : ∀ i lst, (flatNodesElem t)[i]? = some lst → ∃ res, xmlMaker lst test i = .ok res) :
    ∃ doc, xmlAnalize methodStruct [t] = .ok doc ∧
      doc.length = (flatNodesElem t).length ∧
      doc.map (·.parent) = parentsElem t .document 0 ∧
      ∀ i lst res, (flatNodesElem t)[i]? = some lst → xmlMaker lst test i = .ok res →
        ∃ o, doc[i]? = some o ∧ (o.tag, o.attr, o.text) = res := by
  have h := xmlAnalize_forest_output methodStruct test [t] (wellScoped_singleton t) htest
  simp only [flatNodes_singleton, parents_singleton] at h
  exact h hok

/-! ## The fuel of `xmlAnalize` suffices -/

theorem stringsSplit_ne_nil (sep : Char) : ∀ (s : List Char), stringsSplit sep s ≠ [] := by
  intro s
  induction s with
  | nil => simp [stringsSplit]
  | cons c cs ih =>
    simp only [stringsSplit]
    split
    · simp
    · split <;> simp

theorem ident_ne_nil (mas : List String) : ident mas ≠ [] := by
  unfold ident
  simp only [ne_eq, List.map_eq_nil_iff]
  exact stringsSplit_ne_nil _ _

/-- The loop of `xmlAnalize` ends before its fuel does: every iteration moves `idntIndex` on, and
every iteration after the first reads `mas[idntIndex]`. -/
theorem xmlAnalizeLoop_fuel (test : List ShapeNode) (data : List FlatNode) (mas : List String)
    (hmas : mas ≠ []) : ∀ (fuel : Nat) (st : LoopState),
    st.idntIndex ≤ mas.length → mas.length < fuel + st.idntIndex →
    (st.lstIndex = 0 → st.idntIndex = 0 ∧ st.el = none) →
    xmlAnalizeLoop test data mas fuel st ≠ .outOfFuel := by
  have hlen : 1 ≤ mas.length := by
    cases mas with
    | nil => exact absurd rfl hmas
    | cons _ _ => simp
  intro fuel
  induction fuel with
  | zero =>
    intro st h1 h2 _
    omega
  | succ fuel ih =>
    intro st h1 h2 h3
    rw [xmlAnalizeLoop]
    cases hd : data[st.lstIndex]? with
    | none => simp
    | some lst =>
      simp only []
      cases hx : xmlMaker lst test st.lstIndex with
      | error e => simp
      | ok res =>
        obtain ⟨elemName, attr, value⟩ := res
        simp only []
        cases hm0 : mas[st.lstIndex]? with
        | none => simp
        | some m0 =>
          simp only []
          split
          · rename_i hfirst
            obtain ⟨h0, hel⟩ := h3 hfirst.2
            exact ih _ (by simp only []; omega) (by simp only []; omega)
              (by simp only []; omega)
          · cases hm : mas[st.idntIndex]? with
            | none => simp
            | some m =>
              have hlt : st.idntIndex < mas.length := by
                by_contra hc
                rw [List.getElem?_eq_none (by omega)] at hm
                cases hm
              simp only []
              split
              · cases hel : st.el with
                | none => simp
                | some el =>
                  exact ih _ (by simp only []; omega) (by simp only []; omega)
                    (by simp only []; omega)
              · split
                · cases hel : st.el with
                  | none =>
                    exact ih _ (by simp only []; omega) (by simp only []; omega)
                      (by simp only []; omega)
                  | some el =>
                    exact ih _ (by simp only []; omega) (by simp only []; omega)
                      (by simp only []; omega)
                · split
                  · cases hel : st.el with
                    | none => simp
                    | some el =>
                      refine ih _ (by simp only []; omega) (by simp only []; omega) ?_
                      simp only []
                      intro h0
                      have := (h3 h0).2
                      rw [hel] at this
                      cases this
                  · exact ih _ (by simp only []; omega) (by simp only []; omega)
                      (by simp only []; omega)

/-- Totality of the model of `xmlAnalize`: on every type and every input forest the fuel given
to its loops suffices. -/
theorem xmlAnalize_fuel (methodStruct : GoType) (etr : List Element) :
    xmlAnalize methodStruct etr ≠ .outOfFuel := by
  unfold xmlAnalize
  rw [mapProcessing_eq_filter]
  simp only []
  exact xmlAnalizeLoop_fuel _ _ _ (ident_ne_nil _) _ _ (Nat.zero_le _) (by simp)
    (fun _ => ⟨rfl, rfl⟩)

/-! ## The flattener: `xmlUnmarshal` -/

mutual
theorem flatNodes_eq_elements : ∀ (f : List Element),
    flatNodes f = (elements f).map Element.node
  | [] => by simp [flatNodes, elements]
  | e :: rest => by
    simp only [flatNodes, elements, List.map_append]
    rw [flatNodesElem_eq_elements e, flatNodes_eq_elements rest]
theorem flatNodesElem_eq_elements : ∀ (e : Element),
    flatNodesElem e = (elementsElem e).map Element.node
  | .mk _ _ _ _ child => by
    simp only [flatNodesElem, elementsElem, List.map_cons, Element.node]
    rw [flatNodes_eq_elements child]
end

mutual
theorem elements_length : ∀ (f : List Element), (elements f).length = elemCount f
  | [] => by simp [elements, elemCount]
  | e :: rest => by
    simp only [elements, elemCount, List.length_append]
    rw [elementsElem_length e, elements_length rest]
theorem elementsElem_length : ∀ (e : Element), (elementsElem e).length = elemCountElem e
  | .mk _ _ _ _ child => by
    simp only [elementsElem, elemCountElem, List.length_cons]
    rw [elements_length child]
    omega
end

mutual
theorem rawMarks_length : ∀ (f : List Element), (rawMarks f).length = 2 * elemCount f
  | [] => by simp [rawMarks, elemCount]
  | e :: rest => by
    simp only [rawMarks, elemCount, List.length_append]
    rw [rawMarksElem_length e, rawMarks_length rest]
    omega
theorem rawMarksElem_length : ∀ (e : Element), (rawMarksElem e).length = 2 * elemCountElem e
  | .mk _ _ _ _ child => by
    simp only [rawMarksElem, elemCountElem, List.length_cons, List.length_append,
      List.length_nil]
    rw [rawMarks_length child]
    omega
end

/-! ## The markers after `ident` -/

theorem marksElem_cons (s t : String) (a : List Attr) (x : String) (c : Element)
    (cs : List Element) :
    marksElem (.mk s t a x (c :: cs)) = .push :: (marks (c :: cs) ++ [.pop]) := by
  simp only [marksElem, marks]

theorem marksElem_head (e : Element) :
    ∃ m rest, marksElem e = m :: rest ∧ m ≠ .pop := by
  obtain ⟨s, t, a, x, child⟩ := e
  cases child with
  | nil => exact ⟨.pushPop, [], by simp [marksElem], by decide⟩
  | cons c cs => exact ⟨.push, _, marksElem_cons s t a x c cs, by decide⟩

theorem marks_head (f : List Element) (hne : f ≠ []) :
    ∃ m rest, marks f = m :: rest ∧ m ≠ .pop := by
  cases f with
  | nil => exact absurd rfl hne
  | cons e rest =>
    obtain ⟨m, r, h1, h2⟩ := marksElem_head e
    exact ⟨m, r ++ marks rest, by simp [marks, h1], h2⟩

theorem rawMarks_head (f : List Element) (hne : f ≠ []) :
    ∃ rest, rawMarks f = .push :: rest := by
  cases f with
  | nil => exact absurd rfl hne
  | cons e rest =>
    obtain ⟨s, t, a, x, child⟩ := e
    exact ⟨(rawMarks child ++ [.pop]) ++ rawMarks rest, by simp [rawMarks, rawMarksElem]⟩

mutual
theorem collapse_rawMarks : ∀ (f : List Element) (tail : List Marker),
    collapse (rawMarks f ++ tail) = marks f ++ collapse tail
  | [], tail => by simp [rawMarks, marks]
  | e :: rest, tail => by
    simp only [rawMarks, marks, List.append_assoc]
    rw [collapse_rawMarksElem e, collapse_rawMarks rest]
theorem collapse_rawMarksElem : ∀ (e : Element) (tail : List Marker),
    collapse (rawMarksElem e ++ tail) = marksElem e ++ collapse tail
  | .mk _ _ _ _ [], tail => by
    simp [rawMarksElem, rawMarks, marksElem, collapse]
  | .mk s t a x (c :: cs), tail => by
    obtain ⟨r, hr⟩ := rawMarks_head (c :: cs) (by simp)
    have h := collapse_rawMarks (c :: cs) (.pop :: tail)
    rw [marksElem_cons]
    simp only [rawMarksElem, List.cons_append, List.append_assoc, List.singleton_append]
    rw [hr] at h ⊢
    simp only [List.cons_append, List.nil_append] at h ⊢
    rw [collapse, h]
    · simp [collapse]
    · intro rest2 _ hc
      cases hc
end

theorem collapse_rawMarks_eq (f : List Element) : collapse (rawMarks f) = marks f := by
  have h := collapse_rawMarks f []
  simpa [collapse] using h

mutual
theorem marks_counts : ∀ (f : List Element),
    (marks f).count .pushPop = leafCount f ∧ (marks f).count .push = innerCount f ∧
      (marks f).count .pop = innerCount f
  | [] => by simp [marks, leafCount, innerCount]
  | e :: rest => by
    obtain ⟨h1, h2, h3⟩ := marksElem_counts e
    obtain ⟨g1, g2, g3⟩ := marks_counts rest
    simp only [marks, leafCount, innerCount, List.count_append, h1, h2, h3, g1, g2, g3,
      and_self]
theorem marksElem_counts : ∀ (e : Element),
    (marksElem e).count .pushPop = leafCountElem e ∧
      (marksElem e).count .push = innerCountElem e ∧
      (marksElem e).count .pop = innerCountElem e
  | .mk _ _ _ _ [] => by
    simp [marksElem, leafCountElem, innerCountElem]
  | .mk s t a x (c :: cs) => by
    obtain ⟨h1, h2, h3⟩ := marks_counts (c :: cs)
    rw [marksElem_cons]
    simp only [leafCount, innerCount] at h1 h2 h3
    simp [leafCountElem, innerCountElem, List.count_cons, h1, h2, h3]
    omega
end

mutual
theorem marks_prefix : ∀ (f : List Element) (n : Nat),
    ((marks f).take n).count .pop ≤ ((marks f).take n).count .push
  | [], n => by simp [marks]
  | e :: rest, n => by
    have h1 := marksElem_prefix e n
    have h2 := marks_prefix rest (n - (marksElem e).length)
    simp only [marks, List.take_append_eq_append_take, List.count_append]
    omega
theorem marksElem_prefix : ∀ (e : Element) (n : Nat),
    ((marksElem e).take n).count .pop ≤ ((marksElem e).take n).count .push
  | .mk _ _ _ _ [], n => by
    cases n <;> simp [marksElem]
  | .mk s t a x (c :: cs), n => by
    rw [marksElem_cons]
    cases n with
    | zero => simp
    | succ n =>
      have h1 := marks_prefix (c :: cs) n
      have h2 : ((([Marker.pop] : List Marker).take (n - (marks (c :: cs)).length)).count .pop) ≤ 1 := by
        cases (n - (marks (c :: cs)).length) <;> simp
      have h3 : ((([Marker.pop] : List Marker).take (n - (marks (c :: cs)).length)).count
          .push) = 0 := by
        cases (n - (marks (c :: cs)).length) <;> simp
      simp only [List.take_succ_cons, List.take_append_eq_append_take, List.count_cons,
        List.count_append, h3]
      simp
      omega
end

mutual
theorem marks_push_split : ∀ (f : List Element) (i : Nat), (marks f)[i]? = some .push →
    ∃ pre child post, child ≠ [] ∧ pre.length = i ∧
      marks f = pre ++ .push :: (marks child ++ .pop :: post)
  | [], i, h => by simp [marks] at h
  | e :: rest, i, h => by
    simp only [marks] at h ⊢
    by_cases hi : i < (marksElem e).length
    · rw [List.getElem?_append_left hi] at h
      obtain ⟨pre, child, post, h1, h2, h3⟩ := marksElem_push_split e i h
      exact ⟨pre, child, post ++ marks rest, h1, h2, by rw [h3]; simp⟩
    · rw [List.getElem?_append_right (by omega)] at h
      obtain ⟨pre, child, post, h1, h2, h3⟩ :=
        marks_push_split rest (i - (marksElem e).length) h
      exact ⟨marksElem e ++ pre, child, post, h1,
        by rw [List.length_append, h2]; omega, by rw [h3]; simp⟩
theorem marksElem_push_split : ∀ (e : Element) (i : Nat), (marksElem e)[i]? = some .push →
    ∃ pre child post, child ≠ [] ∧ pre.length = i ∧
      marksElem e = pre ++ .push :: (marks child ++ .pop :: post)
  | .mk _ _ _ _ [], i, h => by
    cases i <;> simp [marksElem] at h
  | .mk s t a x (c :: cs), i, h => by
    rw [marksElem_cons] at h ⊢
    cases i with
    | zero => exact ⟨[], c :: cs, [], by simp, rfl, by simp⟩
    | succ i =>
      rw [List.getElem?_cons_succ] at h
      by_cases hi : i < (marks (c :: cs)).length
      · rw [List.getElem?_append_left hi] at h
        obtain ⟨pre, child, post, h1, h2, h3⟩ := marks_push_split (c :: cs) i h
        exact ⟨.push :: pre, child, post ++ [.pop], h1, by simp [h2], by rw [h3]; simp⟩
      · rw [List.getElem?_append_right (by omega)] at h
        cases hk : i - (marks (c :: cs)).length with
        | zero => rw [hk] at h; simp at h
        | succ k => rw [hk] at h; simp at h
end

theorem Marker.str_injective : Function.Injective Marker.str := by
  intro a b h
  cases a <;> cases b <;> first | rfl | (revert h; decide)

mutual
theorem scanPop_marks : ∀ (f : List Element) (rest : List String) (depth pos : Nat),
    scanPop ((marks f).map Marker.str ++ rest) depth pos =
      scanPop rest depth (pos + (marks f).length)
  | [], rest, depth, pos => by simp [marks]
  | e :: more, rest, depth, pos => by
    simp only [marks, List.map_append, List.append_assoc, List.length_append]
    rw [scanPop_marksElem e, scanPop_marks more, Nat.add_assoc]
theorem scanPop_marksElem : ∀ (e : Element) (rest : List String) (depth pos : Nat),
    scanPop ((marksElem e).map Marker.str ++ rest) depth pos =
      scanPop rest depth (pos + (marksElem e).length)
  | .mk _ _ _ _ [], rest, depth, pos => by
    simp [marksElem, Marker.str, scanPop]
  | .mk s t a x (c :: cs), rest, depth, pos => by
    rw [marksElem_cons]
    simp only [List.map_cons, List.map_append, List.cons_append, List.append_assoc,
      List.map_nil, List.nil_append, List.length_cons, List.length_append, List.length_nil]
    have hpush : ∀ (l : List String) (d p : Nat),
        scanPop ("Push" :: l) d p = scanPop l (d + 1) (p + 1) := by
      intro l d p
      simp [scanPop]
    have hpop : ∀ (l : List String) (d p : Nat),
        scanPop ("Pop" :: l) (d + 1) p = scanPop l d (p + 1) := by
      intro l d p
      simp [scanPop]
    simp only [Marker.str]
    rw [hpush, scanPop_marks (c :: cs), hpop]
    congr 1
    omega
end

theorem count_map_str (l : List Marker) (m : Marker) :
    (l.map Marker.str).count m.str = l.count m :=
  List.count_map_of_injective l Marker.str Marker.str_injective m

theorem getElem?_map_str (l : List Marker) (i : Nat) (m : Marker) :
    (l.map Marker.str)[i]? = some m.str ↔ l[i]? = some m := by
  rw [List.getElem?_map]
  cases l[i]? with
  | none => simp
  | some x =>
    simp only [Option.map_some', Option.some.injEq]
    exact ⟨fun h => Marker.str_injective h, fun h => by rw [h]⟩

/-- The markers of a document after `xmlUnmarshal` and `ident`: the collapsed markers of the
forest; for a document without elements the single empty string that `strings.Split`
returns. -/
theorem ident_xmlUnmarshal (etr : List Element) :
    ident (xmlUnmarshal etr ([], [])).2 =
      if etr.isEmpty then [""] else (marks etr).map Marker.str := by
  rw [xmlUnmarshal_eq]
  simp only [List.nil_append]
  cases etr with
  | nil => simp [rawMarks, ident_nil]
  | cons e rest => simp [ident_rawMarks (e :: rest) (by simp)]

/-- In the collapsed markers no `Push` is directly followed by `Pop`. -/
theorem marks_no_push_pop (f : List Element) (i : Nat) (h : (marks f)[i]? = some .push) :
    (marks f)[i + 1]? ≠ some .pop := by
  obtain ⟨pre, child, post, hne, hlen, heq⟩ := marks_push_split f i h
  obtain ⟨m, r, hm, hmne⟩ := marks_head child hne
  rw [heq, hm, List.getElem?_append_right (by omega)]
  have : i + 1 - pre.length = 1 := by omega
  rw [this]
  simp only [List.getElem?_cons_succ, List.cons_append, List.getElem?_cons_zero, ne_eq,
    Option.some.injEq]
  exact hmne

/-- In the collapsed markers every `Push` is closed by a later `Pop`. -/
theorem marks_matchingPop (f : List Element) (i : Nat) (h : (marks f)[i]? = some .push) :
    ∃ j, matchingPop ((marks f).map Marker.str) i = some j ∧ i < j ∧
      ((marks f).map Marker.str)[j]? = some "Pop" := by
  obtain ⟨pre, child, post, _, hlen, heq⟩ := marks_push_split f i h
  refine ⟨i + 1 + (marks child).length, ?_, by omega, ?_⟩
  · have hdrop : ((marks f).map Marker.str).drop (i + 1) =
        (marks child).map Marker.str ++ "Pop" :: post.map Marker.str := by
      rw [heq, List.map_append, List.drop_append_eq_append_drop]
      simp [hlen, Marker.str]
    rw [matchingPop, hdrop, scanPop_marks]
    simp [scanPop]
  · rw [heq]
    simp only [List.map_append, List.map_cons, List.append_assoc, List.cons_append]
    rw [List.getElem?_append_right (by simp; omega)]
    have h1 : i + 1 + (marks child).length - (pre.map Marker.str).length =
        ((marks child).map Marker.str).length + 1 := by
      simp
      omega
    rw [h1, List.getElem?_cons_succ, List.getElem?_append_right (le_refl _)]
    simp [Marker.str]

mutual
theorem counts_sum : ∀ (f : List Element), innerCount f + leafCount f = elemCount f
  | [] => by simp [innerCount, leafCount, elemCount]
  | e :: rest => by
    have h1 := counts_sumElem e
    have h2 := counts_sum rest
    simp only [innerCount, leafCount, elemCount]
    omega
theorem counts_sumElem : ∀ (e : Element), innerCountElem e + leafCountElem e = elemCountElem e
  | .mk _ _ _ _ [] => by simp [innerCountElem, leafCountElem, elemCountElem, elemCount]
  | .mk _ _ _ _ (c :: cs) => by
    have h := counts_sum (c :: cs)
    simp only [innerCount, leafCount, elemCount] at h
    simp only [innerCountElem, leafCountElem, elemCountElem, elemCount]
    omega
end

/-! ## `soapHandling` on instances -/

mutual
theorem staticType_zero : ∀ (t : RType), staticType (zero t) = t
  | .basic => rfl
  | .iface => rfl
  | .struct fields => by
    simp only [zero, staticType]
    rw [staticTypeFields_zero fields]
theorem staticTypeFields_zero : ∀ (fields : List (String × String × RType)),
    staticTypeFields (zeroFields fields) = fields
  | [] => rfl
  | (name, tag, t) :: rest => by
    simp only [zeroFields, staticTypeFields]
    rw [staticType_zero t, staticTypeFields_zero rest]
end

mutual
theorem depth_zero_staticType : ∀ (f : RValue), (zero (staticType f)).depth ≤ f.depth
  | .basic _ => by simp [staticType, zero, RValue.depth]
  | .nilIface => by simp [staticType, zero, RValue.depth]
  | .iface _ => by simp [staticType, zero, RValue.depth]
  | .struct fields => by
    have h := depthFields_zero_staticType fields
    simp only [staticType, zero, RValue.depth]
    omega
theorem depthFields_zero_staticType : ∀ (fields : List (String × String × RValue)),
    RValue.depthFields (zeroFields (staticTypeFields fields)) ≤ RValue.depthFields fields
  | [] => by simp [staticTypeFields, zeroFields]
  | (_, _, f) :: rest => by
    have h1 := depth_zero_staticType f
    have h2 := depthFields_zero_staticType rest
    simp only [staticTypeFields, zeroFields, RValue.depthFields]
    omega
end

theorem dynType_depth : ∀ (f : RValue) (t : RType), dynType f = some t →
    (zero t).depth ≤ f.depth
  | .basic _, t, h => by
    simp only [dynType, Option.some.injEq] at h
    subst h
    simp [zero, RValue.depth]
  | .nilIface, t, h => by simp [dynType] at h
  | .iface held, t, h => by
    have := dynType_depth held t (by simpa [dynType] using h)
    simpa [RValue.depth] using this
  | .struct fields, t, h => by
    simp only [dynType, Option.some.injEq] at h
    subst h
    exact depth_zero_staticType (.struct fields)

theorem depth_le_depthFields : ∀ (fields : List (String × String × RValue))
    (g : String × String × RValue), g ∈ fields → g.2.2.depth ≤ RValue.depthFields fields
  | [], g, h => by simp at h
  | (name, tag, f) :: rest, g, h => by
    simp only [RValue.depthFields]
    rcases List.mem_cons.mp h with h | h
    · subst h
      simp
    · have := depth_le_depthFields rest g h
      omega

/-- The fuel `depth + 1` suffices for `soapHandling` on an instance. -/
theorem soapHandlingValue_fuel : ∀ (fuel : Nat) (s : RValue) (tags : List ShapeNode),
    s.depth < fuel → soapHandlingValue fuel s tags ≠ .outOfFuel := by
  intro fuel
  induction fuel with
  | zero => intro s tags h; omega
  | succ fuel ih =>
    intro s tags h
    cases s with
    | basic p => simp [soapHandlingValue]
    | nilIface => simp [soapHandlingValue]
    | iface held => simp [soapHandlingValue]
    | struct fields =>
      simp only [soapHandlingValue]
      have hall : ∀ g ∈ fields, g.2.2.depth < fuel := by
        intro g hg
        have := depth_le_depthFields fields g hg
        simp only [RValue.depth] at h
        omega
      have hloop : ∀ (rest : List (String × String × RValue)) (tags : List ShapeNode),
          (∀ g ∈ rest, g.2.2.depth < fuel) →
          soapHandlingValueFields (soapHandlingValue fuel) fields rest tags ≠ .outOfFuel := by
        intro rest
        induction rest with
        | nil => intro tags _; simp [soapHandlingValueFields]
        | cons g rest ihr =>
          intro tags hg
          obtain ⟨name, tag, f⟩ := g
          have hrest : ∀ g ∈ rest, g.2.2.depth < fuel :=
            fun g h => hg g (List.mem_cons_of_mem _ h)
          simp only [soapHandlingValueFields]
          cases fields.find? (fun g => g.1 = name) with
          | none => exact ihr tags hrest
          | some tmp =>
            simp only []
            cases hd : dynType f with
            | none => simp
            | some t =>
              simp only []
              have hf : f.depth < fuel := hg (name, tag, f) (List.mem_cons_self _ _)
              have hz := dynType_depth f t hd
              cases hr : soapHandlingValue fuel (zero t) (tags ++ [⟨name, tmp.2.1⟩]) with
              | ok tags1 => exact ihr tags1 hrest
              | error e => simp
              | panic => simp
              | outOfFuel => exact absurd hr (ih _ _ (by omega))
      exact hloop fields tags hall

theorem dynType_of_ifaceFree (f : RValue) (h : ifaceFree (staticType f) = true) :
    dynType f = some (staticType f) := by
  cases f with
  | basic p => rfl
  | nilIface => simp [staticType, ifaceFree] at h
  | iface held => simp [staticType, ifaceFree] at h
  | struct fields => rfl

/-- The model of the first two steps of `xmlAnalize` never runs out of fuel. -/
theorem shapeOf_fuel (methodStruct : RValue) : shapeOf methodStruct ≠ .outOfFuel := by
  unfold shapeOf
  cases h : soapHandlingValue (methodStruct.depth + 1) methodStruct [] with
  | ok test =>
    simp only []
    rw [mapProcessing_eq_filter]
    simp
  | error e => simp
  | panic => simp
  | outOfFuel => exact absurd h (soapHandlingValue_fuel _ _ _ (Nat.lt_succ_self _))

theorem dynShape_of_ifaceFree : ∀ (fs gs : List (String × String × RValue)),
    ifaceFreeFields (staticTypeFields fs) = true → staticTypeFields gs = staticTypeFields fs →
    gs.map (fun g => (g.1, g.2.1, dynType g.2.2)) =
      fs.map (fun g => (g.1, g.2.1, dynType g.2.2))
  | [], [], _, _ => rfl
  | [], _ :: _, _, h => by simp [staticTypeFields] at h
  | _ :: _, [], _, h => by simp [staticTypeFields] at h
  | (n, tag, f) :: fs, (n', tag', f') :: gs, hfree, h => by
    simp only [staticTypeFields, List.cons.injEq, Prod.mk.injEq] at h
    obtain ⟨⟨hn, htag, hty⟩, hrest⟩ := h
    simp only [staticTypeFields, ifaceFreeFields, Bool.and_eq_true] at hfree
    subst hn htag
    simp only [List.map_cons, List.cons.injEq, Prod.mk.injEq, true_and]
    refine ⟨?_, dynShape_of_ifaceFree fs gs hfree.2 hrest⟩
    rw [dynType_of_ifaceFree f hfree.1, dynType_of_ifaceFree f' (by rw [hty]; exact hfree.1), hty]

/-! ## The device cache -/

theorem cleanupStep_ttl (now : Time) (c : DeviceCache) (key : String) (lastAccess : Time) :
    (cleanupStep now c key lastAccess).ttl = c.ttl := by
  unfold cleanupStep
  split <;> rfl

theorem cleanupStep_devices (now : Time) (c : DeviceCache) (key : String) (lastAccess : Time)
    (k : String) :
    (cleanupStep now c key lastAccess).devices.lookup k =
      if key = k ∧ timeSub now lastAccess > c.ttl then none else c.devices.lookup k := by
  unfold cleanupStep
  by_cases h : timeSub now lastAccess > c.ttl
  · by_cases hk : key = k
    · subst hk
      simp [h, AList.lookup_erase]
    · simp [h, hk, AList.lookup_erase_ne (Ne.symm hk)]
  · simp [h]

theorem cleanupStep_lastAccessed (now : Time) (c : DeviceCache) (key : String)
    (lastAccess : Time) (k : String) :
    (cleanupStep now c key lastAccess).lastAccessed.lookup k =
      if key = k ∧ timeSub now lastAccess > c.ttl then none else c.lastAccessed.lookup k := by
  unfold cleanupStep
  by_cases h : timeSub now lastAccess > c.ttl
  · by_cases hk : key = k
    · subst hk
      simp [h, AList.lookup_erase]
    · simp [h, hk, AList.lookup_erase_ne (Ne.symm hk)]
  · simp [h]

/-- Effect of the loop of `cleanup` over the entries `l`. -/
theorem cleanup_fold (now : Time) (k : String) :
    ∀ (l : List (Sigma (fun _ : String => Time))) (c : DeviceCache),
    (l.foldl (fun c e => cleanupStep now c e.1 e.2) c).ttl = c.ttl ∧
      (l.foldl (fun c e => cleanupStep now c e.1 e.2) c).devices.lookup k =
        (if l.any (fun e => decide (e.1 = k ∧ timeSub now e.2 > c.ttl)) then none
          else c.devices.lookup k) ∧
      (l.foldl (fun c e => cleanupStep now c e.1 e.2) c).lastAccessed.lookup k =
        (if l.any (fun e => decide (e.1 = k ∧ timeSub now e.2 > c.ttl)) then none
          else c.lastAccessed.lookup k) := by
  intro l
  induction l with
  | nil => intro c; simp
  | cons e rest ih =>
    intro c
    obtain ⟨h1, h2, h3⟩ := ih (cleanupStep now c e.1 e.2)
    simp only [List.foldl_cons, List.any_cons]
    rw [h1, h2, h3, cleanupStep_ttl, cleanupStep_devices, cleanupStep_lastAccessed]
    refine ⟨rfl, ?_, ?_⟩
    · by_cases he : e.1 = k ∧ timeSub now e.2 > c.ttl
      · simp [he]
      · have hd : decide (e.1 = k ∧ timeSub now e.2 > c.ttl) = false := decide_eq_false he
        simp only [if_neg he, hd, Bool.false_or]
    · by_cases he : e.1 = k ∧ timeSub now e.2 > c.ttl
      · simp [he]
      · have hd : decide (e.1 = k ∧ timeSub now e.2 > c.ttl) = false := decide_eq_false he
        simp only [if_neg he, hd, Bool.false_or]

/-- Among the entries of `lastAccessed`, one for `key` is older than the TTL exactly when the
time recorded for `key` is. -/
theorem any_entries_eq_expired (c : DeviceCache) (now : Time) (key : String) :
    c.lastAccessed.entries.any (fun e => decide (e.1 = key ∧ timeSub now e.2 > c.ttl)) =
      expired c now key := by
  unfold expired
  cases hl : c.lastAccessed.lookup key with
  | none =>
    simp only []
    rw [List.any_eq_false]
    intro e he
    have hnot : key ∉ c.lastAccessed := AList.lookup_eq_none.mp hl
    simp only [decide_eq_true_eq, not_and]
    intro hk
    exact absurd (show key ∈ c.lastAccessed from by
      rw [← hk]
      exact List.mem_map_of_mem Sigma.fst he) hnot
  | some la =>
    simp only []
    have hmem : (⟨key, la⟩ : Sigma (fun _ : String => Time)) ∈ c.lastAccessed.entries :=
      AList.mem_lookup_iff.mp hl
    by_cases hx : timeSub now la > c.ttl
    · rw [decide_eq_true hx, List.any_eq_true]
      exact ⟨⟨key, la⟩, hmem, by simp [hx]⟩
    · rw [decide_eq_false hx, List.any_eq_false]
      intro e he
      simp only [decide_eq_true_eq, not_and]
      intro hk
      obtain ⟨k', v⟩ := e
      simp only at hk
      subst hk
      have : v ∈ c.lastAccessed.lookup k' := AList.mem_lookup_iff.mpr he
      rw [hl] at this
      simp only [Option.mem_def, Option.some.injEq] at this
      rw [← this]
      exact hx

theorem cleanup_nil (c : DeviceCache) (now : Time) (h : c.lastAccessed.entries = []) :
    c.cleanup now = c := by
  simp [DeviceCache.cleanup, h]

theorem GetDevice_lastAccessed
    (newDevice : List DeviceParams → DeviceParams → Except String Device)
    (c : DeviceCache) (calls : List DeviceParams) (xaddr username password : String) :
    (c.GetDevice newDevice calls xaddr username password).cache.lastAccessed =
      c.lastAccessed := by
  unfold DeviceCache.GetDevice
  simp only []
  cases c.devices.lookup (xaddr ++ "|" ++ username) with
  | some dev => rfl
  | none =>
    simp only []
    cases newDevice calls ⟨xaddr, username, password⟩ <;> rfl

theorem timeSub_eq (t u : Time) (h1 : minDuration ≤ t - u) (h2 : t - u ≤ maxDuration) :
    timeSub t u = t - u := by
  unfold timeSub
  rw [if_neg (not_lt.mpr h2), if_neg (not_lt.mpr h1)]

/-! ## The cache key -/

theorem append_sep_left (c : Char) : ∀ (l1 l2 r1 r2 : List Char), c ∉ l1 → c ∉ l2 →
    l1 ++ c :: r1 = l2 ++ c :: r2 → l1 = l2 ∧ r1 = r2
  | [], [], r1, r2, _, _, h => by
    simp only [List.nil_append, List.cons.injEq, true_and] at h
    exact ⟨rfl, h⟩
  | [], b :: l2, r1, r2, _, h2, h => by
    simp only [List.nil_append, List.cons_append, List.cons.injEq] at h
    exact absurd (h.1 ▸ List.mem_cons_self _ _) h2
  | a :: l1, [], r1, r2, h1, _, h => by
    simp only [List.nil_append, List.cons_append, List.cons.injEq] at h
    exact absurd (h.1 ▸ List.mem_cons_self _ _) h1
  | a :: l1, b :: l2, r1, r2, h1, h2, h => by
    simp only [List.cons_append, List.cons.injEq] at h
    obtain ⟨hab, hrest⟩ := h
    obtain ⟨hl, hr⟩ := append_sep_left c l1 l2 r1 r2
      (fun hm => h1 (List.mem_cons_of_mem _ hm)) (fun hm => h2 (List.mem_cons_of_mem _ hm)) hrest
    exact ⟨by rw [hab, hl], hr⟩

theorem append_sep_right (c : Char) (l1 l2 r1 r2 : List Char) (h1 : c ∉ r1) (h2 : c ∉ r2)
    (h : l1 ++ c :: r1 = l2 ++ c :: r2) : l1 = l2 ∧ r1 = r2 := by
  have hrev : r1.reverse ++ c :: l1.reverse = r2.reverse ++ c :: l2.reverse := by
    have := congrArg List.reverse h
    simpa using this
  obtain ⟨hr, hl⟩ := append_sep_left c r1.reverse r2.reverse l1.reverse l2.reverse
    (by simpa using h1) (by simpa using h2) hrev
  exact ⟨List.reverse_injective hl, List.reverse_injective hr⟩

theorem cacheKey_chars (xaddr username : String) :
    chars (xaddr ++ "|" ++ username) = chars xaddr ++ '|' :: chars username := by
  simp [chars, String.data_append]

/-- The cache key separates the pairs whose addresses hold no `|`, and the pairs whose user
names hold none. -/
theorem cacheKey_eq (xaddr username xaddr2 username2 : String)
    (h : ('|' ∉ chars xaddr ∧ '|' ∉ chars xaddr2) ∨
      ('|' ∉ chars username ∧ '|' ∉ chars username2))
    (hkey : xaddr ++ "|" ++ username = xaddr2 ++ "|" ++ username2) :
    xaddr = xaddr2 ∧ username = username2 := by
  have hc : chars xaddr ++ '|' :: chars username = chars xaddr2 ++ '|' :: chars username2 := by
    rw [← cacheKey_chars, ← cacheKey_chars, hkey]
  rcases h with ⟨h1, h2⟩ | ⟨h1, h2⟩
  · obtain ⟨ha, hb⟩ := append_sep_left '|' _ _ _ _ h1 h2 hc
    exact ⟨String.ext ha, String.ext hb⟩
  · obtain ⟨ha, hb⟩ := append_sep_right '|' _ _ _ _ h1 h2 hc
    exact ⟨String.ext ha, String.ext hb⟩

theorem GetDevice_devices_lookup
    (newDevice : List DeviceParams → DeviceParams → Except String Device)
    (c : DeviceCache) (calls : List DeviceParams) (xaddr username password key : String)
    (hne : key ≠ xaddr ++ "|" ++ username) :
    (c.GetDevice newDevice calls xaddr username password).cache.devices.lookup key =
      c.devices.lookup key := by
  unfold DeviceCache.GetDevice
  simp only []
  cases c.devices.lookup (xaddr ++ "|" ++ username) with
  | some dev => rfl
  | none =>
    simp only []
    cases newDevice calls ⟨xaddr, username, password⟩ with
    | error e => rfl
    | ok dev => exact AList.lookup_insert_ne hne

/-! ## Documents on which the loop of `xmlAnalize` lacks a scope -/

theorem flatNodes_append : ∀ (a b : List Element), flatNodes (a ++ b) = flatNodes a ++ flatNodes b
  | [], b => by simp [flatNodes]
  | e :: a, b => by
    simp only [List.cons_append, flatNodes, List.append_assoc, List.append_eq]
    rw [flatNodes_append a b]

theorem marks_append : ∀ (a b : List Element), marks (a ++ b) = marks a ++ marks b
  | [], b => by simp [marks]
  | e :: a, b => by
    simp only [List.cons_append, marks, List.append_assoc, List.append_eq]
    rw [marks_append a b]

theorem exists_first_inner : ∀ (rest : List Element), rest.all isLeaf = false →
    ∃ ls r more, rest = ls ++ r :: more ∧ ls.all isLeaf = true ∧ isLeaf r = false
  | [], h => by simp at h
  | e :: rest, h => by
    by_cases he : isLeaf e = true
    · have hr : rest.all isLeaf = false := by
        simp only [List.all_cons, he, Bool.true_and] at h
        exact h
      obtain ⟨ls, r, more, h1, h2, h3⟩ := exists_first_inner rest hr
      exact ⟨e :: ls, r, more, by rw [h1]; rfl, by simp [he, h2], h3⟩
    · exact ⟨[], e, rest, rfl, rfl, by simpa using he⟩

section Unscoped

variable (test : List ShapeNode) (data : List FlatNode) (mas : List String)

/-- Run of the loop over top-level leaves while no scope is open, up to a top-level element
with child elements: the loop never ends normally, and it panics at that element when
`xmlMaker` has succeeded so far. -/
theorem loop_unscoped (lstR : FlatNode) (restD : List FlatNode) (restM : List String) :
    ∀ (ls : List Element), ls.all isLeaf = true → ∀ (fuel k : Nat) (D : Document),
    data.drop k = flatNodes ls ++ lstR :: restD →
    mas.drop k = (marks ls).map Marker.str ++ "Push" :: restM →
    (ls = [] → k ≠ 0) →
    (∀ doc, xmlAnalizeLoop test data mas fuel ⟨k, k, none, D⟩ ≠ .ok doc) ∧
      ((∀ i lst, i ≤ k + ls.length → data[i]? = some lst →
          ∃ res, xmlMaker lst test i = .ok res) →
        ls.length + 1 ≤ fuel →
        xmlAnalizeLoop test data mas fuel ⟨k, k, none, D⟩ = .panic) := by
  intro ls
  induction ls with
  | nil =>
    intro _ fuel k D hd hm hk
    simp only [flatNodes, List.nil_append] at hd
    simp only [marks, List.map_nil, List.nil_append] at hm
    obtain ⟨hd1, _, hlt⟩ := drop_cons_facts _ _ _ _ hd
    obtain ⟨hm1, _, _⟩ := drop_cons_facts _ _ _ _ hm
    have hk0 : k ≠ 0 := hk rfl
    cases fuel with
    | zero =>
      refine ⟨?_, fun _ h => by simp at h⟩
      intro doc
      simp [xmlAnalizeLoop, hlt]
    | succ fuel =>
      cases hx : xmlMaker lstR test k with
      | error e =>
        refine ⟨?_, ?_⟩
        · intro doc
          rw [step_fail test data mas fuel k k none D lstR e hd1 hx]
          simp
        · intro hok _
          obtain ⟨res, hres⟩ := hok k lstR (by omega) hd1
          rw [hx] at hres
          cases hres
      | ok res =>
        obtain ⟨n, a, v⟩ := res
        have hp : xmlAnalizeLoop test data mas (fuel + 1) ⟨k, k, none, D⟩ = .panic := by
          rw [xmlAnalizeLoop]
          simp only [hd1, hx, hm1, hk0, and_false, if_false, if_true]
        exact ⟨fun doc => by rw [hp]; simp, fun _ _ => hp⟩
  | cons e rest ih =>
    intro hall fuel k D hd hm _
    simp only [List.all_cons, Bool.and_eq_true] at hall
    obtain ⟨s, tg, a, x, child⟩ := e
    cases child with
    | cons c cs => simp [isLeaf] at hall
    | nil =>
      simp only [flatNodes, flatNodesElem, List.cons_append, List.nil_append] at hd
      simp only [marks, marksElem, List.cons_append, List.nil_append, List.map_cons,
        Marker.str] at hm
      obtain ⟨hd1, hd2, hlt⟩ := drop_cons_facts _ _ _ _ hd
      obtain ⟨hm1, hm2, _⟩ := drop_cons_facts _ _ _ _ hm
      cases fuel with
      | zero =>
        refine ⟨?_, fun _ h => by simp at h⟩
        intro doc
        simp [xmlAnalizeLoop, hlt]
      | succ fuel =>
        cases hx : xmlMaker [.str tg, .attrs a, .str x] test k with
        | error err =>
          refine ⟨?_, ?_⟩
          · intro doc
            rw [step_fail test data mas fuel k k none D _ err hd1 hx]
            simp
          · intro hok _
            obtain ⟨res, hres⟩ := hok k _ (by omega) hd1
            rw [hx] at hres
            cases hres
        | ok res =>
          rw [step_pushPop_nil test data mas fuel k D _ res hd1 hx hm1]
          obtain ⟨h1, h2⟩ := ih hall.2 fuel (k + 1)
            (D ++ [⟨res.1, res.2.1, res.2.2, .document⟩]) hd2 hm2 (fun _ => by omega)
          refine ⟨h1, ?_⟩
          intro hok hf
          apply h2
          · intro i lst hi
            exact hok i lst (by simp only [List.length_cons]; omega)
          · simp only [List.length_cons] at hf
            omega

end Unscoped

/-- Flattened form of a document that is not `wellScoped`: top-level leaves, then a top-level
element with child elements. -/
theorem unscoped_split (etr : List Element) (hs : wellScoped etr = false) :
    ∃ (ls : List Element) (lstR : FlatNode) (restD : List FlatNode) (restM : List String),
      ls ≠ [] ∧ ls.all isLeaf = true ∧ flatNodes etr = flatNodes ls ++ lstR :: restD ∧
      (marks etr).map Marker.str = (marks ls).map Marker.str ++ "Push" :: restM ∧
      ls.length + 1 ≤ (marks etr).length := by
  cases etr with
  | nil => simp [wellScoped] at hs
  | cons e rest =>
    simp only [wellScoped, Bool.or_eq_false_iff, Bool.not_eq_false'] at hs
    obtain ⟨he, hrest⟩ := hs
    obtain ⟨ls, r, more, h1, h2, h3⟩ := exists_first_inner rest hrest
    obtain ⟨s, tg, a, x, child⟩ := r
    cases child with
    | nil => simp [isLeaf] at h3
    | cons c cs =>
      refine ⟨e :: ls, [.str tg, .attrs a, .str x], flatNodes (c :: cs) ++ flatNodes more,
        ((marks (c :: cs) ++ [Marker.pop]) ++ marks more).map Marker.str, by simp,
        by simp [he, h2], ?_, ?_, ?_⟩
      · rw [h1, show e :: (ls ++ Element.mk s tg a x (c :: cs) :: more) =
          (e :: ls) ++ (Element.mk s tg a x (c :: cs) :: more) from rfl, flatNodes_append]
        simp only [flatNodes, flatNodesElem, List.cons_append, List.append_assoc]
      · rw [h1, show e :: (ls ++ Element.mk s tg a x (c :: cs) :: more) =
          (e :: ls) ++ (Element.mk s tg a x (c :: cs) :: more) from rfl, marks_append]
        have hm : marks (Element.mk s tg a x (c :: cs) :: more) =
            .push :: ((marks (c :: cs) ++ [.pop]) ++ marks more) := by
          simp only [marks, marksElem, List.cons_append, List.append_assoc]
        rw [hm]
        simp only [List.map_append, List.map_cons, Marker.str]
      · rw [h1, show e :: (ls ++ Element.mk s tg a x (c :: cs) :: more) =
          (e :: ls) ++ (Element.mk s tg a x (c :: cs) :: more) from rfl, marks_append]
        have hge := marks_length_ge (e :: ls)
        have hfl : (flatNodes (e :: ls)).length = (e :: ls).length := by
          have : ∀ (l : List Element), l.all isLeaf = true → (flatNodes l).length = l.length := by
            intro l
            induction l with
            | nil => intro _; simp [flatNodes]
            | cons y l ihl =>
              intro hy
              simp only [List.all_cons, Bool.and_eq_true] at hy
              obtain ⟨s2, t2, a2, x2, ch2⟩ := y
              cases ch2 with
              | cons _ _ => simp [isLeaf] at hy
              | nil =>
                simp only [flatNodes, flatNodesElem, List.cons_append, List.nil_append,
                  List.length_cons, ihl hy.2]
          exact this (e :: ls) (by simp [he, h2])
        have hpos : 1 ≤ (marks (Element.mk s tg a x (c :: cs) :: more)).length := by
          simp only [marks, marksElem, List.cons_append, List.length_cons]
          omega
        rw [List.length_append]
        omega

/-- A document that `xmlAnalize` accepts is `wellScoped`. -/
theorem xmlAnalize_ok_wellScoped (methodStruct : GoType) (etr : List Element) (doc : Document)
    (h : xmlAnalize methodStruct etr = .ok doc) : wellScoped etr = true := by
  by_contra hs
  have hs : wellScoped etr = false := by simpa using hs
  obtain ⟨ls, lstR, restD, restM, hne, hall, hd, hm, _⟩ := unscoped_split etr hs
  have hne2 : etr ≠ [] := by
    intro he
    subst he
    simp [wellScoped] at hs
  rw [xmlAnalize_unfold _ _ hne2] at h
  exact (loop_unscoped _ (flatNodes etr) ((marks etr).map Marker.str) lstR restD restM ls hall
    _ 0 [] (by simpa using hd) (by simpa using hm) (fun h0 => absurd h0 hne)).1 doc h

/-- On a document that is not `wellScoped` and whose names all resolve, `xmlAnalize` panics. -/
theorem xmlAnalize_unscoped_panic (methodStruct : GoType) (etr : List Element)
    (hs : wellScoped etr = false)
    (hok : ∀ i lst, (flatNodes etr)[i]? = some lst →
      ∃ res, xmlMaker lst ((soapHandling methodStruct []).filter keeps) i = .ok res) :
    xmlAnalize methodStruct etr = .panic := by
  obtain ⟨ls, lstR, restD, restM, hne, hall, hd, hm, hlen⟩ := unscoped_split etr hs
  have hne2 : etr ≠ [] := by
    intro he
    subst he
    simp [wellScoped] at hs
  rw [xmlAnalize_unfold _ _ hne2]
  exact (loop_unscoped _ (flatNodes etr) ((marks etr).map Marker.str) lstR restD restM ls hall
    _ 0 [] (by simpa using hd) (by simpa using hm) (fun h0 => absurd h0 hne)).2
    (fun i lst _ hi => hok i lst hi) (by simp only [List.length_map]; omega)

/-- What acceptance by `xmlAnalize` means, for every document: `xmlMaker` has succeeded on every
node, and the output has one element per input node, attached as in the input, holding what
`xmlMaker` returned for the node. -/
theorem xmlAnalize_accepted (methodStruct : GoType) (test : List ShapeNode)
    (etr : List Element) (doc : Document)
    (htest : mapProcessing (soapHandling methodStruct []) = .ok test)
    (hacc : xmlAnalize methodStruct etr = .ok doc) :
    wellScoped etr = true ∧
      (∀ i lst, (flatNodes etr)[i]? = some lst → ∃ res, xmlMaker lst test i = .ok res) ∧
      doc.length = (flatNodes etr).length ∧
      doc.map (·.parent) = parents etr .document 0 ∧
      ∀ i lst res, (flatNodes etr)[i]? = some lst → xmlMaker lst test i = .ok res →
        ∃ o, doc[i]? = some o ∧ (o.tag, o.attr, o.text) = res := by
  have hs := xmlAnalize_ok_wellScoped methodStruct etr doc hacc
  have hte := mapProcessing_ok _ _ htest
  have hok : ∀ i lst, (flatNodes etr)[i]? = some lst → ∃ res, xmlMaker lst test i = .ok res := by
    rw [hte]
    exact (xmlAnalize_forest_ok_iff methodStruct etr hs).mp ⟨doc, hacc⟩
  obtain ⟨doc2, hdoc2, h1, h2, h3⟩ := xmlAnalize_forest_output methodStruct test etr hs htest hok
  rw [hacc] at hdoc2
  cases hdoc2
  exact ⟨hs, hok, h1, h2, h3⟩

theorem flatNodes_head (etr : List Element) (hne : etr ≠ []) :
    ∃ tag attr text, (flatNodes etr)[0]? = some [.str tag, .attrs attr, .str text] := by
  cases etr with
  | nil => exact absurd rfl hne
  | cons e rest =>
    obtain ⟨s, tg, a, x, child⟩ := e
    exact ⟨tg, a, x, by simp [flatNodes, flatNodesElem]⟩

/-- A failure of `xmlMaker` on the first node makes `xmlAnalize` return its error, on every
document. -/
theorem xmlAnalize_first_fails (methodStruct : GoType) (etr : List Element) (lst : FlatNode)
    (e : String) (h0 : (flatNodes etr)[0]? = some lst)
    (hfail : xmlMaker lst ((soapHandling methodStruct []).filter keeps) 0 = .error e) :
    xmlAnalize methodStruct etr = .error ("xmlMarker: " ++ e) := by
  have hne : etr ≠ [] := by
    intro h
    subst h
    simp [flatNodes] at h0
  rw [xmlAnalize_unfold _ _ hne]
  exact step_fail _ _ _ _ 0 0 none [] lst e h0 hfail

/-! ## The attributes that `xmlMaker` returns -/

theorem AttrMap.set_keys (k v : String) : ∀ (m : AttrMap), (m.map (·.1)).Nodup →
    ((AttrMap.set m k v).map (·.1)).Nodup ∧
      ∀ k2 v2, (k2, v2) ∈ AttrMap.set m k v ↔
        (k2 = k ∧ v2 = v) ∨ (k2 ≠ k ∧ (k2, v2) ∈ m) := by
  intro m
  induction m with
  | nil =>
    intro _
    simp only [AttrMap.set, List.map_cons, List.map_nil, List.nodup_cons, List.not_mem_nil,
      not_false_eq_true, List.nodup_nil, and_self, List.mem_singleton, Prod.mk.injEq,
      and_false, or_false, true_and]
    intro k2 v2
    trivial
  | cons p rest ih =>
    intro hnd
    obtain ⟨k1, v1⟩ := p
    simp only [List.map_cons, List.nodup_cons, List.mem_map, Prod.exists, exists_and_right,
      exists_eq_right, not_exists] at hnd
    obtain ⟨hnot, hrest⟩ := hnd
    obtain ⟨ih1, ih2⟩ := ih hrest
    by_cases hk : k1 = k
    · subst hk
      simp only [AttrMap.set, if_true]
      refine ⟨?_, ?_⟩
      · simp only [List.map_cons, List.nodup_cons, List.mem_map, Prod.exists,
          exists_and_right, exists_eq_right, not_exists]
        exact ⟨hnot, hrest⟩
      · intro k2 v2
        simp only [List.mem_cons, Prod.mk.injEq]
        constructor
        · rintro (⟨h1, h2⟩ | h)
          · exact Or.inl ⟨h1, h2⟩
          · refine Or.inr ⟨?_, Or.inr h⟩
            intro hk2
            subst hk2
            exact hnot v2 h
        · rintro (⟨h1, h2⟩ | ⟨h1, h2 | h2⟩)
          · exact Or.inl ⟨h1, h2⟩
          · exact absurd h2.1 h1
          · exact Or.inr h2
    · simp only [AttrMap.set, if_neg hk]
      refine ⟨?_, ?_⟩
      · simp only [List.map_cons, List.nodup_cons, List.mem_map, Prod.exists,
          exists_and_right, exists_eq_right, not_exists]
        refine ⟨?_, ih1⟩
        intro x hx
        rcases (ih2 k1 x).mp hx with ⟨h1, _⟩ | ⟨_, h2⟩
        · exact hk h1
        · exact hnot x h2
      · intro k2 v2
        simp only [List.mem_cons, Prod.mk.injEq]
        rw [ih2]
        constructor
        · rintro (⟨h1, h2⟩ | ⟨h1, h2⟩ | ⟨h1, h2⟩)
          · subst h1 h2
            exact Or.inr ⟨hk, Or.inl ⟨rfl, rfl⟩⟩
          · exact Or.inl ⟨h1, h2⟩
          · exact Or.inr ⟨h1, Or.inr h2⟩
        · rintro (⟨h1, h2⟩ | ⟨h1, ⟨h2, h3⟩ | h2⟩)
          · exact Or.inr (Or.inl ⟨h1, h2⟩)
          · exact Or.inl ⟨h2, h3⟩
          · exact Or.inr (Or.inr ⟨h1, h2⟩)

theorem attrMap_fold : ∀ (attr : List Attr) (m : AttrMap), (m.map (·.1)).Nodup →
    ((attr.foldl (fun m i => AttrMap.set m i.key i.value) m).map (·.1)).Nodup ∧
      ∀ k v, (k, v) ∈ attr.foldl (fun m i => AttrMap.set m i.key i.value) m ↔
        lastValue attr k = some v ∨ (lastValue attr k = none ∧ (k, v) ∈ m)
  | [], m, hnd => by
    simp [lastValue, hnd]
  | a :: rest, m, hnd => by
    obtain ⟨h1, h2⟩ := AttrMap.set_keys a.key a.value m hnd
    obtain ⟨g1, g2⟩ := attrMap_fold rest (AttrMap.set m a.key a.value) h1
    simp only [List.foldl_cons]
    refine ⟨g1, ?_⟩
    intro k v
    rw [g2, h2]
    simp only [lastValue]
    cases hl : lastValue rest k with
    | some w => simp
    | none =>
      by_cases hk : a.key = k
      · subst hk
        simp [eq_comm]
      · have hk2 : ¬ k = a.key := fun h => hk h.symm
        simp [hk, hk2]

/-- The attribute map built from the attributes of an element: one entry per local key,
with the value of the last attribute that has this key. -/
theorem attrMap_spec (attr : List Attr) :
    ((attrMap attr).map (·.1)).Nodup ∧
      ∀ k v, (k, v) ∈ attrMap attr ↔ lastValue attr k = some v := by
  obtain ⟨h1, h2⟩ := attrMap_fold attr [] (by simp)
  refine ⟨h1, ?_⟩
  intro k v
  rw [attrMap, h2]
  simp

/-! ## The iterations of the loop of `xmlAnalize` -/

section Iterations

variable (test : List ShapeNode) (data : List FlatNode) (mas : List String)

/-- The loop of `xmlAnalize` is the repetition of `xmlAnalizeIteration`. -/
theorem xmlAnalizeLoop_succ (fuel : Nat) (st : LoopState) :
    xmlAnalizeLoop test data mas (fuel + 1) st =
      match xmlAnalizeIteration test data mas st with
      | .exit => .ok st.document
      | .stop o => o
      | .next st1 => xmlAnalizeLoop test data mas fuel st1 := by
  rw [xmlAnalizeLoop]
  unfold xmlAnalizeIteration
  cases data[st.lstIndex]? with
  | none => rfl
  | some lst =>
    simp only []
    cases xmlMaker lst test st.lstIndex with
    | error e => rfl
    | ok res =>
      obtain ⟨n, a, v⟩ := res
      simp only []
      cases mas[st.lstIndex]? with
      | none => rfl
      | some m0 =>
        simp only []
        by_cases h0 : m0 = "Push" ∧ st.lstIndex = 0
        · simp only [if_pos h0]
        · simp only [if_neg h0]
          cases mas[st.idntIndex]? with
          | none => rfl
          | some m =>
            simp only []
            by_cases h1 : m = "Push"
            · simp only [if_pos h1]
              cases st.el <;> rfl
            · simp only [if_neg h1]
              by_cases h2 : m = "PushPop"
              · simp only [if_pos h2]
                cases st.el <;> rfl
              · simp only [if_neg h2]
                by_cases h3 : m = "Pop"
                · simp only [if_pos h3]
                  cases st.el <;> rfl
                · simp only [if_neg h3]

/-- What an iteration does, by the branch it takes. -/
theorem xmlAnalizeIteration_cases (st : LoopState) :
    (xmlAnalizeIteration test data mas st = .exit ∧ data.length ≤ st.lstIndex) ∨
      (∃ o, xmlAnalizeIteration test data mas st = .stop o ∧ (∀ doc, o ≠ .ok doc) ∧
        st.lstIndex < data.length) ∨
      (∃ st1, xmlAnalizeIteration test data mas st = .next st1 ∧
        st.lstIndex < data.length ∧ st1.idntIndex = st.idntIndex + 1 ∧
        st1.lstIndex = (if popIteration mas st then st.lstIndex else st.lstIndex + 1) ∧
        ((st.lstIndex = 0 ∧ mas[0]? = some "Push" ∧ popIteration mas st = false) ∨
          ∃ m, mas[st.idntIndex]? = some m ∧ (popIteration mas st = true ↔ m = "Pop"))) := by
  unfold xmlAnalizeIteration
  cases hd : data[st.lstIndex]? with
  | none =>
    left
    exact ⟨rfl, by
      by_contra hc
      rw [List.getElem?_eq_getElem (by omega)] at hd
      cases hd⟩
  | some lst =>
    have hlt : st.lstIndex < data.length := by
      by_contra hc
      rw [List.getElem?_eq_none (by omega)] at hd
      cases hd
    right
    simp only []
    cases xmlMaker lst test st.lstIndex with
    | error e => exact Or.inl ⟨_, rfl, (fun doc h => by cases h), hlt⟩
    | ok res =>
      obtain ⟨n, a, v⟩ := res
      simp only []
      cases hm0 : mas[st.lstIndex]? with
      | none => exact Or.inl ⟨_, rfl, (fun doc h => by cases h), hlt⟩
      | some m0 =>
        simp only []
        by_cases h0 : m0 = "Push" ∧ st.lstIndex = 0
        · simp only [if_pos h0]
          right
          have hm00 : mas[st.lstIndex]? = some "Push" := by rw [hm0, h0.1]
          have hp : popIteration mas st = false := by
            unfold popIteration
            rw [hm00, h0.2]
            rfl
          refine ⟨_, rfl, hlt, rfl, ?_, Or.inl ⟨h0.2, ?_, hp⟩⟩
          · simp only [hp, Bool.false_eq_true, if_false, h0.2]
          · rw [← h0.2, hm0, h0.1]
        · simp only [if_neg h0]
          have hfirst : (decide (mas[st.lstIndex]? = some "Push") && decide (st.lstIndex = 0)) =
              false := by
            rw [hm0]
            simp only [Option.some.injEq, Bool.and_eq_false_imp, decide_eq_true_eq,
              decide_eq_false_iff_not]
            intro h1 h2
            exact h0 ⟨h1, h2⟩
          cases hm : mas[st.idntIndex]? with
          | none => exact Or.inl ⟨_, rfl, (fun doc h => by cases h), hlt⟩
          | some m =>
            have hp : popIteration mas st = true ↔ m = "Pop" := by
              simp [popIteration, hfirst, hm]
            simp only []
            by_cases h1 : m = "Push"
            · simp only [if_pos h1]
              have hnp : popIteration mas st = false := by
                rw [← Bool.not_eq_true, hp, h1]
                decide
              cases st.el with
              | none => exact Or.inl ⟨_, rfl, (fun doc h => by cases h), hlt⟩
              | some el =>
                exact Or.inr ⟨_, rfl, hlt, rfl, by simp [hnp], Or.inr ⟨m, rfl, hp⟩⟩
            · simp only [if_neg h1]
              by_cases h2 : m = "PushPop"
              · simp only [if_pos h2]
                have hnp : popIteration mas st = false := by
                  rw [← Bool.not_eq_true, hp, h2]
                  decide
                cases st.el with
                | none =>
                  exact Or.inr ⟨_, rfl, hlt, rfl, by simp [hnp], Or.inr ⟨m, rfl, hp⟩⟩
                | some el =>
                  exact Or.inr ⟨_, rfl, hlt, rfl, by simp [hnp], Or.inr ⟨m, rfl, hp⟩⟩
              · simp only [if_neg h2]
                by_cases h3 : m = "Pop"
                · simp only [if_pos h3]
                  have hpp : popIteration mas st = true := hp.mpr h3
                  cases st.el with
                  | none => exact Or.inl ⟨_, rfl, (fun doc h => by cases h), hlt⟩
                  | some el =>
                    exact Or.inr ⟨_, rfl, hlt, rfl, by simp [hpp], Or.inr ⟨m, rfl, hp⟩⟩
                · simp only [if_neg h3]
                  have hnp : popIteration mas st = false := by
                    rw [← Bool.not_eq_true, hp]
                    exact h3
                  exact Or.inr ⟨_, rfl, hlt, rfl, by simp [hnp], Or.inr ⟨m, rfl, hp⟩⟩

/-- The relation between the two indices that holds at the start of every iteration:
`lstIndex` is the number of markers other than `Pop` before `idntIndex`. -/
theorem indices_next (st st1 : LoopState)
    (hinv : st.lstIndex = (mas.take st.idntIndex).countP (fun m => decide (m ≠ "Pop")))
    (h : xmlAnalizeIteration test data mas st = .next st1) :
    st1.lstIndex = (mas.take st1.idntIndex).countP (fun m => decide (m ≠ "Pop")) := by
  rcases xmlAnalizeIteration_cases test data mas st with ⟨h1, _⟩ | ⟨o, h1, _⟩ |
    ⟨st2, h1, _, hidnt, hlst, hbr⟩
  · rw [h1] at h
    cases h
  · rw [h1] at h
    cases h
  · rw [h1] at h
    cases h
    rw [hidnt, hlst]
    have htake : ∀ m, mas[st.idntIndex]? = some m →
        mas.take (st.idntIndex + 1) = mas.take st.idntIndex ++ [m] := by
      intro m hm
      rw [List.take_succ, hm]
      rfl
    rcases hbr with ⟨h0, hp, hnp⟩ | ⟨m, hm, hpop⟩
    · have hz : st.idntIndex = 0 := by
        by_contra hne
        obtain ⟨k, hk⟩ : ∃ k, st.idntIndex = k + 1 := ⟨st.idntIndex - 1, by omega⟩
        rw [hk] at hinv
        cases hmas : mas with
        | nil => rw [hmas] at hp; simp at hp
        | cons x rest =>
          rw [hmas] at hp hinv
          simp only [List.getElem?_cons_zero, Option.some.injEq] at hp
          subst hp
          rw [List.take_succ_cons, List.countP_cons_of_pos _ _ (by decide)] at hinv
          omega
      have hm : mas[st.idntIndex]? = some "Push" := by rw [hz]; exact hp
      rw [hnp, htake _ hm, hz]
      simp only [Bool.false_eq_true, if_false, List.take_zero, List.nil_append, h0]
      rfl
    · rw [htake m hm, List.countP_append, ← hinv]
      by_cases hmp : m = "Pop"
      · rw [if_pos (hpop.mpr hmp), hmp]
        rfl
      · have hnp : popIteration mas st = false := by
          rw [← Bool.not_eq_true, hpop]
          exact hmp
        rw [hnp]
        simp [hmp]

/-- At the start of an iteration `idntIndex` is within the markers. -/
theorem idntIndex_lt (hcount : mas.countP (fun m => decide (m ≠ "Pop")) = data.length)
    (st : LoopState)
    (hinv : st.lstIndex = (mas.take st.idntIndex).countP (fun m => decide (m ≠ "Pop")))
    (hlt : st.lstIndex < data.length) : st.idntIndex < mas.length := by
  by_contra hc
  rw [List.take_of_length_le (by omega), hcount] at hinv
  omega

/-- Bounds in every iteration of a run, and the length of the run. -/
theorem run_bounds (hcount : mas.countP (fun m => decide (m ≠ "Pop")) = data.length) :
    ∀ (fuel : Nat) (st : LoopState),
    st.lstIndex = (mas.take st.idntIndex).countP (fun m => decide (m ≠ "Pop")) →
    ((∀ s ∈ xmlAnalizeRun test data mas fuel st,
        s.idntIndex < mas.length ∧ s.lstIndex < data.length) ∧
      (xmlAnalizeRun test data mas fuel st).length + st.idntIndex ≤ mas.length) ∨
        (xmlAnalizeRun test data mas fuel st) = [] := by
  intro fuel
  induction fuel with
  | zero =>
    intro st _
    right
    rfl
  | succ fuel ih =>
    intro st hinv
    rw [xmlAnalizeRun]
    rcases xmlAnalizeIteration_cases test data mas st with ⟨h1, _⟩ | ⟨o, h1, _, hlt⟩ |
      ⟨st1, h1, hlt, hidnt, _, _⟩
    · right
      rw [h1]
    · left
      rw [h1]
      have hi := idntIndex_lt data mas hcount st hinv hlt
      simp only [List.mem_singleton, forall_eq, List.length_singleton]
      exact ⟨⟨hi, hlt⟩, by omega⟩
    · left
      rw [h1]
      have hi := idntIndex_lt data mas hcount st hinv hlt
      have hinv1 := indices_next test data mas st st1 hinv h1
      simp only [List.mem_cons, forall_eq_or_imp, List.length_cons]
      rcases ih st1 hinv1 with ⟨h2, h3⟩ | h2
      · exact ⟨⟨⟨hi, hlt⟩, h2⟩, by omega⟩
      · rw [h2]
        simp only [List.not_mem_nil, false_implies, implies_true, and_true, List.length_nil]
        exact ⟨⟨hi, hlt⟩, by omega⟩

/-- When the loop ends by its condition, the iterations that do not take the `Pop` branch
have visited the nodes from `lstIndex` on, each once, in order. -/
theorem run_visited : ∀ (fuel : Nat) (st : LoopState) (doc : Document),
    xmlAnalizeLoop test data mas fuel st = .ok doc →
    visited mas (xmlAnalizeRun test data mas fuel st) =
      List.range' st.lstIndex (data.length - st.lstIndex) := by
  intro fuel
  induction fuel with
  | zero =>
    intro st doc h
    simp only [xmlAnalizeLoop] at h
    split at h
    · cases h
    · rw [xmlAnalizeRun, show data.length - st.lstIndex = 0 from by omega]
      rfl
  | succ fuel ih =>
    intro st doc h
    rw [xmlAnalizeLoop_succ] at h
    rw [xmlAnalizeRun]
    rcases xmlAnalizeIteration_cases test data mas st with ⟨h1, hge⟩ | ⟨o, h1, ho, _⟩ |
      ⟨st1, h1, hlt, _, hlst, _⟩
    · rw [h1, show data.length - st.lstIndex = 0 from by omega]
      rfl
    · rw [h1] at h
      simp only at h
      exact absurd h (ho doc)
    · rw [h1] at h ⊢
      simp only at h ⊢
      have := ih st1 doc h
      simp only [visited, List.filter_cons] at this ⊢
      by_cases hp : popIteration mas st = true
      · rw [hp] at hlst ⊢
        simp only [if_true] at hlst
        simp only [Bool.not_true, Bool.false_eq_true, if_false]
        rw [this, hlst]
      · have hp2 : popIteration mas st = false := by simpa using hp
        rw [hp2] at hlst ⊢
        simp only [Bool.false_eq_true, if_false] at hlst
        simp only [Bool.not_false, if_true, List.map_cons]
        rw [this, hlst]
        obtain ⟨k, hk⟩ : ∃ k, data.length - st.lstIndex = k + 1 :=
          ⟨data.length - st.lstIndex - 1, by omega⟩
        rw [hk, List.range'_succ, show data.length - (st.lstIndex + 1) = k from by omega]

end Iterations

/-- The markers of a forest other than `Pop` are as many as its nodes. -/
theorem marks_nonPop (etr : List Element) :
    ((marks etr).map Marker.str).countP (fun m => decide (m ≠ "Pop")) =
      (flatNodes etr).length := by
  have hlen : ∀ (l : List Marker),
      (l.map Marker.str).countP (fun m => decide (m ≠ "Pop")) =
        l.count .push + l.count .pushPop := by
    intro l
    induction l with
    | nil => rfl
    | cons x rest ih =>
      rw [List.map_cons, List.countP_cons, ih, List.count_cons, List.count_cons]
      cases x <;> simp [Marker.str] <;> omega
  obtain ⟨h1, h2, _⟩ := marks_counts etr
  rw [hlen, h1, h2, flatNodes_eq_elements, List.length_map, elements_length]
  exact counts_sum etr

/-! ## Device discovery -/

theorem firstOccurrences_mem (h : String) : ∀ (l : List String),
    h ∈ firstOccurrences l ↔ h ∈ l
  | [] => by simp [firstOccurrences]
  | x :: rest => by
    have ih := firstOccurrences_mem h rest
    simp only [firstOccurrences, List.mem_cons, List.mem_filter, decide_eq_true_eq, ih]
    constructor
    · rintro (h1 | ⟨h1, _⟩)
      · exact Or.inl h1
      · exact Or.inr h1
    · rintro (h1 | h1)
      · exact Or.inl h1
      · by_cases hx : h = x
        · exact Or.inl hx
        · exact Or.inr ⟨h1, hx⟩

theorem firstOccurrences_nodup : ∀ (l : List String), (firstOccurrences l).Nodup
  | [] => by simp [firstOccurrences]
  | x :: rest => by
    have ih := firstOccurrences_nodup rest
    simp only [firstOccurrences, List.nodup_cons, List.mem_filter, decide_eq_true_eq, ne_eq,
      not_true_eq_false, and_false, not_false_eq_true, true_and]
    exact ih.filter _

/-- The `json_apis` handler lists the hosts of the replies by their first occurrences. -/
theorem JsonApis.repliesLoop_urls : ∀ (devices : List ProbeReply)
    (discovered result : List (String × String)),
    JsonApis.repliesLoop discovered devices = .ok result →
    result.map (·.1) = discovered.map (·.1) ++
      (firstOccurrences (replyHosts devices)).filter (fun h => h ∉ discovered.map (·.1))
  | [], discovered, result, h => by
    simp only [JsonApis.repliesLoop, Outcome.ok.injEq] at h
    subst h
    simp [replyHosts, firstOccurrences]
  | .malformed :: rest, discovered, result, h => by
    simp only [JsonApis.repliesLoop] at h
    simpa [replyHosts] using JsonApis.repliesLoop_urls rest discovered result h
  | .noRoot :: rest, discovered, result, h => by
    simp [JsonApis.repliesLoop] at h
  | .parsed [] scopes :: rest, discovered, result, h => by
    simp only [JsonApis.repliesLoop] at h
    simpa [replyHosts] using JsonApis.repliesLoop_urls rest discovered result h
  | .parsed (text :: more) scopes :: rest, discovered, result, h => by
    simp only [JsonApis.repliesLoop] at h
    cases hx : endpointHost text with
    | none =>
      rw [hx] at h
      cases h
    | some xaddr =>
      rw [hx] at h
      simp only [] at h
      simp only [replyHosts, hx, firstOccurrences]
      by_cases hin : xaddr ∈ discovered.map (·.1)
      · have hany : discovered.any (fun device => decide (device.1 = xaddr)) = true := by
          rw [List.any_eq_true]
          obtain ⟨d, hd, hd2⟩ := List.mem_map.mp hin
          exact ⟨d, hd, by simp [hd2]⟩
        rw [if_pos hany] at h
        rw [JsonApis.repliesLoop_urls rest discovered result h]
        congr 1
        rw [List.filter_cons_of_neg (by simpa using hin), List.filter_filter]
        apply List.filter_congr
        intro y _
        by_cases hy : y ∈ discovered.map (·.1)
        · simp [hy]
        · have : y ≠ xaddr := fun hyx => hy (hyx ▸ hin)
          simp [hy, this]
      · have hany : ¬ discovered.any (fun device => decide (device.1 = xaddr)) = true := by
          rw [List.any_eq_true]
          rintro ⟨d, hd, hd2⟩
          exact hin (List.mem_map.mpr ⟨d, hd, by simpa using hd2⟩)
        rw [if_neg hany] at h
        rw [JsonApis.repliesLoop_urls rest _ result h]
        rw [List.filter_cons_of_pos (by simpa using hin), List.filter_filter]
        simp only [List.map_append, List.map_cons, List.map_nil, List.append_assoc,
          List.singleton_append]
        congr 2
        apply List.filter_congr
        intro y _
        simp only [List.mem_append, List.mem_singleton, not_or, Bool.decide_and,
          decide_not, Bool.and_comm]

/-- The listing of the `json_apis` handler holds every host of the replies once, in the order of
the first occurrences. -/
theorem JsonApis.handleDiscovery_urls (devices : List ProbeReply)
    (result : List (String × String)) (h : JsonApis.handleDiscovery devices = .ok result) :
    result.map (·.1) = firstOccurrences (replyHosts devices) ∧
      (result.map (·.1)).Nodup ∧ ∀ host, host ∈ result.map (·.1) ↔ host ∈ replyHosts devices := by
  have h1 := JsonApis.repliesLoop_urls devices [] result h
  simp only [List.map_nil, List.nil_append, List.not_mem_nil, not_false_eq_true, decide_True,
    List.filter_true] at h1
  rw [h1]
  exact ⟨rfl, firstOccurrences_nodup _, fun host => firstOccurrences_mem host _⟩

/-! ## Facts about the examples -/

theorem setHostname_nodes (i : Nat) (lst : FlatNode)
    (h : (flatNodes [setHostnameDoc])[i]? = some lst) :
    (i = 0 ∧ lst = [.str "SetHostname", .attrs [], .str ""]) ∨
      (i = 1 ∧ lst = [.str "Name", .attrs [], .str "camera-1"]) := by
  match i, h with
  | 0, h =>
    left
    simp [setHostnameDoc, flatNodesElem, flatNodes] at h
    exact ⟨rfl, h.symm⟩
  | 1, h =>
    right
    simp [setHostnameDoc, flatNodesElem, flatNodes] at h
    exact ⟨rfl, h.symm⟩
  | n + 2, h =>
    simp [setHostnameDoc, flatNodesElem, flatNodes] at h

theorem setHostname_test :
    mapProcessing (soapHandling setHostname []) =
      .ok [⟨"XMLName", "xml:\"tds:SetHostname\""⟩, ⟨"Name", "xml:\"tds:Name\""⟩] := by
  decide

/-- A document whose first top-level element has no child while a later one has: the loop of
`xmlAnalize` reaches `el.AddChild` with `el == nil`. -/
theorem xmlAnalize_leaf_then_parent_panics :
    wellScoped [.mk "" "A" [] "" [], .mk "" "B" [] "" [.mk "" "C" [] "" []]] = false ∧
      xmlAnalize (.struct [("XMLName", "xml:\"A\"", .basic)])
          [.mk "" "A" [] "" [], .mk "" "B" [] "" [.mk "" "C" [] "" []]] = .panic := by
  decide

/-! ## Properties of the specification -/

/-- C1 (counterexample): for the type with the primitive fields `XMLName`, tagged
`xml:"Config"`, and `Name`, tagged `xml:"name"`, and the input `<Config><name>cam</name></Config>`,
whose elements follow the fields in order and nesting and carry the declared element names,
`xmlAnalize` returns an error. -/
theorem roundTrip_declared_names_fails :
    xmlAnalize (.struct [("XMLName", "xml:\"Config\"", .basic), ("Name", "xml:\"name\"", .basic)])
        [.mk "" "Config" [] "" [.mk "" "name" [] "cam" []]] =
      .error "xmlMarker: xmlProcessing: out of range" := by
  decide

/-- C1 (amended): for every request type whose fields are all primitives, with pairwise distinct
names, whose first field is `XMLName` and whose tags are all kept by `mapProcessing` and hold
a quoted name, and for every input document whose first top-level element has child elements
or whose top-level elements all have none, with one element per field, whose elements after
the first carry, in document order, the Go names of the fields at the same positions:
`xmlAnalize` succeeds and returns a document with the same tree shape, whose element at each
position is named by `xmlProcessing` of the tag of the field at that position and carries the
text of the input element and its attributes keyed by local name. -/
theorem roundTrip_flat (fs : List (String × String × GoType)) (etr : List Element)
    (hs : wellScoped etr = true)
    (hbasic : ∀ f ∈ fs, f.2.2 = .basic)
    (hnd : (fs.map (·.1)).Nodup)
    (hfirst : ∀ f, fs[0]? = some f → f.1 = "XMLName")
    (hkeep : ∀ f ∈ fs, keeps ⟨f.1, f.2.1⟩ = true)
    (hquoted : ∀ f ∈ fs, ∃ name, xmlProcessing f.2.1 = .ok name)
    (hlen : (flatNodes etr).length = fs.length)
    (htags : ∀ (i : Nat) (tag : String) (attr : List Attr) (text : String) (f : String × String × GoType), 0 < i →
      (flatNodes etr)[i]? = some [Item.str tag, Item.attrs attr, Item.str text] →
      fs[i]? = some f → f.1 = tag) :
    ∃ doc, xmlAnalize (.struct fs) etr = .ok doc ∧
      doc.length = fs.length ∧
      doc.map (·.parent) = parents etr .document 0 ∧
      ∀ (i : Nat) (tag : String) (attr : List Attr) (text : String) (f : String × String × GoType),
        (flatNodes etr)[i]? = some [Item.str tag, Item.attrs attr, Item.str text] → fs[i]? = some f →
        ∃ o, doc[i]? = some o ∧ xmlProcessing f.2.1 = .ok o.tag ∧
          o.attr = attrMap attr ∧ o.text = text := by
  have hshape := soapHandling_flat fs hbasic hnd
  have hfilter : (fs.map (fun f => (⟨f.1, f.2.1⟩ : ShapeNode))).filter keeps =
      fs.map (fun f => ⟨f.1, f.2.1⟩) := by
    rw [List.filter_eq_self]
    intro n hn
    obtain ⟨f, hf, rfl⟩ := List.mem_map.mp hn
    exact hkeep f hf
  have htest : mapProcessing (soapHandling (.struct fs) []) =
      .ok (fs.map (fun f => ⟨f.1, f.2.1⟩)) := by
    rw [mapProcessing_eq_filter, hshape, hfilter]
  have hnode : ∀ (i : Nat) (tag : String) (attr : List Attr) (text : String) (f : String × String × GoType),
      (flatNodes etr)[i]? = some [Item.str tag, Item.attrs attr, Item.str text] → fs[i]? = some f →
      ∀ name, xmlProcessing f.2.1 = .ok name →
      xmlMaker [Item.str tag, Item.attrs attr, Item.str text] (fs.map (fun f => ⟨f.1, f.2.1⟩)) i =
        .ok (name, attrMap attr, text) := by
    intro i tag attr text f hi hf name hname
    apply xmlMaker_tag_match _ i ⟨f.1, f.2.1⟩ tag attr text name
    · rw [List.getElem?_map, hf]
      rfl
    · by_cases h0 : i = 0
      · subst h0
        simp only [if_true]
        exact hfirst f hf
      · simp only [if_neg h0]
        exact htags i tag attr text f (by omega) hi hf
    · exact hname
  have hfield : ∀ (i : Nat) (lst : FlatNode), (flatNodes etr)[i]? = some lst →
      ∃ f, fs[i]? = some f := by
    intro i lst hi
    have hlt : i < fs.length := by
      rw [← hlen]
      by_contra hc
      rw [List.getElem?_eq_none (by omega)] at hi
      cases hi
    exact ⟨fs[i], List.getElem?_eq_getElem hlt⟩
  have hok : ∀ i lst, (flatNodes etr)[i]? = some lst →
      ∃ res, xmlMaker lst (fs.map (fun f => ⟨f.1, f.2.1⟩)) i = .ok res := by
    intro i lst hi
    obtain ⟨tag, attr, text, hform⟩ := getElem?_mem_flat etr i lst hi
    subst hform
    obtain ⟨f, hf⟩ := hfield i _ hi
    obtain ⟨name, hname⟩ := hquoted f (List.getElem?_mem hf)
    exact ⟨_, hnode i tag attr text f hi hf name hname⟩
  obtain ⟨doc, hdoc, hl, hpar, hcontent⟩ :=
    xmlAnalize_forest_output (.struct fs) _ etr hs htest hok
  refine ⟨doc, hdoc, by rw [hl, hlen], hpar, ?_⟩
  intro i tag attr text f hi hf
  obtain ⟨name, hname⟩ := hquoted f (List.getElem?_mem hf)
  obtain ⟨o, ho, hc⟩ := hcontent i _ _ hi (hnode i tag attr text f hi hf name hname)
  simp only [Prod.mk.injEq] at hc
  exact ⟨o, ho, by rw [hc.1]; exact hname, hc.2.1, hc.2.2⟩

/-- C1 (witness): `SetHostname` and the input
`<SetHostname><Name>camera-1</Name></SetHostname>`. -/
theorem roundTrip_flat_witness :
    ∃ doc, xmlAnalize (.struct setHostnameFields) [setHostnameDoc] = .ok doc ∧
      doc.length = setHostnameFields.length ∧
      doc.map (·.parent) = parents [setHostnameDoc] .document 0 ∧
      ∀ (i : Nat) (tag : String) (attr : List Attr) (text : String)
        (f : String × String × GoType),
        (flatNodes [setHostnameDoc])[i]? = some [Item.str tag, Item.attrs attr, Item.str text] →
        setHostnameFields[i]? = some f →
        ∃ o, doc[i]? = some o ∧ xmlProcessing f.2.1 = .ok o.tag ∧
          o.attr = attrMap attr ∧ o.text = text :=
  roundTrip_flat setHostnameFields [setHostnameDoc] rfl
    (by
      intro f hf
      simp only [setHostnameFields, List.mem_cons, List.mem_singleton, List.not_mem_nil,
        or_false] at hf
      rcases hf with rfl | rfl <;> rfl)
    (by decide)
    (by
      intro f hf
      simp only [setHostnameFields, List.getElem?_cons_zero, Option.some.injEq] at hf
      rw [← hf])
    (by
      intro f hf
      simp only [setHostnameFields, List.mem_cons, List.mem_singleton, List.not_mem_nil,
        or_false] at hf
      rcases hf with rfl | rfl <;> decide)
    (by
      intro f hf
      simp only [setHostnameFields, List.mem_cons, List.mem_singleton, List.not_mem_nil,
        or_false] at hf
      rcases hf with rfl | rfl
      · exact ⟨"tds:SetHostname", by decide⟩
      · exact ⟨"tds:Name", by decide⟩)
    (by decide)
    (by
      intro i tag attr text f hi hnode hf
      rcases setHostname_nodes i _ hnode with ⟨h0, _⟩ | ⟨h1, hl⟩
      · omega
      · subst h1
        simp only [setHostnameFields, List.getElem?_cons_succ, List.getElem?_cons_zero,
          Option.some.injEq] at hf
        simp only [List.cons.injEq, Item.str.injEq, and_true] at hl
        rw [← hf, hl.1])

/-- C2 (counterexample): for the type `SetHostname{ Name string }` with the tag
`xml:"Name"` and the input `<Name>camera-1</Name>`, `xmlAnalize` returns an error: the name of
the first node is looked up under `XMLName`, which the type does not have. -/
theorem setHostname_without_root_fails :
    xmlAnalize (.struct [("Name", "xml:\"Name\"", .basic)]) [.mk "" "Name" [] "camera-1" []] =
      .error "xmlMarker: xmlProcessing: out of range" := by
  decide

/-- C2 (amended): for the type `SetHostname{ XMLName; Name string }` whose tags resolve
to `SetHostname` and `Name`, the input `<SetHostname><Name>camera-1</Name></SetHostname>` is
returned unchanged; and for a type whose only field is `XMLName` with a tag resolving to
`Name`, the input `<Name>camera-1</Name>` is returned unchanged. -/
theorem setHostname_identity :
    xmlAnalize
        (.struct [("XMLName", "xml:\"SetHostname\"", .basic), ("Name", "xml:\"Name\"", .basic)])
        [.mk "" "SetHostname" [] "" [.mk "" "Name" [] "camera-1" []]] =
      .ok [⟨"SetHostname", [], "", .document⟩, ⟨"Name", [], "camera-1", .elem 0⟩] ∧
    xmlAnalize (.struct [("XMLName", "xml:\"Name\"", .basic)])
        [.mk "" "Name" [] "camera-1" []] =
      .ok [⟨"Name", [], "camera-1", .document⟩] := by
  constructor <;> decide

/-- C3 (counterexample): for `SetHostname` and the input
`<SetHostname><Hostname>camera-1</Hostname></SetHostname>`, whose second element is not named
after the field `Name`, `xmlAnalize` returns an error. -/
theorem renamed_field_rejected :
    xmlAnalize setHostname [.mk "" "SetHostname" [] "" [.mk "" "Hostname" [] "camera-1" []]] =
      .error "xmlMarker: xmlProcessing: out of range" := by
  decide

/-- C3 (amended): let `test` be the shape and `etr` an input document whose first top-level
element has child elements or whose top-level elements all have none.  When the
first shape entry is the field `XMLName`, every later element carries the Go field name of
the shape entry at its position and every raw tag resolves, `xmlAnalize` accepts the document,
whatever the tag of its first element is, and the output element at each position carries
the declared element name (`xmlProcessing` of the raw tag) and the text of the input element.
When an element at a position `i > 0` inside the shape carries a tag other than the field name
of the shape entry `i`, `xmlAnalize` returns an error. -/
theorem positional_renaming (methodStruct : GoType) (test : List ShapeNode)
    (etr : List Element) (hs : wellScoped etr = true)
    (htest : mapProcessing (soapHandling methodStruct []) = .ok test) :
    ((∀ (i : Nat) (tag : String) (attr : List Attr) (text : String), (flatNodes etr)[i]? = some [Item.str tag, Item.attrs attr, Item.str text] →
        ∃ tg name, test[i]? = some tg ∧
          tg.fieldName = (if i = 0 then "XMLName" else tag) ∧
          xmlProcessing tg.rawTag = .ok name) →
      ∃ doc, xmlAnalize methodStruct etr = .ok doc ∧
        ∀ (i : Nat) (tag : String) (attr : List Attr) (text : String) (tg : ShapeNode),
          (flatNodes etr)[i]? = some [Item.str tag, Item.attrs attr, Item.str text] →
          test[i]? = some tg →
          ∃ o, doc[i]? = some o ∧ xmlProcessing tg.rawTag = .ok o.tag ∧ o.text = text) ∧
    (∀ (i : Nat) (tag : String) (attr : List Attr) (text : String) (tg : ShapeNode), 0 < i →
      (flatNodes etr)[i]? = some [Item.str tag, Item.attrs attr, Item.str text] →
      test[i]? = some tg → tag ≠ tg.fieldName →
      xmlAnalize methodStruct etr = .error "xmlMarker: xmlProcessing: out of range") := by
  constructor
  · intro h
    have hok : ∀ i lst, (flatNodes etr)[i]? = some lst →
        ∃ res, xmlMaker lst test i = .ok res := by
      intro i lst hi
      obtain ⟨tag, attr, text, hform⟩ := getElem?_mem_flat etr i lst hi
      subst hform
      obtain ⟨tg, name, h1, h2, h3⟩ := h i tag attr text hi
      exact ⟨_, xmlMaker_tag_match test i tg tag attr text name h1 h2 h3⟩
    obtain ⟨doc, hdoc, _, _, hcontent⟩ := xmlAnalize_forest_output methodStruct test etr hs htest hok
    refine ⟨doc, hdoc, ?_⟩
    intro i tag attr text tg hi htg
    obtain ⟨tg', name, h1, h2, h3⟩ := h i tag attr text hi
    rw [htg] at h1
    cases h1
    obtain ⟨o, ho, hc⟩ := hcontent i _ _ hi
      (xmlMaker_tag_match test i tg tag attr text name htg h2 h3)
    simp only [Prod.mk.injEq] at hc
    exact ⟨o, ho, by rw [hc.1]; exact h3, hc.2.2⟩
  · intro i tag attr text tg hi hnode htg hne
    exact xmlAnalize_tag_mismatch methodStruct test etr hs htest i tag attr text tg hi hnode htg hne

/-- C3 (witness): `SetHostname` and the input `<Other><Name>camera-1</Name></Other>`, whose
first element is not named after the type. -/
theorem positional_renaming_witness :
    ∃ doc, xmlAnalize setHostname [.mk "" "Other" [] "" [.mk "" "Name" [] "camera-1" []]] =
        .ok doc ∧
      ∀ (i : Nat) (tag : String) (attr : List Attr) (text : String) (tg : ShapeNode),
        (flatNodes [.mk "" "Other" [] "" [.mk "" "Name" [] "camera-1" []]])[i]? =
          some [Item.str tag, Item.attrs attr, Item.str text] →
        [(⟨"XMLName", "xml:\"tds:SetHostname\""⟩ : ShapeNode),
          ⟨"Name", "xml:\"tds:Name\""⟩][i]? = some tg →
        ∃ o, doc[i]? = some o ∧ xmlProcessing tg.rawTag = .ok o.tag ∧ o.text = text :=
  (positional_renaming setHostname _ [.mk "" "Other" [] "" [.mk "" "Name" [] "camera-1" []]] rfl
    setHostname_test).1
    (by
      intro i tag attr text hnode
      match i, hnode with
      | 0, hnode => exact ⟨_, "tds:SetHostname", rfl, rfl, by decide⟩
      | 1, hnode =>
        simp [flatNodesElem, flatNodes] at hnode
        exact ⟨_, "tds:Name", rfl, by simp [hnode.1], by decide⟩
      | n + 2, hnode => simp [flatNodesElem, flatNodes] at hnode)

/-- C4 (counterexample): for a type whose only field is `XMLName` and the input
`<R><B>hello</B></R>`, every call of `xmlMaker` succeeds and `xmlAnalize` returns a document, but
its second element has lost the text `hello`. -/
theorem text_lost_beyond_shape :
    xmlMaker [.str "B", .attrs [], .str "hello"] [⟨"XMLName", "xml:\"R\""⟩] 1 =
        .ok ("", [], "") ∧
      xmlAnalize (.struct [("XMLName", "xml:\"R\"", .basic)])
          [.mk "" "R" [] "" [.mk "" "B" [] "hello" []]] =
        .ok [⟨"R", [], "", .document⟩, ⟨"", [], "", .elem 0⟩] := by
  decide

/-- C4 (amended): for every single-rooted input document and every shape for which `xmlMaker`
succeeds on every node, `xmlAnalize` returns a document with one element per input element, the
element at each pre-order position attached to the element at the parent position of the
input (so with the same children in the same order); at the positions inside the shape it
carries the text and the attributes of the input element, at the positions beyond the shape it
has an empty name, no attribute and no text. -/
theorem nesting_follows_markers (methodStruct : GoType) (test : List ShapeNode) (t : Element)
    (htest : mapProcessing (soapHandling methodStruct []) = .ok test)
    (hok : ∀ i lst, (flatNodesElem t)[i]? = some lst → ∃ res, xmlMaker lst test i = .ok res) :
    ∃ doc, xmlAnalize methodStruct [t] = .ok doc ∧
      doc.length = (flatNodesElem t).length ∧
      doc.map (·.parent) = parentsElem t .document 0 ∧
      (∀ (i : Nat) (tag : String) (attr : List Attr) (text : String), i < test.length →
        (flatNodesElem t)[i]? = some [Item.str tag, Item.attrs attr, Item.str text] →
        ∃ o, doc[i]? = some o ∧ o.text = text ∧ o.attr = attrMap attr) ∧
      (∀ i, test.length ≤ i → i < (flatNodesElem t).length →
        ∃ o, doc[i]? = some o ∧ o.tag = "" ∧ o.attr = [] ∧ o.text = "") := by
  obtain ⟨doc, hdoc, hl, hpar, hcontent⟩ :=
    xmlAnalize_tree_output methodStruct test t htest hok
  refine ⟨doc, hdoc, hl, hpar, ?_, ?_⟩
  · intro i tag attr text hi hnode
    obtain ⟨res, hres⟩ := hok i _ hnode
    have hres' := hres
    rw [xmlMaker_node, List.getElem?_eq_getElem hi] at hres'
    simp only at hres'
    cases hx : xmlProcessing (test[i].get (if i = 0 then "XMLName" else tag)) with
    | error e =>
      rw [hx] at hres'
      cases hres'
    | ok name =>
      rw [hx] at hres'
      simp only [Except.ok.injEq] at hres'
      obtain ⟨o, ho, hc⟩ := hcontent i _ _ hnode hres
      rw [← hres'] at hc
      simp only [Prod.mk.injEq] at hc
      exact ⟨o, ho, hc.2.2, hc.2.1⟩
  · intro i hi hlt
    have hnode : (flatNodesElem t)[i]? = some (flatNodesElem t)[i] :=
      List.getElem?_eq_getElem hlt
    obtain ⟨o, ho, hc⟩ := hcontent i _ _ hnode (xmlMaker_beyond _ test i hi)
    simp only [Prod.mk.injEq] at hc
    exact ⟨o, ho, hc.1, hc.2.1, hc.2.2⟩

/-- C4 (witness): `SetHostname` and the input `longDoc`, which has one element beyond the
shape. -/
theorem nesting_follows_markers_witness :
    ∃ doc, xmlAnalize setHostname [longDoc] = .ok doc ∧
      doc.length = (flatNodesElem longDoc).length ∧
      doc.map (·.parent) = parentsElem longDoc .document 0 ∧
      (∀ (i : Nat) (tag : String) (attr : List Attr) (text : String),
        i < [(⟨"XMLName", "xml:\"tds:SetHostname\""⟩ : ShapeNode),
          ⟨"Name", "xml:\"tds:Name\""⟩].length →
        (flatNodesElem longDoc)[i]? = some [Item.str tag, Item.attrs attr, Item.str text] →
        ∃ o, doc[i]? = some o ∧ o.text = text ∧ o.attr = attrMap attr) ∧
      (∀ i, [(⟨"XMLName", "xml:\"tds:SetHostname\""⟩ : ShapeNode),
          ⟨"Name", "xml:\"tds:Name\""⟩].length ≤ i → i < (flatNodesElem longDoc).length →
        ∃ o, doc[i]? = some o ∧ o.tag = "" ∧ o.attr = [] ∧ o.text = "") :=
  nesting_follows_markers setHostname _ longDoc setHostname_test
    (by
      intro i lst hi
      match i, hi with
      | 0, hi =>
        simp [longDoc, flatNodesElem, flatNodes] at hi
        subst hi
        exact ⟨("tds:SetHostname", [], ""), by decide⟩
      | 1, hi =>
        simp [longDoc, flatNodesElem, flatNodes] at hi
        subst hi
        exact ⟨("tds:Name", [], "camera-1"), by decide⟩
      | n + 2, hi => exact ⟨_, xmlMaker_beyond _ _ _ (by simp)⟩)

/-- C5 (counterexample): for a type whose only field is `XMLName`, so that the shape has one
entry, and the input `<R><A/><B/></R>` with three nodes, `xmlAnalize` returns a document and no
error. -/
theorem more_nodes_than_shape_accepted :
    mapProcessing (soapHandling (.struct [("XMLName", "xml:\"R\"", .basic)]) []) =
        .ok [⟨"XMLName", "xml:\"R\""⟩] ∧
      xmlAnalize (.struct [("XMLName", "xml:\"R\"", .basic)])
          [.mk "" "R" [] "" [.mk "" "A" [] "" [], .mk "" "B" [] "" []]] =
        .ok [⟨"R", [], "", .document⟩, ⟨"", [], "", .elem 0⟩, ⟨"", [], "", .elem 0⟩] := by
  decide

/-- C5 (amended): whenever the flattened input has more nodes than the filtered shape has
entries, `xmlMaker` reports no error at a position `i ≥ len(shape)`: it returns an empty name, no
attribute and an empty text; a document whose first top-level element has child elements or whose
top-level elements all have none, and whose nodes at the positions inside the shape resolve,
is accepted by `xmlAnalize`, with one output element per node. -/
theorem no_shape_mismatch_error (methodStruct : GoType) (test : List ShapeNode)
    (etr : List Element) (hs : wellScoped etr = true)
    (htest : mapProcessing (soapHandling methodStruct []) = .ok test)
    (hmore : test.length < (flatNodes etr).length)
    (hok : ∀ i lst, i < test.length → (flatNodes etr)[i]? = some lst →
      ∃ res, xmlMaker lst test i = .ok res) :
    (∀ i lst, test.length ≤ i → xmlMaker lst test i = .ok ("", [], "")) ∧
    ∃ doc, xmlAnalize methodStruct etr = .ok doc ∧ doc.length = (flatNodes etr).length ∧
      ∃ o, doc[test.length]? = some o ∧ o.tag = "" ∧ o.attr = [] ∧ o.text = "" := by
  have hbeyond : ∀ i lst, test.length ≤ i → xmlMaker lst test i = .ok ("", [], "") :=
    fun i lst h => xmlMaker_beyond lst test i h
  have hall : ∀ i lst, (flatNodes etr)[i]? = some lst →
      ∃ res, xmlMaker lst test i = .ok res := by
    intro i lst hi
    by_cases h : i < test.length
    · exact hok i lst h hi
    · exact ⟨_, hbeyond i lst (by omega)⟩
  obtain ⟨doc, hdoc, hl, _, hcontent⟩ := xmlAnalize_forest_output methodStruct test etr hs htest hall
  refine ⟨hbeyond, doc, hdoc, hl, ?_⟩
  obtain ⟨o, ho, hc⟩ := hcontent test.length _ _ (List.getElem?_eq_getElem hmore)
    (hbeyond _ _ (le_refl _))
  simp only [Prod.mk.injEq] at hc
  exact ⟨o, ho, hc.1, hc.2.1, hc.2.2⟩

/-- C5 (witness): `SetHostname`, whose shape has two entries, and the input `longDoc` with three
nodes. -/
theorem no_shape_mismatch_error_witness :
    (∀ i lst, [(⟨"XMLName", "xml:\"tds:SetHostname\""⟩ : ShapeNode),
          ⟨"Name", "xml:\"tds:Name\""⟩].length ≤ i →
        xmlMaker lst [(⟨"XMLName", "xml:\"tds:SetHostname\""⟩ : ShapeNode),
          ⟨"Name", "xml:\"tds:Name\""⟩] i = .ok ("", [], "")) ∧
    ∃ doc, xmlAnalize setHostname [longDoc] = .ok doc ∧
      doc.length = (flatNodes [longDoc]).length ∧
      ∃ o, doc[[(⟨"XMLName", "xml:\"tds:SetHostname\""⟩ : ShapeNode),
          ⟨"Name", "xml:\"tds:Name\""⟩].length]? = some o ∧
        o.tag = "" ∧ o.attr = [] ∧ o.text = "" :=
  no_shape_mismatch_error setHostname _ [longDoc] rfl setHostname_test (by decide)
    (by
      intro i lst hlt hi
      match i, hi with
      | 0, hi =>
        simp [longDoc, flatNodesElem, flatNodes] at hi
        subst hi
        exact ⟨("tds:SetHostname", [], ""), by decide⟩
      | 1, hi =>
        simp [longDoc, flatNodesElem, flatNodes] at hi
        subst hi
        exact ⟨("tds:Name", [], "camera-1"), by decide⟩
      | n + 2, hi =>
        simp at hlt)

/-- C6 (counterexample): for the type with the fields `XMLName`, `A` and `B` and the input
`<R><B>2</B><A>1</A></R>`, which reorders the fields, `xmlAnalize` returns an error. -/
theorem reordered_fields_rejected :
    xmlAnalize (.struct [("XMLName", "xml:\"R\"", .basic), ("A", "xml:\"A\"", .basic),
          ("B", "xml:\"B\"", .basic)])
        [.mk "" "R" [] "" [.mk "" "B" [] "2" [], .mk "" "A" [] "1" []]] =
      .error "xmlMarker: xmlProcessing: out of range" := by
  decide

/-- C6 (amended): acceptance by `xmlAnalize` does not depend on the nesting, among the documents
whose first top-level element has child elements or whose top-level elements all have none: when
such a document `etr` is accepted, every such document `etr2` whose elements in document order
are those of `etr`, or the first ones of `etr`, nested in any way, is accepted too, without
error, and its output follows the nesting of `etr2`.  A document in which an element at a position `i > 0`
inside the shape does not carry the field name of the shape entry `i`, as happens when fields
are reordered or a field before the last is omitted, is rejected with an error. -/
theorem silent_misserialization (methodStruct : GoType) (test : List ShapeNode)
    (etr etr2 : List Element) (hs : wellScoped etr = true) (hs2 : wellScoped etr2 = true)
    (htest : mapProcessing (soapHandling methodStruct []) = .ok test) :
    (flatNodes etr2 <+: flatNodes etr → (∃ doc, xmlAnalize methodStruct etr = .ok doc) →
      ∃ doc2, xmlAnalize methodStruct etr2 = .ok doc2 ∧
        doc2.map (·.parent) = parents etr2 .document 0) ∧
    (∀ (i : Nat) (tag : String) (attr : List Attr) (text : String) (tg : ShapeNode), 0 < i →
      (flatNodes etr2)[i]? = some [Item.str tag, Item.attrs attr, Item.str text] →
      test[i]? = some tg → tag ≠ tg.fieldName →
      xmlAnalize methodStruct etr2 = .error "xmlMarker: xmlProcessing: out of range") := by
  constructor
  · intro hpre hacc
    have hok := (xmlAnalize_forest_ok_iff methodStruct etr hs).mp hacc
    have hte := mapProcessing_ok _ _ htest
    have hok2 : ∀ i lst, (flatNodes etr2)[i]? = some lst →
        ∃ res, xmlMaker lst test i = .ok res := by
      intro i lst hi
      rw [hte]
      apply hok i lst
      obtain ⟨rest, hrest⟩ := hpre
      rw [← hrest]
      have hlt : i < (flatNodes etr2).length := by
        by_contra hc
        rw [List.getElem?_eq_none (by omega)] at hi
        cases hi
      rw [List.getElem?_append_left hlt]
      exact hi
    obtain ⟨doc2, hdoc2, _, hpar, _⟩ := xmlAnalize_forest_output methodStruct test etr2 hs2 htest hok2
    exact ⟨doc2, hdoc2, hpar⟩
  · intro i tag attr text tg hi hnode htg hne
    exact xmlAnalize_tag_mismatch methodStruct test etr2 hs2 htest i tag attr text tg hi hnode htg hne

/-- C6 (witness): `SetHostname`; the input `longDoc` is accepted, and so is `nestedDoc`, which
nests the same elements differently. -/
theorem silent_misserialization_witness :
    ∃ doc2, xmlAnalize setHostname [nestedDoc] = .ok doc2 ∧
      doc2.map (·.parent) = parents [nestedDoc] .document 0 :=
  (silent_misserialization setHostname _ [longDoc] [nestedDoc] rfl rfl setHostname_test).1
    (by decide)
    ⟨[⟨"tds:SetHostname", [], "", .document⟩, ⟨"tds:Name", [], "camera-1", .elem 0⟩,
      ⟨"", [], "", .elem 0⟩], by decide⟩

/-- C7 (counterexample): on the tag `xml:"Name,omitempty,any,attr"` the first modifier
`,omitempty` is at index 4 of the quoted segment, but `xmlProcessing` cuts at `,attr` and returns
`Name,omitempty,any`. -/
theorem late_cut_example :
    findStringSubmatch (chars "xml:\"Name,omitempty,any,attr\"") =
        some (chars "Name,omitempty,any,attr") ∧
      stringsIndex (chars "Name,omitempty,any,attr") (chars ",omitempty") = 4 ∧
      stringsIndex (chars "Name,omitempty,any,attr") (chars ",attr") = 18 ∧
      xmlProcessing "xml:\"Name,omitempty,any,attr\"" = .ok "Name,omitempty,any" := by
  decide

/-- C7 (amended): with `seg` the first double-quoted segment of the raw tag: when at most one of
the modifiers `,attr` and `,omitempty` occurs in `seg`, possibly among other comma-separated
parts, `xmlProcessing` returns the substring before the first occurrence of that modifier, and
the whole segment when none occurs; when `seg` is a comma-free element name followed by
nothing, `,attr`, `,omitempty`, `,attr,omitempty` or `,omitempty,attr`, it returns the element
name; in general it cuts `seg` at the first occurrence of `,attr,omitempty` when there is one,
else of `,omitempty,attr`, else of `,attr`, else of `,omitempty`. -/
theorem xmlProcessing_cut (tg : String) (seg : List Char)
    (h : findStringSubmatch (chars tg) = some seg) :
    (stringsIndex seg (chars ",omitempty") = -1 →
      xmlProcessing tg = .ok (String.mk
        (if stringsIndex seg (chars ",attr") = -1 then seg
          else sliceTo seg (stringsIndex seg (chars ",attr"))))) ∧
    (stringsIndex seg (chars ",attr") = -1 →
      xmlProcessing tg = .ok (String.mk
        (if stringsIndex seg (chars ",omitempty") = -1 then seg
          else sliceTo seg (stringsIndex seg (chars ",omitempty"))))) ∧
    (∀ name mods, seg = name ++ mods → ',' ∉ name →
      mods ∈ [[], chars ",attr", chars ",omitempty", chars ",attr,omitempty",
        chars ",omitempty,attr"] →
      xmlProcessing tg = .ok (String.mk name)) ∧
    ((stringsIndex seg (chars ",attr,omitempty") ≠ -1 →
        xmlProcessing tg =
          .ok (String.mk (sliceTo seg (stringsIndex seg (chars ",attr,omitempty"))))) ∧
      (stringsIndex seg (chars ",attr,omitempty") = -1 →
        stringsIndex seg (chars ",omitempty,attr") ≠ -1 →
        xmlProcessing tg =
          .ok (String.mk (sliceTo seg (stringsIndex seg (chars ",omitempty,attr"))))) ∧
      (stringsIndex seg (chars ",attr,omitempty") = -1 →
        stringsIndex seg (chars ",omitempty,attr") = -1 →
        stringsIndex seg (chars ",attr") ≠ -1 →
        xmlProcessing tg = .ok (String.mk (sliceTo seg (stringsIndex seg (chars ",attr"))))) ∧
      (stringsIndex seg (chars ",attr") = -1 →
        stringsIndex seg (chars ",omitempty") ≠ -1 →
        xmlProcessing tg =
          .ok (String.mk (sliceTo seg (stringsIndex seg (chars ",omitempty"))))) ∧
      (stringsIndex seg (chars ",attr") = -1 →
        stringsIndex seg (chars ",omitempty") = -1 →
        xmlProcessing tg = .ok (String.mk seg))) := by
  obtain ⟨p1, p2, p3, p4, p5⟩ := xmlProcessing_priority tg seg h
  obtain ⟨hA, hO⟩ := stringsIndex_pair_absent seg
  refine ⟨?_, ?_, ?_, p1, p2, p3, p4, p5⟩
  · intro ho
    by_cases ha : stringsIndex seg (chars ",attr") = -1
    · rw [if_pos ha]
      exact p5 ha ho
    · rw [if_neg ha]
      exact p3 (hO ho).1 (hO ho).2 ha
  · intro ha
    by_cases ho : stringsIndex seg (chars ",omitempty") = -1
    · rw [if_pos ho]
      exact p5 ha ho
    · rw [if_neg ho]
      exact p4 ha ho
  · intro name mods hseg hname hmods
    subst hseg
    exact xmlProcessing_canonical tg name mods h hname hmods

/-- C7 (witness): the tags `xml:"tds:Name,attr,omitempty"` and `xml:"Items,any,attr"`. -/
theorem xmlProcessing_cut_witness :
    (findStringSubmatch (chars "xml:\"tds:Name,attr,omitempty\"") =
        some (chars "tds:Name,attr,omitempty") ∧
      xmlProcessing "xml:\"tds:Name,attr,omitempty\"" = .ok "tds:Name") ∧
    (findStringSubmatch (chars "xml:\"Items,any,attr\"") = some (chars "Items,any,attr") ∧
      stringsIndex (chars "Items,any,attr") (chars ",omitempty") = -1 ∧
      xmlProcessing "xml:\"Items,any,attr\"" = .ok "Items,any") :=
  ⟨⟨by decide,
    (xmlProcessing_cut "xml:\"tds:Name,attr,omitempty\"" (chars "tds:Name,attr,omitempty")
      (by decide)).2.2.1 (chars "tds:Name") (chars ",attr,omitempty") (by decide) (by decide)
      (by decide)⟩,
   ⟨by decide, by decide,
    (xmlProcessing_cut "xml:\"Items,any,attr\"" (chars "Items,any,attr") (by decide)).1
      (by decide)⟩⟩

/-- C8 (counterexample): on the tag `xml:",omitempty"`, whose quoted segment holds only a
modifier, `xmlProcessing` returns the empty element name and no error. -/
theorem xmlProcessing_empty_name_no_error :
    xmlProcessing "xml:\",omitempty\"" = .ok "" := by
  decide

/-- C8 (amended): `xmlProcessing` returns an error, always `out of range`, exactly for the
raw tags that do not hold two double quotes with no line feed between them, such as the empty
tag; for a quoted segment made of modifiers only it returns a name without error, the empty
name for `xml:",omitempty"` and `xml:",attr"`. -/
theorem xmlProcessing_error_exactly :
    (∀ tg : String, (∃ e, xmlProcessing tg = .error e) ↔
      ¬ ∃ a b c, chars tg = a ++ '"' :: (b ++ '"' :: c) ∧ '\n' ∉ b) ∧
    (∀ tg e, xmlProcessing tg = .error e → e = "out of range") ∧
    xmlProcessing "" = .error "out of range" ∧
    xmlProcessing "xml:\",omitempty\"" = .ok "" ∧
    xmlProcessing "xml:\",attr\"" = .ok "" :=
  ⟨xmlProcessing_error_iff, xmlProcessing_error_msg, by decide, by decide, by decide⟩

/-- C9 (counterexample): the shape of a type with one field tagged `xml:",omitempty"`
holds one node whose resolved element name is empty, and `mapProcessing` keeps it. -/
theorem mapProcessing_keeps_empty_name :
    soapHandling (.struct [("F", "xml:\",omitempty\"", .basic)]) [] =
        [⟨"F", "xml:\",omitempty\""⟩] ∧
      xmlProcessing "xml:\",omitempty\"" = .ok "" ∧
      mapProcessing [⟨"F", "xml:\",omitempty\""⟩] = .ok [⟨"F", "xml:\",omitempty\""⟩] := by
  decide

/-- C9 (amended): for every list of ShapeNodes produced by `soapHandling`, `mapProcessing`
removes exactly the nodes whose raw tag is the empty string or contains `,attr`, and keeps all
other nodes in their original order. -/
theorem mapProcessing_filters_raw_tag (tp : GoType) (tags : List ShapeNode) :
    mapProcessing (soapHandling tp tags) =
      .ok ((soapHandling tp tags).filter
        (fun n => n.rawTag ≠ "" && stringsIndex (chars n.rawTag) (chars ",attr") = -1)) :=
  mapProcessing_eq_filter (soapHandling tp tags)

/-- C11: `xmlUnmarshal` appends to `data` the FlatNodes (tag, attributes, text) of all elements of
the forest in depth-first pre-order, and to `mas`, for each element, `Push`, the markers of its
child elements and `Pop`; the FlatNode list has one entry per element and the raw marker list
twice as many. -/
theorem xmlUnmarshal_preorder (etr : List Element) (data : List FlatNode) (mas : List String) :
    xmlUnmarshal etr (data, mas) =
        (data ++ (elements etr).map Element.node, mas ++ (rawMarks etr).map Marker.str) ∧
      (xmlUnmarshal etr ([], [])).1.length = elemCount etr ∧
      (xmlUnmarshal etr ([], [])).2.length = 2 * elemCount etr := by
  refine ⟨?_, ?_, ?_⟩
  · rw [xmlUnmarshal_eq, flatNodes_eq_elements]
  · rw [xmlUnmarshal_eq, flatNodes_eq_elements]
    simp [elements_length]
  · rw [xmlUnmarshal_eq]
    simp [rawMarks_length]

/-- C12: in the marker sequence that `xmlUnmarshal` followed by `ident` produces for a document,
`Push` occurs as often as `Pop`, and in no prefix of the sequence does `Pop` occur more often than
`Push`. -/
theorem markers_wellNested (etr : List Element) :
    (ident (xmlUnmarshal etr ([], [])).2).count "Push" =
        (ident (xmlUnmarshal etr ([], [])).2).count "Pop" ∧
      ∀ n, ((ident (xmlUnmarshal etr ([], [])).2).take n).count "Pop" ≤
        ((ident (xmlUnmarshal etr ([], [])).2).take n).count "Push" := by
  rw [ident_xmlUnmarshal]
  cases etr with
  | nil =>
    refine ⟨by decide, ?_⟩
    intro n
    cases n <;> simp
  | cons e rest =>
    simp only [List.isEmpty_cons, Bool.false_eq_true, if_false]
    obtain ⟨_, h2, h3⟩ := marks_counts (e :: rest)
    refine ⟨?_, ?_⟩
    · rw [show ("Push" : String) = Marker.str .push from rfl,
        show ("Pop" : String) = Marker.str .pop from rfl, count_map_str, count_map_str, h2, h3]
    · intro n
      rw [← List.map_take, show ("Push" : String) = Marker.str .push from rfl,
        show ("Pop" : String) = Marker.str .pop from rfl, count_map_str, count_map_str]
      exact marks_prefix (e :: rest) n

/-- C13: on the markers that `xmlUnmarshal` writes for a document, `ident` returns the sequence in
which every adjacent pair `Push`, `Pop` is replaced by one `PushPop` and every other marker is
left in place (for a document without elements, which has no marker, it returns the single
empty string).  In the result every element without child elements accounts for one `PushPop`,
every element with child elements for one `Push` and one `Pop`, and no `Push` is directly
followed by `Pop`. -/
theorem ident_collapses_leaves (etr : List Element) :
    (xmlUnmarshal etr ([], [])).2 = (rawMarks etr).map Marker.str ∧
      ident (xmlUnmarshal etr ([], [])).2 =
        (if etr.isEmpty then [""] else (collapse (rawMarks etr)).map Marker.str) ∧
      (ident (xmlUnmarshal etr ([], [])).2).count "PushPop" = leafCount etr ∧
      (ident (xmlUnmarshal etr ([], [])).2).count "Push" = innerCount etr ∧
      (ident (xmlUnmarshal etr ([], [])).2).count "Pop" = innerCount etr ∧
      ∀ i, (ident (xmlUnmarshal etr ([], [])).2)[i]? = some "Push" →
        (ident (xmlUnmarshal etr ([], [])).2)[i + 1]? ≠ some "Pop" := by
  refine ⟨by rw [xmlUnmarshal_eq]; rfl, by rw [ident_xmlUnmarshal, collapse_rawMarks_eq], ?_⟩
  rw [ident_xmlUnmarshal]
  cases etr with
  | nil =>
    refine ⟨by decide, by decide, by decide, ?_⟩
    intro i h
    cases i <;> simp at h
  | cons e rest =>
    simp only [List.isEmpty_cons, Bool.false_eq_true, if_false]
    obtain ⟨h1, h2, h3⟩ := marks_counts (e :: rest)
    refine ⟨?_, ?_, ?_, ?_⟩
    · rw [show ("PushPop" : String) = Marker.str .pushPop from rfl, count_map_str, h1]
    · rw [show ("Push" : String) = Marker.str .push from rfl, count_map_str, h2]
    · rw [show ("Pop" : String) = Marker.str .pop from rfl, count_map_str, h3]
    · intro i h
      rw [show ("Push" : String) = Marker.str .push from rfl, getElem?_map_str] at h
      rw [show ("Pop" : String) = Marker.str .pop from rfl, ne_eq, getElem?_map_str]
      exact marks_no_push_pop (e :: rest) i h

/-- C14: after `xmlUnmarshal` and `ident` the number of `Push` markers plus the number of
`PushPop` markers is the number of FlatNodes, and every `Push` marker has a matching `Pop`
marker at a later position. -/
theorem marker_node_count (etr : List Element) :
    (ident (xmlUnmarshal etr ([], [])).2).count "Push" +
        (ident (xmlUnmarshal etr ([], [])).2).count "PushPop" =
        (xmlUnmarshal etr ([], [])).1.length ∧
      ∀ i, (ident (xmlUnmarshal etr ([], [])).2)[i]? = some "Push" →
        ∃ j, matchingPop (ident (xmlUnmarshal etr ([], [])).2) i = some j ∧ i < j ∧
          (ident (xmlUnmarshal etr ([], [])).2)[j]? = some "Pop" := by
  rw [ident_xmlUnmarshal]
  cases etr with
  | nil =>
    refine ⟨by decide, ?_⟩
    intro i h
    cases i <;> simp at h
  | cons e rest =>
    simp only [List.isEmpty_cons, Bool.false_eq_true, if_false]
    obtain ⟨h1, h2, _⟩ := marks_counts (e :: rest)
    refine ⟨?_, ?_⟩
    · rw [show ("PushPop" : String) = Marker.str .pushPop from rfl,
        show ("Push" : String) = Marker.str .push from rfl, count_map_str, count_map_str, h1, h2,
        xmlUnmarshal_eq]
      simp only [List.nil_append]
      rw [flatNodes_eq_elements, List.length_map, elements_length]
      exact counts_sum (e :: rest)
    · intro i h
      rw [show ("Push" : String) = Marker.str .push from rfl, getElem?_map_str] at h
      exact marks_matchingPop (e :: rest) i h

/-- C16: after a successful `GetDevice(xaddr, username, password)`, a second `GetDevice` with the
same `xaddr` and `username` returns the handle of the first call, makes no connection attempt
and leaves the cache as it is. -/
theorem cache_hit (newDevice : List DeviceParams → DeviceParams → Except String Device)
    (c : DeviceCache) (calls : List DeviceParams) (xaddr username password password2 : String)
    (dev : Device)
    (h : (c.GetDevice newDevice calls xaddr username password).result = .ok dev) :
    (c.GetDevice newDevice calls xaddr username password).cache.GetDevice newDevice
        (c.GetDevice newDevice calls xaddr username password).calls xaddr username password2 =
      ⟨.ok dev, (c.GetDevice newDevice calls xaddr username password).cache,
        (c.GetDevice newDevice calls xaddr username password).calls⟩ := by
  unfold DeviceCache.GetDevice at h ⊢
  simp only [] at h ⊢
  cases hl : c.devices.lookup (xaddr ++ "|" ++ username) with
  | some d =>
    rw [hl] at h
    simp only [Except.ok.injEq] at h
    subst h
    simp only [hl]
  | none =>
    rw [hl] at h
    simp only [] at h ⊢
    cases hn : newDevice calls ⟨xaddr, username, password⟩ with
    | error e => rw [hn] at h; cases h
    | ok d =>
      rw [hn] at h
      simp only [Except.ok.injEq] at h
      subst h
      simp only [AList.lookup_insert]

/-- C16 (witness): on a new cache the first call for the camera connects and gets the
handle 0; the second call, with another password, returns the handle 0 without a
connection attempt. -/
theorem cache_hit_witness :
    ((NewDeviceCache 600000000000).GetDevice freshDevice [] "192.168.1.10:80" "admin"
          "pw").cache.GetDevice freshDevice
        ((NewDeviceCache 600000000000).GetDevice freshDevice [] "192.168.1.10:80" "admin"
          "pw").calls "192.168.1.10:80" "admin" "other" =
      ⟨.ok 0,
        ((NewDeviceCache 600000000000).GetDevice freshDevice [] "192.168.1.10:80" "admin"
          "pw").cache,
        ((NewDeviceCache 600000000000).GetDevice freshDevice [] "192.168.1.10:80" "admin"
          "pw").calls⟩ :=
  cache_hit freshDevice (NewDeviceCache 600000000000) [] "192.168.1.10:80" "admin" "pw" "other" 0
    (by decide)

/-- C17 (behaviour of the code): on a cache made by `NewDeviceCache` with a TTL of ten minutes,
after one `GetDevice` for the camera, a sweep at any time `now`, however late, removes nothing:
the handle 0 is still in the cache, and the next `GetDevice` returns it without a connection
attempt. -/
theorem sweep_keeps_idle_entry (now : Time) :
    ((NewDeviceCache 600000000000).GetDevice freshDevice [] "192.168.1.10:80" "admin" "pw") =
        ⟨.ok 0, camCache, [camParams]⟩ ∧
      camCache.cleanup now = camCache ∧
      (camCache.cleanup now).devices.lookup "192.168.1.10:80|admin" = some 0 ∧
      (camCache.cleanup now).GetDevice freshDevice [camParams] "192.168.1.10:80" "admin" "pw" =
        ⟨.ok 0, camCache, [camParams]⟩ := by
  have h : camCache.cleanup now = camCache := cleanup_nil camCache now rfl
  rw [h]
  exact ⟨rfl, rfl, by decide, rfl⟩

/-- C18 (behaviour of the code): no call of `GetDevice` changes `lastAccessed`; on a cache made by
`NewDeviceCache`, after the call that creates the entry of the camera and after a second call
that hits it, no time is recorded for its key. -/
theorem getDevice_records_no_access_time :
    (∀ (newDevice : List DeviceParams → DeviceParams → Except String Device) (c : DeviceCache)
        (calls : List DeviceParams) (xaddr username password : String),
        (c.GetDevice newDevice calls xaddr username password).cache.lastAccessed =
          c.lastAccessed) ∧
      camCache.devices.lookup "192.168.1.10:80|admin" = some 0 ∧
      camCache.lastAccessed.lookup "192.168.1.10:80|admin" = none ∧
      (camCache.GetDevice freshDevice [camParams] "192.168.1.10:80" "admin"
        "pw").cache.lastAccessed.lookup "192.168.1.10:80|admin" = none := by
  exact ⟨GetDevice_lastAccessed, by decide, by decide, by decide⟩

/-- C19: `cleanup` keeps the TTL and removes from `devices` and from `lastAccessed` the keys whose
time `lastAccess` recorded in `lastAccessed` has `now.Sub(lastAccess) > ttl`; every other key, one
recorded exactly `ttl` ago and one without a recorded time included, keeps its entry in both
maps. -/
theorem cleanup_effect (c : DeviceCache) (now : Time) (key : String) :
    (c.cleanup now).ttl = c.ttl ∧
      (expired c now key = true ↔
        ∃ lastAccess, c.lastAccessed.lookup key = some lastAccess ∧
          timeSub now lastAccess > c.ttl) ∧
      (c.cleanup now).devices.lookup key =
        (if expired c now key then none else c.devices.lookup key) ∧
      (c.cleanup now).lastAccessed.lookup key =
        (if expired c now key then none else c.lastAccessed.lookup key) ∧
      (∀ lastAccess, c.lastAccessed.lookup key = some lastAccess →
        timeSub now lastAccess = c.ttl →
        (c.cleanup now).devices.lookup key = c.devices.lookup key ∧
          (c.cleanup now).lastAccessed.lookup key = some lastAccess) := by
  obtain ⟨h1, h2, h3⟩ := cleanup_fold now key c.lastAccessed.entries c
  rw [any_entries_eq_expired] at h2 h3
  have hexp : expired c now key = true ↔
      ∃ lastAccess, c.lastAccessed.lookup key = some lastAccess ∧
        timeSub now lastAccess > c.ttl := by
    unfold expired
    cases c.lastAccessed.lookup key with
    | none => simp
    | some la => simp
  refine ⟨h1, hexp, h2, h3, ?_⟩
  intro la hla heq
  have hne : ¬ expired c now key = true := by
    rw [hexp]
    rintro ⟨la', h', hgt⟩
    rw [hla] at h'
    cases h'
    rw [heq] at hgt
    exact lt_irrefl _ hgt
  simp only [DeviceCache.cleanup] at h2 h3 ⊢
  rw [h2, h3, if_neg hne, if_neg hne, hla]
  exact ⟨rfl, rfl⟩

/-- C19 (witness): with a TTL of 10, at the time 25 the key recorded at 15, idle for exactly the
TTL, keeps its entries. -/
theorem cleanup_effect_witness :
    (DeviceCache.cleanup ⟨(∅ : GoMap Device).insert "a" 1, (∅ : GoMap Time).insert "a" 15, 10⟩
        25).devices.lookup "a" =
        (⟨(∅ : GoMap Device).insert "a" 1, (∅ : GoMap Time).insert "a" 15, 10⟩ :
          DeviceCache).devices.lookup "a" ∧
      (DeviceCache.cleanup ⟨(∅ : GoMap Device).insert "a" 1, (∅ : GoMap Time).insert "a" 15, 10⟩
        25).lastAccessed.lookup "a" = some 15 :=
  (cleanup_effect ⟨(∅ : GoMap Device).insert "a" 1, (∅ : GoMap Time).insert "a" 15, 10⟩ 25
    "a").2.2.2.2 15 (by decide) (by decide)

/-- C20: when the key is not in the cache and the connection attempt fails, `GetDevice` returns
the error of the attempt and no handle, and leaves `devices` and `lastAccessed` as they were; a
later call for the same key makes a connection attempt again and returns its answer. -/
theorem no_negative_caching
    (newDevice : List DeviceParams → DeviceParams → Except String Device)
    (c : DeviceCache) (calls : List DeviceParams) (xaddr username password : String)
    (err : String)
    (hmiss : c.devices.lookup (xaddr ++ "|" ++ username) = none)
    (hfail : newDevice calls ⟨xaddr, username, password⟩ = .error err) :
    c.GetDevice newDevice calls xaddr username password =
        ⟨.error err, c, calls ++ [⟨xaddr, username, password⟩]⟩ ∧
      ∀ password2 : String,
        (c.GetDevice newDevice (calls ++ [⟨xaddr, username, password⟩]) xaddr username
            password2).calls =
          calls ++ [⟨xaddr, username, password⟩] ++ [⟨xaddr, username, password2⟩] ∧
        (c.GetDevice newDevice (calls ++ [⟨xaddr, username, password⟩]) xaddr username
            password2).result =
          newDevice (calls ++ [⟨xaddr, username, password⟩]) ⟨xaddr, username, password2⟩ := by
  constructor
  · unfold DeviceCache.GetDevice
    simp only [hmiss, hfail]
  · intro password2
    unfold DeviceCache.GetDevice
    simp only [hmiss]
    cases newDevice (calls ++ [⟨xaddr, username, password⟩]) ⟨xaddr, username, password2⟩ with
    | error e => exact ⟨rfl, rfl⟩
    | ok d => exact ⟨rfl, rfl⟩

/-- C20 (witness): a new cache and a camera that cannot be reached. -/
theorem no_negative_caching_witness :
    (NewDeviceCache 600000000000).GetDevice unreachable [] "192.168.1.10:80" "admin" "pw" =
        ⟨.error "connection refused", NewDeviceCache 600000000000, [] ++ [camParams]⟩ ∧
      ∀ password2 : String,
        ((NewDeviceCache 600000000000).GetDevice unreachable ([] ++ [camParams])
            "192.168.1.10:80" "admin" password2).calls =
          [] ++ [camParams] ++ [⟨"192.168.1.10:80", "admin", password2⟩] ∧
        ((NewDeviceCache 600000000000).GetDevice unreachable ([] ++ [camParams])
            "192.168.1.10:80" "admin" password2).result =
          unreachable ([] ++ [camParams]) ⟨"192.168.1.10:80", "admin", password2⟩ :=
  no_negative_caching unreachable (NewDeviceCache 600000000000) [] "192.168.1.10:80" "admin" "pw"
    "connection refused" (by decide) rfl

/-- C22 (behaviour of the code): for the replies of the cameras at `192.168.1.10` and at
`192.168.1.1`, in this order, the handler of `json_apis` lists both hosts, and the handler of
`xml_apis` lists the first only: it drops the second reply because its host is a substring
of the response written so far. -/
theorem discovery_drops_substring_host :
    replyHosts twoCameras = ["192.168.1.10", "192.168.1.1"] ∧
      JsonApis.handleDiscovery twoCameras =
        .ok [("192.168.1.10", "Cam10"), ("192.168.1.1", "Cam1")] ∧
      stringsContains (chars "[\x7b\"url\":\"192.168.1.10\",\"name\":\"Cam10\"\x7d,")
        (chars "192.168.1.1") = true ∧
      XmlApis.handleDiscovery twoCameras =
        .ok "[\x7b\"url\":\"192.168.1.10\",\"name\":\"Cam10\"\x7d]" := by
  decide

/-- C23: when the first entry of the shape is the field `XMLName` and `xmlProcessing` resolves its
tag to `name`, `xmlMaker` names the first node `name` whatever the tag of the node is, and the
first element of every document that `xmlAnalize` returns for an input with an element is named
`name`; when the first entry of the shape is another field, `xmlMaker` fails on the first node and
`xmlAnalize` returns that error for every input with an element. -/
theorem root_naming (methodStruct : GoType) (test : List ShapeNode) (tg : ShapeNode)
    (htest : mapProcessing (soapHandling methodStruct []) = .ok test)
    (h0 : test[0]? = some tg) :
    (∀ name, tg.fieldName = "XMLName" → xmlProcessing tg.rawTag = .ok name →
        (∀ (tag : String) (attr : List Attr) (text : String),
          xmlMaker [Item.str tag, Item.attrs attr, Item.str text] test 0 =
            .ok (name, attrMap attr, text)) ∧
        (∀ (etr : List Element) (doc : Document), etr ≠ [] →
          xmlAnalize methodStruct etr = .ok doc → ∃ o, doc[0]? = some o ∧ o.tag = name)) ∧
      (tg.fieldName ≠ "XMLName" →
        (∀ (tag : String) (attr : List Attr) (text : String),
          xmlMaker [Item.str tag, Item.attrs attr, Item.str text] test 0 =
            .error "xmlProcessing: out of range") ∧
        (∀ (etr : List Element), etr ≠ [] →
          xmlAnalize methodStruct etr = .error "xmlMarker: xmlProcessing: out of range")) := by
  constructor
  · intro name hname hq
    have hmk : ∀ (tag : String) (attr : List Attr) (text : String),
        xmlMaker [Item.str tag, Item.attrs attr, Item.str text] test 0 =
          .ok (name, attrMap attr, text) := by
      intro tag attr text
      exact xmlMaker_tag_match test 0 tg tag attr text name h0 (by simp [hname]) hq
    refine ⟨hmk, ?_⟩
    intro etr doc hne hacc
    obtain ⟨_, _, _, _, hcontent⟩ := xmlAnalize_accepted methodStruct test etr doc htest hacc
    obtain ⟨tag, attr, text, hnode⟩ := flatNodes_head etr hne
    obtain ⟨o, ho, hc⟩ := hcontent 0 _ _ hnode (hmk tag attr text)
    simp only [Prod.mk.injEq] at hc
    exact ⟨o, ho, hc.1⟩
  · intro hname
    have hmk : ∀ (tag : String) (attr : List Attr) (text : String),
        xmlMaker [Item.str tag, Item.attrs attr, Item.str text] test 0 =
          .error "xmlProcessing: out of range" := by
      intro tag attr text
      rw [xmlMaker_node, h0]
      simp only [if_true, ShapeNode.get, if_neg (Ne.symm hname)]
      rfl
    refine ⟨hmk, ?_⟩
    intro etr hne
    obtain ⟨tag, attr, text, hnode⟩ := flatNodes_head etr hne
    have hte := mapProcessing_ok _ _ htest
    subst hte
    exact xmlAnalize_first_fails methodStruct etr _ _ hnode (hmk tag attr text)

/-- C23 (witness): `SetHostname` and the input `<Other><Name>camera-1</Name></Other>`: the first
output element is named `tds:SetHostname`. -/
theorem root_naming_witness :
    ∃ o, ([⟨"tds:SetHostname", [], "", .document⟩, ⟨"tds:Name", [], "camera-1", .elem 0⟩] :
        Document)[0]? = some o ∧ o.tag = "tds:SetHostname" :=
  ((root_naming setHostname _ ⟨"XMLName", "xml:\"tds:SetHostname\""⟩ setHostname_test rfl).1
    "tds:SetHostname" rfl (by decide)).2
    [.mk "" "Other" [] "" [.mk "" "Name" [] "camera-1" []]] _ (by simp) (by decide)

/-- C24 (counterexample): for the type with the fields `XMLName`, `B` and `C` and the input
`<A/><B><X/></B>`, the third node is named `X` and not `C`, `xmlMaker` returns an error on it,
and `xmlAnalize` returns no error: it panics at the second node.  For a field `F` whose raw tag
holds the two double quotes with a line feed between them, `xmlMaker` returns an error on
the node named `F`. -/
theorem field_mismatch_not_reported :
    (xmlUnmarshal leafThenMismatch ([], [])).1 =
        [[.str "A", .attrs [], .str ""], [.str "B", .attrs [], .str ""],
          [.str "X", .attrs [], .str ""]] ∧
      mapProcessing (soapHandling abcType []) =
        .ok [⟨"XMLName", "xml:\"A\""⟩, ⟨"B", "xml:\"B\""⟩, ⟨"C", "xml:\"C\""⟩] ∧
      xmlMaker [.str "X", .attrs [], .str ""]
          [⟨"XMLName", "xml:\"A\""⟩, ⟨"B", "xml:\"B\""⟩, ⟨"C", "xml:\"C\""⟩] 2 =
        .error "xmlProcessing: out of range" ∧
      xmlAnalize abcType leafThenMismatch = .panic ∧
      xmlProcessing "xml:\"a\nb\"" = .error "out of range" ∧
      xmlMaker [.str "F", .attrs [], .str ""]
          [⟨"XMLName", "xml:\"R\""⟩, ⟨"F", "xml:\"a\nb\""⟩] 1 =
        .error "xmlProcessing: out of range" := by
  decide

/-- C24 (amended): at a position `i` with `0 < i < len(shape)`, `xmlMaker` returns an error
whenever the tag of the node differs from the field name of the shape entry `i`; it succeeds
exactly when the tag is that field name and the raw tag of the entry holds two double quotes
with no line feed between them.  The loop of `xmlAnalize` returns the error of `xmlMaker` from
whatever state it calls it in; `xmlAnalize` accepts no document with a node whose tag differs,
and returns the error when the first top-level element of the document has child elements
or no top-level element has any. -/
theorem field_name_matching (methodStruct : GoType) (test : List ShapeNode) (tg : ShapeNode)
    (htest : mapProcessing (soapHandling methodStruct []) = .ok test)
    (i : Nat) (hi : 0 < i) (ht : test[i]? = some tg)
    (tag : String) (attr : List Attr) (text : String) :
    (tag ≠ tg.fieldName →
        xmlMaker [Item.str tag, Item.attrs attr, Item.str text] test i =
          .error "xmlProcessing: out of range") ∧
      ((∃ res, xmlMaker [Item.str tag, Item.attrs attr, Item.str text] test i = .ok res) ↔
        tag = tg.fieldName ∧
          ∃ a b c, chars tg.rawTag = a ++ '"' :: (b ++ '"' :: c) ∧ '\n' ∉ b) ∧
      (∀ (data : List FlatNode) (mas : List String) (fuel j : Nat) (el : Option Ref)
          (document : Document) (e : String),
        data[i]? = some [Item.str tag, Item.attrs attr, Item.str text] →
        xmlMaker [Item.str tag, Item.attrs attr, Item.str text] test i = .error e →
        xmlAnalizeLoop test data mas (fuel + 1) ⟨i, j, el, document⟩ =
          .error ("xmlMarker: " ++ e)) ∧
      (∀ (etr : List Element),
        (flatNodes etr)[i]? = some [Item.str tag, Item.attrs attr, Item.str text] →
        tag ≠ tg.fieldName →
        (∀ doc, xmlAnalize methodStruct etr ≠ .ok doc) ∧
          (wellScoped etr = true →
            xmlAnalize methodStruct etr = .error "xmlMarker: xmlProcessing: out of range")) := by
  have hmis : tag ≠ tg.fieldName →
      xmlMaker [Item.str tag, Item.attrs attr, Item.str text] test i =
        .error "xmlProcessing: out of range" :=
    fun hne => xmlMaker_tag_mismatch test i tg tag attr text hi ht hne
  refine ⟨hmis, ?_, ?_, ?_⟩
  · constructor
    · rintro ⟨res, hres⟩
      have htag : tag = tg.fieldName := by
        by_contra hne
        rw [hmis hne] at hres
        cases hres
      refine ⟨htag, ?_⟩
      by_contra hq
      obtain ⟨e, he⟩ := (xmlProcessing_error_iff tg.rawTag).mpr hq
      rw [xmlMaker_node, ht] at hres
      simp only [if_neg (Nat.pos_iff_ne_zero.mp hi), ShapeNode.get, htag, if_true, he] at hres
      cases hres
    · rintro ⟨htag, hq⟩
      cases hx : xmlProcessing tg.rawTag with
      | error e => exact absurd hq ((xmlProcessing_error_iff tg.rawTag).mp ⟨e, hx⟩)
      | ok name =>
        exact ⟨_, xmlMaker_tag_match test i tg tag attr text name ht
          (by simp [Nat.pos_iff_ne_zero.mp hi, htag]) hx⟩
  · intro data mas fuel j el document e hd hfail
    exact step_fail test data mas fuel i j el document _ e hd hfail
  · intro etr hnode hne
    refine ⟨?_, ?_⟩
    · intro doc hacc
      obtain ⟨_, hok, _⟩ := xmlAnalize_accepted methodStruct test etr doc htest hacc
      obtain ⟨res, hres⟩ := hok i _ hnode
      rw [hmis hne] at hres
      cases hres
    · intro hs
      exact xmlAnalize_tag_mismatch methodStruct test etr hs htest i tag attr text tg hi hnode
        ht hne

/-- C24 (witness): `SetHostname` and the input
`<SetHostname><Hostname>camera-1</Hostname></SetHostname>`: the second node is not named after the
field `Name`. -/
theorem field_name_matching_witness :
    xmlMaker [Item.str "Hostname", Item.attrs [], Item.str "camera-1"]
        [(⟨"XMLName", "xml:\"tds:SetHostname\""⟩ : ShapeNode), ⟨"Name", "xml:\"tds:Name\""⟩] 1 =
      .error "xmlProcessing: out of range" :=
  (field_name_matching setHostname _ ⟨"Name", "xml:\"tds:Name\""⟩ setHostname_test 1 (by decide)
    rfl "Hostname" [] "camera-1").1 (by decide)

/-- C25 (behaviour of the code): for the type with the fields `XMLName`, `B` and `C` and the input
`<A/><B><C/></B>`, `xmlMaker` resolves the name of each of the three nodes, and `xmlAnalize`
panics: after the top-level leaf `A` no scope is open, and the `Push` branch for `B` calls
`el.AddChild` with `el == nil`. -/
theorem push_without_scope_panics :
    mapProcessing (soapHandling abcType []) =
        .ok [⟨"XMLName", "xml:\"A\""⟩, ⟨"B", "xml:\"B\""⟩, ⟨"C", "xml:\"C\""⟩] ∧
      (xmlUnmarshal leafThenParent ([], [])).1 =
        [[.str "A", .attrs [], .str ""], [.str "B", .attrs [], .str ""],
          [.str "C", .attrs [], .str ""]] ∧
      ident (xmlUnmarshal leafThenParent ([], [])).2 = ["PushPop", "Push", "PushPop", "Pop"] ∧
      xmlMaker [.str "A", .attrs [], .str ""]
          [⟨"XMLName", "xml:\"A\""⟩, ⟨"B", "xml:\"B\""⟩, ⟨"C", "xml:\"C\""⟩] 0 =
        .ok ("A", [], "") ∧
      xmlMaker [.str "B", .attrs [], .str ""]
          [⟨"XMLName", "xml:\"A\""⟩, ⟨"B", "xml:\"B\""⟩, ⟨"C", "xml:\"C\""⟩] 1 =
        .ok ("B", [], "") ∧
      xmlMaker [.str "C", .attrs [], .str ""]
          [⟨"XMLName", "xml:\"A\""⟩, ⟨"B", "xml:\"B\""⟩, ⟨"C", "xml:\"C\""⟩] 2 =
        .ok ("C", [], "") ∧
      xmlAnalize abcType leafThenParent = .panic := by
  decide

/-- C26 (counterexample): for `SetHostname` and the input
`<SetHostname><Hostname>x</Hostname><Port>80</Port></SetHostname>` with three nodes, the loop of
`xmlAnalize` runs two iterations, on the nodes 0 and 1, and ends with the error of the second;
the node 2 is never visited. -/
theorem loop_ends_early_on_error :
    (xmlUnmarshal renamedDoc ([], [])).1.length = 3 ∧
      ident (xmlUnmarshal renamedDoc ([], [])).2 = ["Push", "PushPop", "PushPop", "Pop"] ∧
      (xmlAnalizeRun [⟨"XMLName", "xml:\"tds:SetHostname\""⟩, ⟨"Name", "xml:\"tds:Name\""⟩]
          (xmlUnmarshal renamedDoc ([], [])).1 (ident (xmlUnmarshal renamedDoc ([], [])).2) 5
          ⟨0, 0, none, []⟩).map (·.lstIndex) = [0, 1] ∧
      visited (ident (xmlUnmarshal renamedDoc ([], [])).2)
          (xmlAnalizeRun [⟨"XMLName", "xml:\"tds:SetHostname\""⟩, ⟨"Name", "xml:\"tds:Name\""⟩]
            (xmlUnmarshal renamedDoc ([], [])).1 (ident (xmlUnmarshal renamedDoc ([], [])).2) 5
            ⟨0, 0, none, []⟩) = [0, 1] ∧
      xmlAnalize setHostname renamedDoc = .error "xmlMarker: xmlProcessing: out of range" := by
  decide

/-- C26 (amended): for every non-empty document, with the nodes and markers produced by
`xmlUnmarshal` and `ident`, and every shape: at the start of every iteration of the loop of
`xmlAnalize`, `idntIndex` is less than the number of markers and `lstIndex` less than the number of
nodes; an iteration moves `idntIndex` on by one, leaves `lstIndex` as it is when it takes the `Pop`
branch and moves it on by one otherwise; the loop runs at most as many iterations as there
are markers; and when it ends by its condition, without error or panic, the iterations that
do not take the `Pop` branch have visited every node once, in order. -/
theorem loop_bounds (test : List ShapeNode) (etr : List Element) (data : List FlatNode)
    (mas : List String) (hne : etr ≠ [])
    (hdata : data = (xmlUnmarshal etr ([], [])).1)
    (hmas : mas = ident (xmlUnmarshal etr ([], [])).2) :
    (∀ st ∈ xmlAnalizeRun test data mas (mas.length + 1) ⟨0, 0, none, []⟩,
        st.idntIndex < mas.length ∧ st.lstIndex < data.length) ∧
      (∀ st st1, xmlAnalizeIteration test data mas st = .next st1 →
        st1.idntIndex = st.idntIndex + 1 ∧
          st1.lstIndex = if popIteration mas st then st.lstIndex else st.lstIndex + 1) ∧
      (xmlAnalizeRun test data mas (mas.length + 1) ⟨0, 0, none, []⟩).length ≤ mas.length ∧
      (∀ doc, xmlAnalizeLoop test data mas (mas.length + 1) ⟨0, 0, none, []⟩ = .ok doc →
        visited mas (xmlAnalizeRun test data mas (mas.length + 1) ⟨0, 0, none, []⟩) =
          List.range data.length) := by
  have hd : data = flatNodes etr := by
    rw [hdata, xmlUnmarshal_eq]
    simp
  have hm : mas = (marks etr).map Marker.str := by
    rw [hmas, ident_xmlUnmarshal]
    cases etr with
    | nil => exact absurd rfl hne
    | cons e rest => simp
  have hcount : mas.countP (fun m => decide (m ≠ "Pop")) = data.length := by
    rw [hd, hm]
    exact marks_nonPop etr
  refine ⟨?_, ?_, ?_, ?_⟩
  · rcases run_bounds test data mas hcount (mas.length + 1) ⟨0, 0, none, []⟩ rfl with h | h
    · exact h.1
    · rw [h]
      intro st hst
      cases hst
  · intro st st1 h
    rcases xmlAnalizeIteration_cases test data mas st with ⟨h1, _⟩ | ⟨o, h1, _⟩ |
      ⟨st2, h1, _, hidnt, hlst, _⟩
    · rw [h1] at h
      cases h
    · rw [h1] at h
      cases h
    · rw [h1] at h
      cases h
      exact ⟨hidnt, hlst⟩
  · rcases run_bounds test data mas hcount (mas.length + 1) ⟨0, 0, none, []⟩ rfl with h | h
    · exact h.2
    · rw [h]
      exact Nat.zero_le _
  · intro doc h
    rw [run_visited test data mas _ _ doc h, List.range_eq_range']
    rfl

/-- C26 (witness): `SetHostname` and the input `<SetHostname><Name>camera-1</Name></SetHostname>`:
the loop runs two iterations for three markers. -/
theorem loop_bounds_witness :
    (xmlAnalizeRun [⟨"XMLName", "xml:\"tds:SetHostname\""⟩, ⟨"Name", "xml:\"tds:Name\""⟩]
        (xmlUnmarshal [setHostnameDoc] ([], [])).1
        (ident (xmlUnmarshal [setHostnameDoc] ([], [])).2)
        ((ident (xmlUnmarshal [setHostnameDoc] ([], [])).2).length + 1)
        ⟨0, 0, none, []⟩).length ≤
      (ident (xmlUnmarshal [setHostnameDoc] ([], [])).2).length :=
  (loop_bounds [⟨"XMLName", "xml:\"tds:SetHostname\""⟩, ⟨"Name", "xml:\"tds:Name\""⟩]
    [setHostnameDoc] _ _ (by simp) rfl rfl).2.2.1

/-- C27: on every list of single-entry maps the loop of `mapProcessing` ends without a slice
or index out of range and returns the entries whose raw tag is not empty and does not contain
`,attr`, in their order; applied to its own result it returns it unchanged. -/
theorem mapProcessing_filter_idempotent (mapVar : List ShapeNode) :
    mapProcessing mapVar =
        .ok (mapVar.filter
          (fun n => n.rawTag ≠ "" && stringsIndex (chars n.rawTag) (chars ",attr") = -1)) ∧
      (mapVar.filter
          (fun n => n.rawTag ≠ "" && stringsIndex (chars n.rawTag) (chars ",attr") = -1)).Sublist
        mapVar ∧
      mapProcessing (mapVar.filter
          (fun n => n.rawTag ≠ "" && stringsIndex (chars n.rawTag) (chars ",attr") = -1)) =
        .ok (mapVar.filter
          (fun n => n.rawTag ≠ "" && stringsIndex (chars n.rawTag) (chars ",attr") = -1)) := by
  refine ⟨mapProcessing_eq_filter mapVar, List.filter_sublist _, ?_⟩
  rw [mapProcessing_eq_filter]
  have : keeps = (fun n => n.rawTag ≠ "" && stringsIndex (chars n.rawTag) (chars ",attr") = -1) :=
    rfl
  rw [this, List.filter_filter]
  simp

/-- C28 (counterexample): for a type whose only field is `XMLName` and the input
`<R><B id="7"/></R>`, `xmlAnalize` returns a document whose second element has no attribute. -/
theorem attribute_lost_beyond_shape :
    xmlAnalize (.struct [("XMLName", "xml:\"R\"", .basic)])
        [.mk "" "R" [] "" [.mk "" "B" [⟨"", "id", "7"⟩] "" []]] =
      .ok [⟨"R", [], "", .document⟩, ⟨"", [], "", .elem 0⟩] := by
  decide

/-- C28 (amended): in a document returned by `xmlAnalize`, the output element of an input
element at a position inside the shape has one attribute per local key of the input
element's attributes, with the value of the last input attribute that has this key, and no
other attribute; the output element of an input element at a position beyond the shape
has no attribute. -/
theorem attribute_transfer (methodStruct : GoType) (test : List ShapeNode)
    (etr : List Element) (doc : Document)
    (htest : mapProcessing (soapHandling methodStruct []) = .ok test)
    (hacc : xmlAnalize methodStruct etr = .ok doc) (i : Nat) (tag : String)
    (attr : List Attr) (text : String)
    (hnode : (flatNodes etr)[i]? = some [Item.str tag, Item.attrs attr, Item.str text]) :
    ∃ o, doc[i]? = some o ∧
      (i < test.length →
        (o.attr.map (·.1)).Nodup ∧ ∀ k v, (k, v) ∈ o.attr ↔ lastValue attr k = some v) ∧
      (test.length ≤ i → o.attr = []) := by
  obtain ⟨_, hok, _, _, hcontent⟩ := xmlAnalize_accepted methodStruct test etr doc htest hacc
  obtain ⟨res, hres⟩ := hok i _ hnode
  obtain ⟨o, ho, hc⟩ := hcontent i _ _ hnode hres
  refine ⟨o, ho, ?_, ?_⟩
  · intro hi
    have hres2 := hres
    rw [xmlMaker_node, List.getElem?_eq_getElem hi] at hres2
    simp only at hres2
    cases hx : xmlProcessing (test[i].get (if i = 0 then "XMLName" else tag)) with
    | error e =>
      rw [hx] at hres2
      cases hres2
    | ok name =>
      rw [hx] at hres2
      simp only [Except.ok.injEq] at hres2
      rw [← hres2] at hc
      simp only [Prod.mk.injEq] at hc
      rw [hc.2.1]
      exact attrMap_spec attr
  · intro hi
    rw [xmlMaker_beyond _ test i hi] at hres
    simp only [Except.ok.injEq] at hres
    rw [← hres] at hc
    simp only [Prod.mk.injEq] at hc
    exact hc.2.1

/-- C28 (witness): `SetHostname` and the input
`<SetHostname><Name a:id="1" b:id="2">camera-1</Name></SetHostname>`: the second output element has
the one attribute `id` with the value `2`. -/
theorem attribute_transfer_witness :
    ∃ o, ([⟨"tds:SetHostname", [], "", .document⟩,
          ⟨"tds:Name", [("id", "2")], "camera-1", .elem 0⟩] : Document)[1]? = some o ∧
      (1 < [(⟨"XMLName", "xml:\"tds:SetHostname\""⟩ : ShapeNode),
          ⟨"Name", "xml:\"tds:Name\""⟩].length →
        (o.attr.map (·.1)).Nodup ∧
          ∀ k v, (k, v) ∈ o.attr ↔ lastValue [⟨"a", "id", "1"⟩, ⟨"b", "id", "2"⟩] k = some v) ∧
      ([(⟨"XMLName", "xml:\"tds:SetHostname\""⟩ : ShapeNode),
          ⟨"Name", "xml:\"tds:Name\""⟩].length ≤ 1 → o.attr = []) :=
  attribute_transfer setHostname _ twoIds _ setHostname_test (by decide) 1 "Name"
    [⟨"a", "id", "1"⟩, ⟨"b", "id", "2"⟩] "camera-1" (by decide)

/-- C29 (counterexample): the pairs (`cam`, `admin|x`) and (`cam|admin`, `x`) differ and have
the same cache key; after a `GetDevice` for the first pair, a `GetDevice` for the second pair
returns the handle cached for the first, without a connection attempt. -/
theorem cache_key_collision :
    (("cam", "admin|x") : String × String) ≠ ("cam|admin", "x") ∧
      "cam" ++ "|" ++ "admin|x" = "cam|admin" ++ "|" ++ "x" ∧
      (NewDeviceCache 600000000000).GetDevice freshDevice [] "cam" "admin|x" "pw" =
        ⟨.ok 0, pipeCache, [⟨"cam", "admin|x", "pw"⟩]⟩ ∧
      pipeCache.GetDevice freshDevice [⟨"cam", "admin|x", "pw"⟩] "cam|admin" "x" "other" =
        ⟨.ok 0, pipeCache, [⟨"cam", "admin|x", "pw"⟩]⟩ := by
  exact ⟨by decide, by decide, rfl, rfl⟩

/-- C29 (amended): on the pairs whose `xaddr` holds no `|`, and likewise on the pairs whose
`username` holds none, the cache key `xaddr + "|" + username` is injective: two such pairs with
the same key are equal, and a `GetDevice` for one pair leaves the entry found under the key of
a different pair as it is. -/
theorem cache_key_injective (xaddr username xaddr2 username2 : String)
    (h : ('|' ∉ chars xaddr ∧ '|' ∉ chars xaddr2) ∨
      ('|' ∉ chars username ∧ '|' ∉ chars username2)) :
    (xaddr ++ "|" ++ username = xaddr2 ++ "|" ++ username2 →
        xaddr = xaddr2 ∧ username = username2) ∧
      ((xaddr, username) ≠ (xaddr2, username2) →
        ∀ (newDevice : List DeviceParams → DeviceParams → Except String Device)
          (c : DeviceCache) (calls : List DeviceParams) (password : String),
          (c.GetDevice newDevice calls xaddr2 username2 password).cache.devices.lookup
              (xaddr ++ "|" ++ username) =
            c.devices.lookup (xaddr ++ "|" ++ username)) := by
  refine ⟨cacheKey_eq xaddr username xaddr2 username2 h, ?_⟩
  intro hne newDevice c calls password
  apply GetDevice_devices_lookup
  intro hkey
  obtain ⟨h1, h2⟩ := cacheKey_eq xaddr username xaddr2 username2 h hkey
  exact hne (by rw [h1, h2])

/-- C29 (witness): the pairs (`cam1`, `admin`) and (`cam2`, `admin`), on the cache holding the
handle of the camera. -/
theorem cache_key_injective_witness :
    ('|' ∉ chars "cam1" ∧ '|' ∉ chars "cam2") ∧
      (("cam1", "admin") : String × String) ≠ ("cam2", "admin") ∧
      (camCache.GetDevice freshDevice [camParams] "cam2" "admin" "pw").cache.devices.lookup
          ("cam1" ++ "|" ++ "admin") =
        camCache.devices.lookup ("cam1" ++ "|" ++ "admin") :=
  ⟨⟨by decide, by decide⟩, by decide,
    (cache_key_injective "cam1" "admin" "cam2" "admin" (Or.inl ⟨by decide, by decide⟩)).2
      (by decide) freshDevice camCache [camParams] "pw"⟩

/-- C30: when the cache holds a handle under the key of (`xaddr`, `username`), `GetDevice` returns
it for every password, makes no connection attempt and leaves the cache as it is; when it
holds none, `GetDevice` returns the answer of the connection attempt made with the password. -/
theorem password_independent_hit
    (newDevice : List DeviceParams → DeviceParams → Except String Device)
    (c : DeviceCache) (calls : List DeviceParams) (xaddr username p1 p2 : String) :
    (∀ dev, c.devices.lookup (xaddr ++ "|" ++ username) = some dev →
        c.GetDevice newDevice calls xaddr username p1 = ⟨.ok dev, c, calls⟩ ∧
          c.GetDevice newDevice calls xaddr username p2 = ⟨.ok dev, c, calls⟩) ∧
      (c.devices.lookup (xaddr ++ "|" ++ username) = none →
        (c.GetDevice newDevice calls xaddr username p1).result =
          newDevice calls ⟨xaddr, username, p1⟩) := by
  constructor
  · intro dev h
    unfold DeviceCache.GetDevice
    simp only [h, and_self]
  · intro h
    unfold DeviceCache.GetDevice
    simp only [h]
    cases newDevice calls ⟨xaddr, username, p1⟩ <;> rfl

/-- C30 (witness): the cache holding the handle 0 of the camera, asked with two passwords. -/
theorem password_independent_hit_witness :
    camCache.GetDevice freshDevice [camParams] "192.168.1.10:80" "admin" "pw" =
        ⟨.ok 0, camCache, [camParams]⟩ ∧
      camCache.GetDevice freshDevice [camParams] "192.168.1.10:80" "admin" "guess" =
        ⟨.ok 0, camCache, [camParams]⟩ :=
  (password_independent_hit freshDevice camCache [camParams] "192.168.1.10:80" "admin" "pw"
    "guess").1 0 (by decide)

end GoOnvif
